import Mathlib

/-!
# Online food order management system: order-lifecycle engine

A shallow embedding of `src/project.c` and proofs about it.

Conventions of the embedding

* C `int` values are `Int` (the properties below involve comparisons, `+ 1` on tree heights and
  an increasing order counter; no wrap-around is modelled).
* C `float` amounts of money are exact rationals `Rat`; the statements about money are statements
  in exact arithmetic. The loyalty points are the one integer the program derives from an
  amount, and there the rounding decides the integer: for them the embedding carries the order
  total as the program computes it, with the rounding of every `float` and `double` operation
  (`roundToFloat`, `roundToDouble`, `checkoutFloatTotal`), every operation rounded to the
  format of its C type (`FLT_EVAL_METHOD` 0, no fused operations).
* C strings are `String`; fixed buffer sizes are not modelled.
* A singly or doubly linked list is the `List` of the payloads of its nodes, head first.
* A step of the C code that would dereference a `NULL` pointer makes the embedded function
  return `none`.
-/

namespace FoodOrder

/-! ## Data structures -/

/-- C struct `FoodItem` (menu entry); the `next` pointer is the list structure. -/
structure FoodItem where
  id : Int
  name : String
  category : String
  price : Rat
  stock : Int
deriving DecidableEq

/-- C struct `OrderItem` (line of an order); `prev` and `next` are the list structure. -/
structure OrderItem where
  itemId : Int
  itemName : String
  quantity : Int
  price : Rat
deriving DecidableEq

/-- C struct `Order`. The field `items` is the linked list of line items the C field points to.
The C field `next` is never read and always `NULL`; it is left out. -/
structure Order where
  orderId : Int
  username : String
  address : String
  phone : String
  items : List OrderItem
  itemCount : Int
  subtotal : Rat
  discount : Rat
  deliveryFee : Rat
  tax : Rat
  total : Rat
  priority : Int
  status : Int
  orderTime : Int
  statusTime : Int
deriving DecidableEq

/-- C struct `CartItem` (shopping cart line). -/
structure CartItem where
  itemId : Int
  itemName : String
  quantity : Int
  price : Rat
deriving DecidableEq

/-- C struct `PromoCode`; `discount` is a percentage. -/
structure PromoCode where
  code : String
  discount : Rat
deriving DecidableEq

/-- C struct `User`: a node of the account search tree, `nil` is the `NULL` pointer. -/
inductive User where
  | nil : User
  | node (username password address phone : String) (loyaltyPoints : Int)
      (left right : User) : User
deriving DecidableEq

/-- C struct `OrderHistory`: a node of the AVL tree, `nil` is the `NULL` pointer. The stored
`height` field is kept exactly as the code maintains it. -/
inductive OrderHistory where
  | nil : OrderHistory
  | node (order : Order) (height : Int) (left right : OrderHistory) : OrderHistory
deriving DecidableEq

/-- The delivery queue: the nodes from `deliveryFront` following `next`, and whether the global
`deliveryRear` is `NULL` (the code only ever tests `deliveryRear` against `NULL`). -/
structure DeliveryQueue where
  deliveryFront : List Order
  rearIsNull : Bool
deriving DecidableEq

/-! ## AVL tree: order history -/

/-- C `height`: the stored height of a node, 0 for `NULL`. -/
def height : OrderHistory → Int
  | .nil => 0
  | .node _ h _ _ => h

/-- C `maxInt`. -/
def maxInt (a b : Int) : Int := if a > b then a else b

/-- C `rightRotateAVL`; `none` when `y` or `y->left` is `NULL`. -/
def rightRotateAVL : OrderHistory → Option OrderHistory
  | .node yo _ (.node xo _ xl t2) yr =>
      let y := OrderHistory.node yo (maxInt (height t2) (height yr) + 1) t2 yr
      some (.node xo (maxInt (height xl) (height y) + 1) xl y)
  | _ => none

/-- C `leftRotateAVL`; `none` when `x` or `x->right` is `NULL`. -/
def leftRotateAVL : OrderHistory → Option OrderHistory
  | .node xo _ xl (.node yo _ t2 yr) =>
      let x := OrderHistory.node xo (maxInt (height xl) (height t2) + 1) xl t2
      some (.node yo (maxInt (height x) (height yr) + 1) x yr)
  | _ => none

/-- C `getBalanceAVL`. -/
def getBalanceAVL : OrderHistory → Int
  | .nil => 0
  | .node _ _ l r => height l - height r

/-- C `createOrderHistory`. -/
def createOrderHistory (order : Order) : OrderHistory :=
  .node order 1 .nil .nil

/-- The C condition `c && k < p->order.orderId`: by short-circuit evaluation `p` is dereferenced
only when `c` holds; `none` is a `NULL` dereference. -/
def andKeyLt (c : Bool) (k : Int) (p : OrderHistory) : Option Bool :=
  if c then
    match p with
    | .nil => none
    | .node o _ _ _ => some (decide (k < o.orderId))
  else some false

/-- The C condition `c && k > p->order.orderId`, as `andKeyLt`. -/
def andKeyGt (c : Bool) (k : Int) (p : OrderHistory) : Option Bool :=
  if c then
    match p with
    | .nil => none
    | .node o _ _ _ => some (decide (k > o.orderId))
  else some false

/-- The tail of C `insertOrderHistory` (lines 840-862), run on `node` after its child pointer
has been reassigned: refresh the stored height, compute the balance and try the four rotation
cases in the order of the source. -/
def insertRebalance (o : Order) (l r : OrderHistory) (order : Order) : Option OrderHistory :=
  let node := OrderHistory.node o (1 + maxInt (height l) (height r)) l r
  let balance := getBalanceAVL node
  (andKeyLt (decide (balance > 1)) order.orderId l).bind fun c1 =>
  if c1 then rightRotateAVL node else
  (andKeyGt (decide (balance < -1)) order.orderId r).bind fun c2 =>
  if c2 then leftRotateAVL node else
  (andKeyGt (decide (balance > 1)) order.orderId l).bind fun c3 =>
  if c3 then
    (leftRotateAVL l).bind fun l2 =>
      rightRotateAVL (.node o (1 + maxInt (height l) (height r)) l2 r)
  else
  (andKeyLt (decide (balance < -1)) order.orderId r).bind fun c4 =>
  if c4 then
    (rightRotateAVL r).bind fun r2 =>
      leftRotateAVL (.node o (1 + maxInt (height l) (height r)) l r2)
  else some node

/-- C `insertOrderHistory`. -/
def insertOrderHistory : OrderHistory → Order → Option OrderHistory
  | .nil, order => some (createOrderHistory order)
  | .node o h l r, order =>
      if order.orderId < o.orderId then
        (insertOrderHistory l order).bind fun l2 => insertRebalance o l2 r order
      else if order.orderId > o.orderId then
        (insertOrderHistory r order).bind fun r2 => insertRebalance o l r2 order
      else some (.node o h l r)

/-- C `searchOrderHistoryById`: the node found (as the subtree it roots), `nil` for `NULL`. -/
def searchOrderHistoryById : OrderHistory → Int → OrderHistory
  | .nil, _ => .nil
  | .node o h l r, orderId =>
      if o.orderId = orderId then .node o h l r
      else if orderId < o.orderId then searchOrderHistoryById l orderId
      else searchOrderHistoryById r orderId

/-- The orders in the sequence `displayOrderHistoryInorder` visits (and prints) them. -/
def displayOrderHistoryInorder : OrderHistory → List Order
  | .nil => []
  | .node o _ l r => displayOrderHistoryInorder l ++ o :: displayOrderHistoryInorder r

/-- Inserting a sequence of orders one after the other, as repeated
`historyRoot = insertOrderHistory(historyRoot, order)`. -/
def insertOrders : OrderHistory → List Order → Option OrderHistory
  | t, [] => some t
  | t, o :: os => (insertOrderHistory t o).bind fun t2 => insertOrders t2 os

/-- The order record a node holds (`node->order`), `none` for `NULL`. -/
def nodeOrder : OrderHistory → Option Order
  | .nil => none
  | .node o _ _ _ => some o

/-- True height of a tree: number of nodes on the longest root-to-leaf path. -/
def trueHeight : OrderHistory → Int
  | .nil => 0
  | .node _ _ l r => 1 + max (trueHeight l) (trueHeight r)

/-- Number of nodes. -/
def nodeCount : OrderHistory → Nat
  | .nil => 0
  | .node _ _ l r => nodeCount l + 1 + nodeCount r

/-- Every node has balance factor `trueHeight left - trueHeight right` in {-1, 0, 1}. -/
def Balanced : OrderHistory → Prop
  | .nil => True
  | .node _ _ l r =>
      Balanced l ∧ Balanced r ∧
        -1 ≤ trueHeight l - trueHeight r ∧ trueHeight l - trueHeight r ≤ 1

/-- Every stored `height` field is the true height of its subtree. -/
def HeightsOk : OrderHistory → Prop
  | .nil => True
  | .node _ h l r => HeightsOk l ∧ HeightsOk r ∧ h = 1 + max (trueHeight l) (trueHeight r)

/-- Insertion of an order into a list ascending by id, at its place by id; the list is returned
as it is when it already holds the id. The list-level counterpart of `insertOrderHistory`. -/
def insertById (order : Order) : List Order → List Order
  | [] => [order]
  | a :: rest =>
      if order.orderId < a.orderId then order :: a :: rest
      else if order.orderId > a.orderId then a :: insertById order rest
      else a :: rest

/-- Strictly ascending by `orderId`. -/
def AscendingIds (os : List Order) : Prop :=
  os.Pairwise (fun a b => a.orderId < b.orderId)

/-- Shape of a tree that has just grown by one level through the insertion of key `k`: it is a
single leaf, or its taller side is the side `k` went to. -/
def Leaning (k : Int) : OrderHistory → Prop
  | .nil => False
  | .node x _ l r =>
      (trueHeight l = 0 ∧ trueHeight r = 0) ∨
      (k < x.orderId ∧ trueHeight l = trueHeight r + 1) ∨
      (k > x.orderId ∧ trueHeight r = trueHeight l + 1)

/-- An order used in examples: all fields zero except the id and the priority. -/
def sampleOrder (orderId priority : Int) : Order :=
  { orderId := orderId, username := "", address := "", phone := "", items := [],
    itemCount := 0, subtotal := 0, discount := 0, deliveryFee := 0, tax := 0, total := 0,
    priority := priority, status := 0, orderTime := 0, statusTime := 0 }

/-! ## Stack: order processing -/

/-- The value of the C local `Order emptyOrder = {0}`: every field zero. -/
def emptyOrder : Order :=
  { orderId := 0, username := "", address := "", phone := "", items := [],
    itemCount := 0, subtotal := 0, discount := 0, deliveryFee := 0, tax := 0, total := 0,
    priority := 0, status := 0, orderTime := 0, statusTime := 0 }

/-- C `pushOrder`: a new node holding a copy of `order` becomes `orderStackTop`. -/
def pushOrder (orderStackTop : List Order) (order : Order) : List Order :=
  order :: orderStackTop

/-- C `popOrder`: the order returned and the new `orderStackTop`. On the empty stack the code
returns `emptyOrder`. -/
def popOrder : List Order → Order × List Order
  | [] => (emptyOrder, [])
  | order :: next => (order, next)

/-! ## Queue: delivery system -/

/-- The empty delivery queue: `deliveryFront = deliveryRear = NULL`. -/
def emptyQueue : DeliveryQueue :=
  { deliveryFront := [], rearIsNull := true }

/-- The `while` loop of C `enqueueDelivery` started at `current`, followed by the splice of the
new node between `prev` and `current`: the loop steps over every node whose priority is at least
the new one. -/
def insertAfterScan (order : Order) : List Order → List Order
  | [] => [order]
  | current :: next =>
      if current.priority >= order.priority then current :: insertAfterScan order next
      else order :: current :: next

/-- C `enqueueDelivery`; `none` when `deliveryRear` is not `NULL` while `deliveryFront` is
(the code then dereferences `deliveryFront`). -/
def enqueueDelivery (q : DeliveryQueue) (order : Order) : Option DeliveryQueue :=
  if q.rearIsNull then
    some { deliveryFront := [order], rearIsNull := false }
  else
    match q.deliveryFront with
    | [] => none
    | front :: next =>
        if order.priority > front.priority then
          some { deliveryFront := order :: front :: next, rearIsNull := q.rearIsNull }
        else
          some { deliveryFront := insertAfterScan order (front :: next), rearIsNull := false }

/-- C `dequeueDelivery`: the order returned and the new queue. On the empty queue the code
returns `emptyOrder`. -/
def dequeueDelivery (q : DeliveryQueue) : Order × DeliveryQueue :=
  match q.deliveryFront with
  | [] => (emptyOrder, q)
  | order :: next =>
      (order, { deliveryFront := next, rearIsNull := if next = [] then true else q.rearIsNull })

/-- Enqueueing a sequence of orders one after the other. -/
def enqueueOrders : DeliveryQueue → List Order → Option DeliveryQueue
  | q, [] => some q
  | q, o :: os => (enqueueDelivery q o).bind fun q2 => enqueueOrders q2 os

/-- An operation on the delivery queue. -/
inductive QueueOp where
  | enqueue (order : Order) : QueueOp
  | dequeue : QueueOp

/-- Running a sequence of queue operations. -/
def runQueue : DeliveryQueue → List QueueOp → Option DeliveryQueue
  | q, [] => some q
  | q, .enqueue o :: ops => (enqueueDelivery q o).bind fun q2 => runQueue q2 ops
  | q, .dequeue :: ops => runQueue (dequeueDelivery q).2 ops

/-- Bookkeeping for `runQueue`: the orders still waiting, oldest enqueued first. An enqueue
appends the order; a dequeue removes the order the code returned (its oldest copy). -/
def waitingAfter : DeliveryQueue → List Order → List QueueOp → List Order
  | _, waiting, [] => waiting
  | q, waiting, .enqueue o :: ops =>
      match enqueueDelivery q o with
      | some q2 => waitingAfter q2 (waiting ++ [o]) ops
      | none => waiting
  | q, waiting, .dequeue :: ops =>
      waitingAfter (dequeueDelivery q).2 (waiting.erase (dequeueDelivery q).1) ops

/-- Non-increasing by priority, front to back. -/
def PriorityOrdered (os : List Order) : Prop :=
  os.Pairwise (fun a b => a.priority ≥ b.priority)

/-- The order the queue sorts by: `a` may stand before `b`. -/
def PriorityGe (a b : Order) : Prop := a.priority ≥ b.priority

instance decidablePriorityGe : DecidableRel PriorityGe :=
  fun a b => inferInstanceAs (Decidable (a.priority ≥ b.priority))

/-- The pointer invariant of the queue: `deliveryRear` is `NULL` exactly when `deliveryFront`
is. -/
def RearConsistent (q : DeliveryQueue) : Prop :=
  q.rearIsNull = true ↔ q.deliveryFront = []

/-! ## Arithmetic of C `float` and `double` -/

/-- Rounding of a rational to the nearest integer, a tie going to the even integer: the
rounding of a significand in IEEE 754 arithmetic (round to nearest, ties to even). -/
def roundHalfEven (q : Rat) : Int :=
  if q - ⌊q⌋ < 1 / 2 then ⌊q⌋
  else if 1 / 2 < q - ⌊q⌋ then ⌊q⌋ + 1
  else if ⌊q⌋ % 2 = 0 then ⌊q⌋ else ⌊q⌋ + 1

/-- Binary exponent of the unit in the last place of the values around `x` in a binary format
with a significand of `precision` bits and least normal exponent `emin`: the unit is
`precision - 1` places below the binary exponent of `x`, and the exponent is never taken below
`emin` (under `2 ^ emin` the values are subnormal and share one unit). -/
def ulpExponent (precision emin : Int) (x : Rat) : Int :=
  max (Int.log 2 |x|) emin - (precision - 1)

/-- The value of the format nearest to `x`, ties to even. Overflow to infinity is not
modelled. -/
def roundToFormat (precision emin : Int) (x : Rat) : Rat :=
  roundHalfEven (x / 2 ^ ulpExponent precision emin x) * 2 ^ ulpExponent precision emin x

/-- The C `float` (IEEE 754 binary32: 24 bits, least normal exponent -126) nearest to `x`: the
value a `float` variable holds after `x` is stored in it, and the result of a `float`
operation whose exact result is `x`. -/
def roundToFloat (x : Rat) : Rat := roundToFormat 24 (-126) x

/-- The C `double` (IEEE 754 binary64: 53 bits, least normal exponent -1022) nearest to `x`. -/
def roundToDouble (x : Rat) : Rat := roundToFormat 53 (-1022) x

/-- The finite values of the C type `float`: a significand below `2 ^ 24` in magnitude times a
power of two between `2 ^ (-149)` and `2 ^ 104`. -/
def IsFloat (x : Rat) : Prop :=
  ∃ m k : Int, |m| < 2 ^ 24 ∧ -149 ≤ k ∧ k ≤ 104 ∧ x = m * 2 ^ k

/-! ## Menu, cart and promo codes -/

/-- C `findMenuItem`: the first menu item with the id. -/
def findMenuItem : List FoodItem → Int → Option FoodItem
  | [], _ => none
  | current :: next, id => if current.id = id then some current else findMenuItem next id

/-- C `updateStock`: the item `findMenuItem` returns has `quantity` taken off its stock, with a
floor at zero. -/
def updateStock : List FoodItem → Int → Int → List FoodItem
  | [], _, _ => []
  | current :: next, itemId, quantity =>
      if current.id = itemId then
        { current with
          stock := if current.stock - quantity < 0 then 0 else current.stock - quantity } :: next
      else current :: updateStock next itemId quantity

/-- C `calculateCartTotal`. -/
def calculateCartTotal (cart : List CartItem) : Rat :=
  cart.foldl (fun total current => total + current.price * current.quantity) 0

/-- C `applyPromoCode`: the total after the discount of the first promo code that matches. -/
def applyPromoCode : List PromoCode → String → Rat → Rat
  | [], _, total => total
  | current :: next, code, total =>
      if current.code = code then total - total * (current.discount / 100)
      else applyPromoCode next code total

/-- C `calculateCartTotal` as the program computes it: the prices are `float` values, the `int`
quantity is converted to `float`, `price * quantity` is a `float` product and `total += ...` a
`float` sum. -/
def calculateCartTotalFloat (cart : List CartItem) : Rat :=
  cart.foldl (fun total current =>
    roundToFloat
      (total + roundToFloat (roundToFloat current.price * roundToFloat current.quantity))) 0

/-- C `applyPromoCode` as the program computes it: `current->discount / 100`, the product with
the total and the difference are `float` operations. -/
def applyPromoCodeFloat : List PromoCode → String → Rat → Rat
  | [], _, total => total
  | current :: next, code, total =>
      if current.code = code then
        roundToFloat
          (total - roundToFloat (total * roundToFloat (roundToFloat current.discount / 100)))
      else applyPromoCodeFloat next code total

/-- C `addItemToOrder`. -/
def addItemToOrder (order : Order) (itemId : Int) (itemName : String) (quantity : Int)
    (price : Rat) : Order :=
  { order with
    items := order.items ++
      [{ itemId := itemId, itemName := itemName, quantity := quantity, price := price }]
    itemCount := order.itemCount + 1
    subtotal := order.subtotal + price * quantity }

/-! ## Accounts -/

/-- C `searchUser`: the node found (as the subtree it roots), `nil` for `NULL`. -/
def searchUser : User → String → User
  | .nil, _ => .nil
  | .node u p a ph pts l r, username =>
      if u = username then .node u p a ph pts l r
      else if username < u then searchUser l username
      else searchUser r username

/-- The C conversion `(int)x` of a float: truncation toward zero. -/
def truncToInt (x : Rat) : Int :=
  if 0 ≤ x then x.floor else x.ceil

/-- C `int points = (int)(purchaseAmount * 10)` for a `float purchaseAmount`: the `int` 10 is
converted to `float`, the product is a `float` product, rounded to binary32, and the
conversion to `int` truncates the rounded product. -/
def loyaltyPointsFor (purchaseAmount : Rat) : Int :=
  truncToInt (roundToFloat (purchaseAmount * 10))

/-- C `addLoyaltyPoints` on the tree `userRoot`: the node `searchUser` returns has its
`loyaltyPoints` increased in place. -/
def addLoyaltyPoints : User → String → Rat → User
  | .nil, _, _ => .nil
  | .node u p a ph pts l r, username, purchaseAmount =>
      if u = username then .node u p a ph (pts + loyaltyPointsFor purchaseAmount) l r
      else if username < u then .node u p a ph pts (addLoyaltyPoints l username purchaseAmount) r
      else .node u p a ph pts l (addLoyaltyPoints r username purchaseAmount)

/-! ## Checkout -/

/-- The global variables of the program. -/
structure System where
  menuHead : List FoodItem
  cart : List CartItem
  promoHead : List PromoCode
  orderStackTop : List Order
  delivery : DeliveryQueue
  userRoot : User
  historyRoot : OrderHistory
  currentOrderId : Int

/-- The state at program start, before `initializeSystem`. -/
def initialSystem : System :=
  { menuHead := [], cart := [], promoHead := [], orderStackTop := [], delivery := emptyQueue,
    userRoot := .nil, historyRoot := .nil, currentOrderId := 1000 }

/-- The loop of C `checkout` over the cart (lines 1155-1161): every cart line is added to the
order with `addItemToOrder` and taken off the stock with `updateStock`. -/
def addCartItems : List CartItem → Order → List FoodItem → Order × List FoodItem
  | [], order, menu => (order, menu)
  | cartCurrent :: next, order, menu =>
      addCartItems next
        (addItemToOrder order cartCurrent.itemId cartCurrent.itemName cartCurrent.quantity
          cartCurrent.price)
        (updateStock menu cartCurrent.itemId cartCurrent.quantity)

/-- The order record C `checkout` builds (lines 1110-1161), with the stock after it. The promo
code and the priority are the console inputs; `orderTime` and `statusTime` are the results of
the two `time(NULL)` calls. -/
def checkoutOrder (s : System) (username address phone promoCode : String) (priority : Int)
    (orderTime statusTime : Int) : Order × List FoodItem :=
  let subtotal := calculateCartTotal s.cart
  let total := if promoCode ≠ "skip" then applyPromoCode s.promoHead promoCode subtotal
    else subtotal
  let discount := if promoCode ≠ "skip" then subtotal - total else 0
  let tax := (total + 299 / 100) * (8 / 100)
  let newOrder : Order :=
    { orderId := s.currentOrderId, username := username, address := address, phone := phone,
      items := [], itemCount := 0, subtotal := subtotal, discount := discount,
      deliveryFee := 299 / 100, tax := tax, total := total + 299 / 100 + tax,
      priority := priority, status := 0, orderTime := orderTime, statusTime := statusTime }
  addCartItems s.cart newOrder s.menuHead

/-- The `float` value of `newOrder.total` in C `checkout` (lines 1110-1147), which is what
`addLoyaltyPoints` receives: the cart total and the promo discount in `float` arithmetic; the
tax `(total + 2.99) * 0.08` and the sum `total + 2.99 + newOrder.tax` in `double` arithmetic
(the constants 2.99 and 0.08 are `double`), each rounded to `float` when it is stored. -/
def checkoutFloatTotal (s : System) (promoCode : String) : Rat :=
  let subtotal := calculateCartTotalFloat s.cart
  let total := if promoCode ≠ "skip" then applyPromoCodeFloat s.promoHead promoCode subtotal
    else subtotal
  let tax := roundToFloat
    (roundToDouble (roundToDouble (total + roundToDouble (299 / 100)) * roundToDouble (8 / 100)))
  roundToFloat (roundToDouble (roundToDouble (total + roundToDouble (299 / 100)) + tax))

/-- C `checkout`: the new state and the order shown by `displayOrderDetails` (`none` when the
cart is empty and the function returns at once). The outer `none` is a `NULL` dereference in
`enqueueDelivery` or `insertOrderHistory`. The amounts of the order record are exact; the
loyalty points are credited for the `float` total of the program. -/
def checkout (s : System) (username address phone promoCode : String) (priority : Int)
    (orderTime statusTime : Int) : Option (System × Option Order) :=
  if s.cart = [] then some (s, none)
  else
    let built := checkoutOrder s username address phone promoCode priority orderTime statusTime
    let newOrder := built.1
    (enqueueDelivery s.delivery newOrder).bind fun delivery =>
    (insertOrderHistory s.historyRoot newOrder).bind fun historyRoot =>
    some
      ({ menuHead := built.2, cart := [], promoHead := s.promoHead,
         orderStackTop := pushOrder s.orderStackTop newOrder, delivery := delivery,
         userRoot := addLoyaltyPoints s.userRoot username (checkoutFloatTotal s promoCode),
         historyRoot := historyRoot, currentOrderId := s.currentOrderId + 1 },
       some newOrder)

/-! ## Accounts: insertion and signup -/

/-- The payload of a C `User` node: every field but the two child pointers. -/
structure Account where
  username : String
  password : String
  address : String
  phone : String
  loyaltyPoints : Int
deriving DecidableEq

/-- C `createUser`: a fresh node with no loyalty points and no children. -/
def createUser (username password address phone : String) : Account :=
  { username := username, password := password, address := address, phone := phone,
    loyaltyPoints := 0 }

/-- C `insertUser`, called with a fresh node `newUser` (as every call site does): the tree
returned, and whether the message `Username already exists!` was printed (the node is then
freed and the tree left as it is). -/
def insertUser : User → Account → User × Bool
  | .nil, newUser =>
      (.node newUser.username newUser.password newUser.address newUser.phone
        newUser.loyaltyPoints .nil .nil, false)
  | .node u p a ph pts l r, newUser =>
      if newUser.username < u then
        ((.node u p a ph pts (insertUser l newUser).1 r), (insertUser l newUser).2)
      else if newUser.username > u then
        ((.node u p a ph pts l (insertUser r newUser).1), (insertUser r newUser).2)
      else (.node u p a ph pts l r, true)

/-- The accounts in the sequence `displayUsersInorder` and `saveUsersInorder` visit them. -/
def displayUsersInorder : User → List Account
  | .nil => []
  | .node u p a ph pts l r =>
      displayUsersInorder l ++
        { username := u, password := p, address := a, phone := ph, loyaltyPoints := pts } ::
          displayUsersInorder r

/-- Inserting a sequence of accounts one after the other, as repeated
`userRoot = insertUser(userRoot, newUser)`. -/
def insertUsers : User → List Account → User
  | t, [] => t
  | t, a :: accounts => insertUsers (insertUser t a).1 accounts

/-- The account a node holds, `none` for `NULL`. -/
def nodeAccount : User → Option Account
  | .nil => none
  | .node u p a ph pts _ _ =>
      some { username := u, password := p, address := a, phone := ph, loyaltyPoints := pts }

/-- The tree of the same shape in which every account `x` is replaced by `f x`. -/
def mapAccounts (f : Account → Account) : User → User
  | .nil => .nil
  | .node u p a ph pts l r =>
      .node
        (f { username := u, password := p, address := a, phone := ph,
             loyaltyPoints := pts }).username
        (f { username := u, password := p, address := a, phone := ph,
             loyaltyPoints := pts }).password
        (f { username := u, password := p, address := a, phone := ph,
             loyaltyPoints := pts }).address
        (f { username := u, password := p, address := a, phone := ph,
             loyaltyPoints := pts }).phone
        (f { username := u, password := p, address := a, phone := ph,
             loyaltyPoints := pts }).loyaltyPoints
        (mapAccounts f l) (mapAccounts f r)

/-- Strictly ascending by `username` (the order of `strcmp`). -/
def AscendingNames (accounts : List Account) : Prop :=
  accounts.Pairwise (fun a b => a.username < b.username)

/-- Insertion of an account into a list ascending by username, at its place by name; the list
is returned as it is when it already holds the name. The list-level counterpart of
`insertUser`. -/
def insertByName (account : Account) : List Account → List Account
  | [] => [account]
  | a :: rest =>
      if account.username < a.username then account :: a :: rest
      else if account.username > a.username then a :: insertByName account rest
      else a :: rest

/-- What C `userSignup` tells the user. -/
inductive SignupOutcome where
  | alreadyExists : SignupOutcome
  | created : SignupOutcome
deriving DecidableEq

/-- C `userSignup` with the four console inputs: when `searchUser` finds the username it
prints `Username already exists!` and returns; otherwise it inserts a fresh account and prints
`Account created successfully!`. -/
def userSignup (s : System) (username password address phone : String) :
    System × SignupOutcome :=
  match searchUser s.userRoot username with
  | .node _ _ _ _ _ _ _ => (s, .alreadyExists)
  | .nil =>
      ({ s with userRoot := (insertUser s.userRoot
          (createUser username password address phone)).1 }, .created)

/-! ## Cart and promo maintenance -/

/-- C `addToCart` on the lists `menuHead` and `cartHead`: nothing happens when the item is not
on the menu or its stock is below the quantity; otherwise a line is appended to the cart. -/
def addToCart (menuHead : List FoodItem) (cart : List CartItem) (itemId quantity : Int) :
    List CartItem :=
  match findMenuItem menuHead itemId with
  | none => cart
  | some item =>
      if item.stock < quantity then cart
      else cart ++ [{ itemId := itemId, itemName := item.name, quantity := quantity,
                      price := item.price }]

/-- C `removeFromCart`: the first cart line with the item id is unlinked. -/
def removeFromCart : List CartItem → Int → List CartItem
  | [], _ => []
  | current :: next, itemId =>
      if current.itemId = itemId then next else current :: removeFromCart next itemId

/-- C `addPromoCode`: the code is appended to the promo list. -/
def addPromoCode (promoHead : List PromoCode) (code : String) (discount : Rat) :
    List PromoCode :=
  promoHead ++ [{ code := code, discount := discount }]

/-! ## Order tracking -/

/-- The value of an `Order *` that `searchOrderById` returns: the node of the stack, of the
queue (both by position from the head) or of the history tree (the node the tree search for
the id reaches) whose `order` field it points to. -/
inductive OrderPtr where
  | stackNode (i : Nat) : OrderPtr
  | queueNode (i : Nat) : OrderPtr
  | historyNode (orderId : Int) : OrderPtr
deriving DecidableEq

/-- The two `while` loops of C `searchOrderById`: the position of the first node with the id. -/
def scanForId : List Order → Int → Option Nat
  | [], _ => none
  | current :: next, orderId =>
      if current.orderId = orderId then some 0
      else (scanForId next orderId).map (fun i => i + 1)

/-- C `searchOrderById`; `none` is `NULL`. -/
def searchOrderById (s : System) (orderId : Int) : Option OrderPtr :=
  match scanForId s.orderStackTop orderId with
  | some i => some (.stackNode i)
  | none =>
      match scanForId s.delivery.deliveryFront orderId with
      | some i => some (.queueNode i)
      | none =>
          match searchOrderHistoryById s.historyRoot orderId with
          | .nil => none
          | .node _ _ _ _ => some (.historyNode orderId)

/-- The order record a pointer returned by `searchOrderById` points to. -/
def pointee (s : System) : OrderPtr → Option Order
  | .stackNode i => s.orderStackTop[i]?
  | .queueNode i => s.delivery.deliveryFront[i]?
  | .historyNode orderId => nodeOrder (searchOrderHistoryById s.historyRoot orderId)

/-- C `updateOrderStatus` on one record; `now` is the result of `time(NULL)`. -/
def updateOrderStatus (order : Order) (newStatus now : Int) : Order :=
  { order with status := newStatus, statusTime := now }

/-- A write to the record at position `i` of a list of nodes. -/
def modifyAt (f : Order → Order) : List Order → Nat → List Order
  | [], _ => []
  | current :: next, 0 => f current :: next
  | current :: next, i + 1 => current :: modifyAt f next i

/-- A write to the record of the history node that the tree search for `orderId` reaches. -/
def modifyHistoryNode (f : Order → Order) : OrderHistory → Int → OrderHistory
  | .nil, _ => .nil
  | .node o h l r, orderId =>
      if o.orderId = orderId then .node (f o) h l r
      else if orderId < o.orderId then .node o h (modifyHistoryNode f l orderId) r
      else .node o h l (modifyHistoryNode f r orderId)

/-- C `updateOrderStatus(order, newStatus)` through a pointer `order` into the state. -/
def updateOrderStatusAt (s : System) (p : OrderPtr) (newStatus now : Int) : System :=
  match p with
  | .stackNode i =>
      { s with orderStackTop :=
          modifyAt (fun o => updateOrderStatus o newStatus now) s.orderStackTop i }
  | .queueNode i =>
      { s with delivery :=
          { deliveryFront :=
              modifyAt (fun o => updateOrderStatus o newStatus now) s.delivery.deliveryFront i,
            rearIsNull := s.delivery.rearIsNull } }
  | .historyNode orderId =>
      { s with historyRoot :=
          modifyHistoryNode (fun o => updateOrderStatus o newStatus now) s.historyRoot orderId }

/-- Case 4 of C `adminDashboard`: look the order up with `searchOrderById` and, when it is
found, set its status through the pointer returned. -/
def adminUpdateStatus (s : System) (orderId newStatus now : Int) : System :=
  match searchOrderById s orderId with
  | none => s
  | some p => updateOrderStatusAt s p newStatus now

/-- The tree of the same shape and stored heights in which every order `x` is replaced by
`f x`. -/
def mapOrders (f : Order → Order) : OrderHistory → OrderHistory
  | .nil => .nil
  | .node o h l r => .node (f o) h (mapOrders f l) (mapOrders f r)

/-! ## Runs of the program -/

/-- An action of a user or of the administrator that changes the state. -/
inductive SysOp where
  | addToMenu (id : Int) (name category : String) (price : Rat) (stock : Int) : SysOp
  | addToCart (itemId quantity : Int) : SysOp
  | removeFromCart (itemId : Int) : SysOp
  | checkout (username address phone promoCode : String) (priority : Int)
      (orderTime statusTime : Int) : SysOp
  | processNextOrder : SysOp
  | dequeueDelivery : SysOp
  | updateStatus (orderId newStatus now : Int) : SysOp
  | signup (username password address phone : String) : SysOp
  | addPromoCode (code : String) (discount : Rat) : SysOp

/-- One action: the new state, and the order `checkout` admitted if it admitted one.
`addToMenu` appends the item, its id being the value of the function-static counter of the C
code; `processNextOrder` is case 3 of `adminDashboard`, which pops the stack and sets the status
of its local copy only. -/
def stepSystem (s : System) : SysOp → Option (System × Option Order)
  | .addToMenu id name category price stock =>
      some ({ s with menuHead := s.menuHead ++
        [{ id := id, name := name, category := category, price := price, stock := stock }] },
        none)
  | .addToCart itemId quantity =>
      some ({ s with cart := addToCart s.menuHead s.cart itemId quantity }, none)
  | .removeFromCart itemId =>
      some ({ s with cart := removeFromCart s.cart itemId }, none)
  | .checkout username address phone promoCode priority orderTime statusTime =>
      checkout s username address phone promoCode priority orderTime statusTime
  | .processNextOrder =>
      some ({ s with orderStackTop := (popOrder s.orderStackTop).2 }, none)
  | .dequeueDelivery =>
      some ({ s with delivery := (dequeueDelivery s.delivery).2 }, none)
  | .updateStatus orderId newStatus now =>
      some (adminUpdateStatus s orderId newStatus now, none)
  | .signup username password address phone =>
      some ((userSignup s username password address phone).1, none)
  | .addPromoCode code discount =>
      some ({ s with promoHead := addPromoCode s.promoHead code discount }, none)

/-- A sequence of actions: the final state and the orders admitted by the checkouts, in the
order of their admission. -/
def runSystem : System → List SysOp → Option (System × List Order)
  | s, [] => some (s, [])
  | s, op :: ops =>
      (stepSystem s op).bind fun r =>
        (runSystem r.1 ops).map fun r2 => (r2.1, r.2.toList ++ r2.2)

/-- The state after start-up (`initializeSystem`): some menu, promo codes and accounts have
been loaded; no order exists and the order counter stands at 1000. -/
def startSystem (menuHead : List FoodItem) (promoHead : List PromoCode) (userRoot : User) :
    System :=
  { menuHead := menuHead, cart := [], promoHead := promoHead, orderStackTop := [],
    delivery := emptyQueue, userRoot := userRoot, historyRoot := .nil, currentOrderId := 1000 }

/-- The invariant of the order structures that every action keeps: the queue pointers agree,
the history is a well-formed AVL search tree, and every id in it is below the order counter. -/
def WellFormed (s : System) : Prop :=
  RearConsistent s.delivery ∧ HeightsOk s.historyRoot ∧ Balanced s.historyRoot ∧
    AscendingIds (displayOrderHistoryInorder s.historyRoot) ∧
    ∀ a ∈ displayOrderHistoryInorder s.historyRoot, a.orderId < s.currentOrderId

/-! ## Amounts of an order -/

/-- The sum over the line items of quantity times unit price. -/
def itemsTotal (items : List OrderItem) : Rat :=
  (items.map (fun i => (i.quantity : Rat) * i.price)).sum

/-- The line of an order made from a cart line by `addItemToOrder`. -/
def cartLineItem (c : CartItem) : OrderItem :=
  { itemId := c.itemId, itemName := c.itemName, quantity := c.quantity, price := c.price }

/-- What `addToCart` guarantees of a cart against the menu it was filled from: every line is for
an item on the menu, at the price of the item, with a quantity not above the stock of the
item. -/
def CartWithinStock (menu : List FoodItem) (cart : List CartItem) : Prop :=
  ∀ c ∈ cart, ∃ item, findMenuItem menu c.itemId = some item ∧ c.price = item.price ∧
    c.quantity ≤ item.stock

/-- Every order id on the stack or in the queue is the id of an entry of the history. -/
def OrdersIndexed (s : System) : Prop :=
  (∀ a ∈ s.orderStackTop,
      a.orderId ∈ (displayOrderHistoryInorder s.historyRoot).map Order.orderId) ∧
    ∀ a ∈ s.delivery.deliveryFront,
      a.orderId ∈ (displayOrderHistoryInorder s.historyRoot).map Order.orderId

/-! ## Size of an AVL tree -/

/-- The least number of nodes of an AVL tree of height `h`, paired with that of height
`h + 1`. -/
def minNodesPair : Nat → Nat × Nat
  | 0 => (0, 1)
  | h + 1 => ((minNodesPair h).2, (minNodesPair h).1 + (minNodesPair h).2 + 1)

/-- The least number of nodes of an AVL tree of height `h`: 0, 1, 2, 4, 7, 12, ... with
`minNodes (h + 2) = minNodes (h + 1) + minNodes h + 1`. -/
def minNodes (h : Nat) : Nat := (minNodesPair h).1

/-- The order id is a C `int` of 32 bits. -/
def IsCInt (x : Int) : Prop := -2147483648 ≤ x ∧ x < 2147483648

instance decidableIsCInt (x : Int) : Decidable (IsCInt x) :=
  inferInstanceAs (Decidable (-2147483648 ≤ x ∧ x < 2147483648))

/-- A state in which order 1000 has been admitted: one copy each on the stack, in the queue and
in the history. -/
def oneOrderSystem : System :=
  { menuHead := [], cart := [], promoHead := [], orderStackTop := [sampleOrder 1000 1],
    delivery := { deliveryFront := [sampleOrder 1000 1], rearIsNull := false },
    userRoot := .nil, historyRoot := .node (sampleOrder 1000 1) 1 .nil .nil,
    currentOrderId := 1001 }

/-- A state as after start-up with one menu item and the default accounts and promo codes, in
which the logged-in user has put two Margherita pizzas (item 1, 12.99 each) into the cart. -/
def pizzaCartSystem : System :=
  { menuHead := [{ id := 1, name := "Margherita Pizza", category := "Pizza",
                   price := 1299 / 100, stock := 50 }],
    cart := [{ itemId := 1, itemName := "Margherita Pizza", quantity := 2,
               price := 1299 / 100 }],
    promoHead := [{ code := "WELCOME10", discount := 10 }, { code := "SAVE20", discount := 20 },
                  { code := "FIRSTORDER", discount := 15 }],
    orderStackTop := [], delivery := emptyQueue,
    userRoot := .node "admin" "admin123" "Admin Office" "1234567890" 1000 .nil
      (.node "user" "user123" "123 Main St" "9876543210" 0 .nil .nil),
    historyRoot := .nil, currentOrderId := 1000 }

/-- A state as after start-up in which the logged-in user has put 49 Onion Rings (item 8, 4.99
each) into the cart. -/
def onionRingsCartSystem : System :=
  { menuHead := [{ id := 8, name := "Onion Rings", category := "Sides",
                   price := 499 / 100, stock := 80 }],
    cart := [{ itemId := 8, itemName := "Onion Rings", quantity := 49, price := 499 / 100 }],
    promoHead := [{ code := "WELCOME10", discount := 10 }, { code := "SAVE20", discount := 20 },
                  { code := "FIRSTORDER", discount := 15 }],
    orderStackTop := [], delivery := emptyQueue,
    userRoot := .node "admin" "admin123" "Admin Office" "1234567890" 1000 .nil
      (.node "user" "user123" "123 Main St" "9876543210" 0 .nil .nil),
    historyRoot := .nil, currentOrderId := 1000 }

/-- A state as after start-up in which the logged-in user has put 49 Cheese Burgers (item 5,
9.99 each) into the cart. -/
def cheeseBurgerCartSystem : System :=
  { menuHead := [{ id := 5, name := "Cheese Burger", category := "Burgers",
                   price := 999 / 100, stock := 50 }],
    cart := [{ itemId := 5, itemName := "Cheese Burger", quantity := 49, price := 999 / 100 }],
    promoHead := [{ code := "WELCOME10", discount := 10 }, { code := "SAVE20", discount := 20 },
                  { code := "FIRSTORDER", discount := 15 }],
    orderStackTop := [], delivery := emptyQueue,
    userRoot := .node "admin" "admin123" "Admin Office" "1234567890" 1000 .nil
      (.node "user" "user123" "123 Main St" "9876543210" 0 .nil .nil),
    historyRoot := .nil, currentOrderId := 1000 }

/-! ## Theorems: AVL tree -/

theorem maxInt_eq_max (a b : Int) : maxInt a b = max a b := by
  unfold maxInt
  split <;> omega

theorem trueHeight_nonneg (t : OrderHistory) : 0 ≤ trueHeight t := by
  cases t with
  | nil => simp [trueHeight]
  | node o h l r =>
      have hl := trueHeight_nonneg l
      simp only [trueHeight]
      omega

theorem height_eq_trueHeight {t : OrderHistory} (h : HeightsOk t) : height t = trueHeight t := by
  cases t with
  | nil => rfl
  | node o h l r =>
      simp only [HeightsOk] at h
      simp only [height, trueHeight]
      exact h.2.2

theorem exists_node_of_pos {t : OrderHistory} (h : 0 < trueHeight t) :
    ∃ o s l r, t = .node o s l r := by
  cases t with
  | nil => simp [trueHeight] at h
  | node o s l r => exact ⟨o, s, l, r, rfl⟩

theorem height_node (o : Order) (h : Int) (l r : OrderHistory) :
    height (.node o h l r) = h := rfl

theorem rightRotateAVL_node (yo : Order) (yh : Int) (xo : Order) (xh : Int)
    (xl t2 yr : OrderHistory) :
    rightRotateAVL (.node yo yh (.node xo xh xl t2) yr) =
      some (.node xo (max (height xl) (max (height t2) (height yr) + 1) + 1) xl
        (.node yo (max (height t2) (height yr) + 1) t2 yr)) := by
  simp [rightRotateAVL, maxInt_eq_max, height_node]

theorem leftRotateAVL_node (xo : Order) (xh : Int) (yo : Order) (yh : Int)
    (xl t2 yr : OrderHistory) :
    leftRotateAVL (.node xo xh xl (.node yo yh t2 yr)) =
      some (.node yo (max (max (height xl) (height t2) + 1) (height yr) + 1)
        (.node xo (max (height xl) (height t2) + 1) xl t2) yr) := by
  simp [leftRotateAVL, maxInt_eq_max, height_node]

/-- Rebalancing after the left child has been replaced by `l`, which is at most two levels
taller than `r` and leans to the side of the key when it is two levels taller. -/
theorem insertRebalance_left (o : Order) (l r : OrderHistory) (order : Order)
    (hl : HeightsOk l) (hr : HeightsOk r) (bl : Balanced l) (br : Balanced r)
    (hlo : -1 ≤ trueHeight l - trueHeight r) (hhi : trueHeight l - trueHeight r ≤ 2)
    (hlean : trueHeight l - trueHeight r = 2 → Leaning order.orderId l) :
    ∃ t, insertRebalance o l r order = some t ∧ HeightsOk t ∧ Balanced t ∧
      displayOrderHistoryInorder t =
        displayOrderHistoryInorder l ++ o :: displayOrderHistoryInorder r ∧
      (trueHeight l - trueHeight r ≤ 1 →
        t = .node o (1 + max (trueHeight l) (trueHeight r)) l r) ∧
      (trueHeight l - trueHeight r = 2 → trueHeight t = trueHeight l) := by
  have el := height_eq_trueHeight hl
  have er := height_eq_trueHeight hr
  have nr := trueHeight_nonneg r
  by_cases h2 : trueHeight l - trueHeight r = 2
  · have hpos : 0 < trueHeight l := by omega
    obtain ⟨x, xh, ll, lr, rfl⟩ := exists_node_of_pos hpos
    have hL := hlean h2
    simp only [HeightsOk] at hl
    simp only [Balanced] at bl
    simp only [trueHeight] at h2 hpos el ⊢
    simp only [height_node] at el
    have ell := height_eq_trueHeight hl.1
    have elr := height_eq_trueHeight hl.2.1
    have nll := trueHeight_nonneg ll
    have nlr := trueHeight_nonneg lr
    have hb : (xh - height r > 1) := by omega
    have hb2 : ¬ (xh - height r < -1) := by omega
    simp only [Leaning] at hL
    rcases hL with ⟨h0, h0'⟩ | ⟨hk, hh⟩ | ⟨hk, hh⟩
    · omega
    · have key : insertRebalance o (.node x xh ll lr) r order =
          some (.node x (max (height ll) (max (height lr) (height r) + 1) + 1) ll
            (.node o (max (height lr) (height r) + 1) lr r)) := by
        simp only [insertRebalance, getBalanceAVL, height_node, andKeyLt, hb, decide_True, if_true,
          Option.bind, hk, rightRotateAVL_node]
      refine ⟨_, key, ?_, ?_, ?_, ?_, ?_⟩
      · simp only [HeightsOk, trueHeight, ell, elr, er]
        exact ⟨hl.1, ⟨hl.2.1, hr, by omega⟩, by omega⟩
      · simp only [Balanced, trueHeight]
        refine ⟨bl.1, ⟨bl.2.1, br, ?_, ?_⟩, ?_, ?_⟩ <;> omega
      · simp [displayOrderHistoryInorder]
      · intro h; omega
      · intro _; simp only [trueHeight]; omega
    · have hposr : 0 < trueHeight lr := by omega
      obtain ⟨y, yh, lrl, lrr, rfl⟩ := exists_node_of_pos hposr
      have hlr := hl.2.1
      have blr := bl.2.1
      simp only [HeightsOk] at hlr
      simp only [Balanced] at blr
      simp only [trueHeight] at h2 hpos el hh nlr elr bl hlo hhi ⊢
      simp only [height_node] at elr
      have e1 := height_eq_trueHeight hlr.1
      have e2 := height_eq_trueHeight hlr.2.1
      have n1 := trueHeight_nonneg lrl
      have n2 := trueHeight_nonneg lrr
      have hk1 : ¬ (order.orderId < x.orderId) := by omega
      have key : insertRebalance o (.node x xh ll (.node y yh lrl lrr)) r order =
          some (.node y (max (max (height ll) (height lrl) + 1)
              (max (height lrr) (height r) + 1) + 1)
            (.node x (max (height ll) (height lrl) + 1) ll lrl)
            (.node o (max (height lrr) (height r) + 1) lrr r)) := by
        simp only [insertRebalance, getBalanceAVL, height_node, andKeyLt, andKeyGt, hb, hb2,
          decide_True, decide_False, if_true, if_false, Option.bind, hk, hk1,
          leftRotateAVL_node, rightRotateAVL_node, Bool.false_eq_true]
      refine ⟨_, key, ?_, ?_, ?_, ?_, ?_⟩
      · simp only [HeightsOk, trueHeight, ell, e1, e2, er]
        exact ⟨⟨hl.1, hlr.1, by omega⟩, ⟨hlr.2.1, hr, by omega⟩, by omega⟩
      · simp only [Balanced, trueHeight]
        refine ⟨⟨bl.1, blr.1, ?_, ?_⟩, ⟨blr.2.1, br, ?_, ?_⟩, ?_, ?_⟩ <;> omega
      · simp [displayOrderHistoryInorder]
      · intro h; omega
      · intro _; simp only [trueHeight]; omega
  · have hb : ¬ (trueHeight l - trueHeight r > 1) := by omega
    have hb2 : ¬ (trueHeight l - trueHeight r < -1) := by omega
    have key : insertRebalance o l r order =
        some (.node o (1 + max (trueHeight l) (trueHeight r)) l r) := by
      simp only [insertRebalance, getBalanceAVL, height_node, andKeyLt, andKeyGt, hb, hb2,
        decide_False, if_false, Option.bind, Bool.false_eq_true, maxInt_eq_max, el, er]
    refine ⟨_, key, ?_, ?_, ?_, ?_, ?_⟩
    · simp only [HeightsOk]
      exact ⟨hl, hr, trivial⟩
    · simp only [Balanced]
      refine ⟨bl, br, ?_, ?_⟩ <;> omega
    · simp [displayOrderHistoryInorder]
    · intro _; rfl
    · intro h; omega
/-- Rebalancing after the right child has been replaced by `r`, which is at most two levels
taller than `l` and leans to the side of the key when it is two levels taller. -/
theorem insertRebalance_right (o : Order) (l r : OrderHistory) (order : Order)
    (hl : HeightsOk l) (hr : HeightsOk r) (bl : Balanced l) (br : Balanced r)
    (hlo : -1 ≤ trueHeight r - trueHeight l) (hhi : trueHeight r - trueHeight l ≤ 2)
    (hlean : trueHeight r - trueHeight l = 2 → Leaning order.orderId r) :
    ∃ t, insertRebalance o l r order = some t ∧ HeightsOk t ∧ Balanced t ∧
      displayOrderHistoryInorder t =
        displayOrderHistoryInorder l ++ o :: displayOrderHistoryInorder r ∧
      (trueHeight r - trueHeight l ≤ 1 →
        t = .node o (1 + max (trueHeight l) (trueHeight r)) l r) ∧
      (trueHeight r - trueHeight l = 2 → trueHeight t = trueHeight r) := by
  have el := height_eq_trueHeight hl
  have er := height_eq_trueHeight hr
  have nl := trueHeight_nonneg l
  by_cases h2 : trueHeight r - trueHeight l = 2
  · have hpos : 0 < trueHeight r := by omega
    obtain ⟨x, xh, rl, rr, rfl⟩ := exists_node_of_pos hpos
    have hR := hlean h2
    simp only [HeightsOk] at hr
    simp only [Balanced] at br
    simp only [trueHeight] at h2 hpos er ⊢
    simp only [height_node] at er
    have erl := height_eq_trueHeight hr.1
    have err := height_eq_trueHeight hr.2.1
    have nrl := trueHeight_nonneg rl
    have nrr := trueHeight_nonneg rr
    have hb : ¬ (height l - xh > 1) := by omega
    have hb2 : (height l - xh < -1) := by omega
    simp only [Leaning] at hR
    rcases hR with ⟨h0, h0'⟩ | ⟨hk, hh⟩ | ⟨hk, hh⟩
    · omega
    · have hposl : 0 < trueHeight rl := by omega
      obtain ⟨y, yh, rll, rlr, rfl⟩ := exists_node_of_pos hposl
      have hrl := hr.1
      have brl := br.1
      simp only [HeightsOk] at hrl
      simp only [Balanced] at brl
      simp only [trueHeight] at h2 hpos er hh nrl erl br hlo hhi ⊢
      simp only [height_node] at erl
      have e1 := height_eq_trueHeight hrl.1
      have e2 := height_eq_trueHeight hrl.2.1
      have n1 := trueHeight_nonneg rll
      have n2 := trueHeight_nonneg rlr
      have hk1 : ¬ (order.orderId > x.orderId) := by omega
      have key : insertRebalance o l (.node x xh (.node y yh rll rlr) rr) order =
          some (.node y (max (max (height l) (height rll) + 1)
              (max (height rlr) (height rr) + 1) + 1)
            (.node o (max (height l) (height rll) + 1) l rll)
            (.node x (max (height rlr) (height rr) + 1) rlr rr)) := by
        simp only [insertRebalance, getBalanceAVL, height_node, andKeyLt, andKeyGt, hb, hb2,
          decide_True, decide_False, if_true, if_false, Option.bind, hk, hk1,
          leftRotateAVL_node, rightRotateAVL_node, Bool.false_eq_true]
      refine ⟨_, key, ?_, ?_, ?_, ?_, ?_⟩
      · simp only [HeightsOk, trueHeight, el, e1, e2, err]
        exact ⟨⟨hl, hrl.1, by omega⟩, ⟨hrl.2.1, hr.2.1, by omega⟩, by omega⟩
      · simp only [Balanced, trueHeight]
        refine ⟨⟨bl, brl.1, ?_, ?_⟩, ⟨brl.2.1, br.2.1, ?_, ?_⟩, ?_, ?_⟩ <;> omega
      · simp [displayOrderHistoryInorder]
      · intro h; omega
      · intro _; simp only [trueHeight]; omega
    · have key : insertRebalance o l (.node x xh rl rr) order =
          some (.node x (max (max (height l) (height rl) + 1) (height rr) + 1)
            (.node o (max (height l) (height rl) + 1) l rl) rr) := by
        simp only [insertRebalance, getBalanceAVL, height_node, andKeyLt, andKeyGt, hb, hb2,
          decide_True, decide_False, if_true, if_false, Option.bind, hk,
          leftRotateAVL_node, Bool.false_eq_true]
      refine ⟨_, key, ?_, ?_, ?_, ?_, ?_⟩
      · simp only [HeightsOk, trueHeight, el, erl, err]
        exact ⟨⟨hl, hr.1, by omega⟩, hr.2.1, by omega⟩
      · simp only [Balanced, trueHeight]
        refine ⟨⟨bl, br.1, ?_, ?_⟩, br.2.1, ?_, ?_⟩ <;> omega
      · simp [displayOrderHistoryInorder]
      · intro h; omega
      · intro _; simp only [trueHeight]; omega
  · have hb : ¬ (trueHeight l - trueHeight r > 1) := by omega
    have hb2 : ¬ (trueHeight l - trueHeight r < -1) := by omega
    have key : insertRebalance o l r order =
        some (.node o (1 + max (trueHeight l) (trueHeight r)) l r) := by
      simp only [insertRebalance, getBalanceAVL, height_node, andKeyLt, andKeyGt, hb, hb2,
        decide_False, if_false, Option.bind, Bool.false_eq_true, maxInt_eq_max, el, er]
    refine ⟨_, key, ?_, ?_, ?_, ?_, ?_⟩
    · simp only [HeightsOk]
      exact ⟨hl, hr, trivial⟩
    · simp only [Balanced]
      refine ⟨bl, br, ?_, ?_⟩ <;> omega
    · simp [displayOrderHistoryInorder]
    · intro _; rfl
    · intro h; omega

theorem insertById_append_lt (order x : Order) (ls rs : List Order)
    (h : order.orderId < x.orderId) :
    insertById order (ls ++ x :: rs) = insertById order ls ++ x :: rs := by
  induction ls with
  | nil => simp [insertById, h]
  | cons a ls ih =>
      rw [List.cons_append, insertById, insertById]
      split
      · rfl
      · split
        · rw [ih, List.cons_append]
        · rw [List.cons_append]

theorem insertById_append_gt (order x : Order) (ls rs : List Order)
    (h : x.orderId < order.orderId) (hls : ∀ a ∈ ls, a.orderId < x.orderId) :
    insertById order (ls ++ x :: rs) = ls ++ x :: insertById order rs := by
  induction ls with
  | nil =>
      have h1 : ¬ order.orderId < x.orderId := by omega
      simp [insertById, h, h1]
  | cons a ls ih =>
      have ha := hls a (List.mem_cons_self a ls)
      have h1 : ¬ order.orderId < a.orderId := by omega
      have h2 : order.orderId > a.orderId := by omega
      rw [List.cons_append, insertById, if_neg h1, if_pos h2,
        ih (fun b hb => hls b (List.mem_cons_of_mem a hb)), List.cons_append]

theorem insertById_append_eq (order x : Order) (ls rs : List Order)
    (h : order.orderId = x.orderId) (hls : ∀ a ∈ ls, a.orderId < x.orderId) :
    insertById order (ls ++ x :: rs) = ls ++ x :: rs := by
  induction ls with
  | nil =>
      simp [insertById, h]
  | cons a ls ih =>
      have ha := hls a (List.mem_cons_self a ls)
      have h1 : ¬ order.orderId < a.orderId := by omega
      have h2 : order.orderId > a.orderId := by omega
      rw [List.cons_append, insertById, if_neg h1, if_pos h2,
        ih (fun b hb => hls b (List.mem_cons_of_mem a hb))]

theorem ascending_append_cons {x : Order} {ls rs : List Order}
    (h : AscendingIds (ls ++ x :: rs)) :
    AscendingIds ls ∧ AscendingIds rs ∧ (∀ a ∈ ls, a.orderId < x.orderId) ∧
      (∀ b ∈ rs, x.orderId < b.orderId) := by
  unfold AscendingIds at *
  rw [List.pairwise_append] at h
  obtain ⟨h1, h2, h3⟩ := h
  rw [List.pairwise_cons] at h2
  exact ⟨h1, h2.2, fun a ha => h3 a ha x (List.mem_cons_self x rs), h2.1⟩

/-- One insertion into a well-formed AVL tree succeeds and keeps the tree well formed; the
in-order sequence changes as by `insertById`; the height stays or grows by one, and a tree that
grew leans to the side of the key. -/
theorem insertOrderHistory_inv (t : OrderHistory) (order : Order)
    (hh : HeightsOk t) (hb : Balanced t) (hs : AscendingIds (displayOrderHistoryInorder t)) :
    ∃ t2, insertOrderHistory t order = some t2 ∧ HeightsOk t2 ∧ Balanced t2 ∧
      displayOrderHistoryInorder t2 = insertById order (displayOrderHistoryInorder t) ∧
      (trueHeight t2 = trueHeight t ∨
        (trueHeight t2 = trueHeight t + 1 ∧ Leaning order.orderId t2)) := by
  induction t with
  | nil =>
      refine ⟨createOrderHistory order, rfl, ?_, ?_, ?_, ?_⟩
      · simp [createOrderHistory, HeightsOk, trueHeight]
      · simp [createOrderHistory, Balanced, trueHeight]
      · simp [createOrderHistory, displayOrderHistoryInorder, insertById]
      · right
        simp [createOrderHistory, trueHeight, Leaning]
  | node o h l r ihl ihr =>
      simp only [HeightsOk] at hh
      simp only [Balanced] at hb
      simp only [displayOrderHistoryInorder] at hs
      obtain ⟨sl, sr, hlt, hgt⟩ := ascending_append_cons hs
      by_cases h1 : order.orderId < o.orderId
      · obtain ⟨l2, e2, hh2, hb2, hi2, hg2⟩ := ihl hh.1 hb.1 sl
        obtain ⟨t, et, hht, hbt, hit, hsmall, hbig⟩ :=
          insertRebalance_left o l2 r order hh2 hh.2.1 hb2 hb.2.1 (by omega) (by omega)
            (by
              intro hd
              rcases hg2 with hg | hg
              · omega
              · exact hg.2)
        refine ⟨t, ?_, hht, hbt, ?_, ?_⟩
        · simp only [insertOrderHistory, h1, if_true, e2, Option.bind]
          exact et
        · rw [hit, hi2]
          simp only [displayOrderHistoryInorder]
          rw [insertById_append_lt _ _ _ _ h1]
        · by_cases hd : trueHeight l2 - trueHeight r ≤ 1
          · have ht := hsmall hd
            subst ht
            simp only [trueHeight, Leaning]
            rcases hg2 with hg | hg
            · left; omega
            · by_cases hc : trueHeight l < trueHeight r
              · left; omega
              · right
                refine ⟨by omega, Or.inr (Or.inl ⟨h1, by omega⟩)⟩
          · have ht := hbig (by omega)
            left
            simp only [trueHeight]
            omega
      · by_cases h2 : order.orderId > o.orderId
        · obtain ⟨r2, e2, hh2, hb2, hi2, hg2⟩ := ihr hh.2.1 hb.2.1 sr
          obtain ⟨t, et, hht, hbt, hit, hsmall, hbig⟩ :=
            insertRebalance_right o l r2 order hh.1 hh2 hb.1 hb2 (by omega) (by omega)
              (by
                intro hd
                rcases hg2 with hg | hg
                · omega
                · exact hg.2)
          refine ⟨t, ?_, hht, hbt, ?_, ?_⟩
          · simp only [insertOrderHistory, h1, h2, if_true, if_false, e2, Option.bind]
            exact et
          · rw [hit, hi2]
            simp only [displayOrderHistoryInorder]
            rw [insertById_append_gt _ _ _ _ h2 hlt]
          · by_cases hd : trueHeight r2 - trueHeight l ≤ 1
            · have ht := hsmall hd
              subst ht
              simp only [trueHeight, Leaning]
              rcases hg2 with hg | hg
              · left; omega
              · by_cases hc : trueHeight r < trueHeight l
                · left; omega
                · right
                  refine ⟨by omega, Or.inr (Or.inr ⟨h2, by omega⟩)⟩
            · have ht := hbig (by omega)
              left
              simp only [trueHeight]
              omega
        · refine ⟨.node o h l r, ?_, ?_, ?_, ?_, Or.inl rfl⟩
          · simp only [insertOrderHistory, h1, h2, if_false]
          · simp only [HeightsOk]; exact hh
          · simp only [Balanced]; exact hb
          · simp only [displayOrderHistoryInorder]
            rw [insertById_append_eq _ _ _ _ (by omega) hlt]


theorem mem_insertById (order a : Order) (os : List Order) :
    a ∈ insertById order os → a = order ∨ a ∈ os := by
  induction os with
  | nil => simp [insertById]
  | cons b os ih =>
      rw [insertById]
      split
      · intro h
        rcases List.mem_cons.1 h with h | h
        · exact Or.inl h
        · exact Or.inr h
      · split
        · intro h
          rcases List.mem_cons.1 h with h | h
          · exact Or.inr (h ▸ List.mem_cons_self _ _)
          · rcases ih h with h | h
            · exact Or.inl h
            · exact Or.inr (List.mem_cons_of_mem _ h)
        · intro h
          exact Or.inr h

theorem ascending_insertById (order : Order) (os : List Order) (h : AscendingIds os) :
    AscendingIds (insertById order os) := by
  induction os with
  | nil => simp [insertById, AscendingIds]
  | cons b os ih =>
      unfold AscendingIds at h ih ⊢
      rw [List.pairwise_cons] at h
      rw [insertById]
      split
      · rename_i hlt
        rw [List.pairwise_cons]
        refine ⟨?_, List.pairwise_cons.2 h⟩
        intro c hc
        rcases List.mem_cons.1 hc with hc | hc
        · rw [hc]; exact hlt
        · have := h.1 c hc
          omega
      · split
        · rename_i hgt
          rw [List.pairwise_cons]
          refine ⟨?_, ih h.2⟩
          intro c hc
          rcases mem_insertById _ _ _ hc with hc | hc
          · rw [hc]; omega
          · exact h.1 c hc
        · exact List.pairwise_cons.2 h

theorem ids_insertById (order : Order) (os : List Order) (id : Int) :
    id ∈ (insertById order os).map Order.orderId ↔
      id = order.orderId ∨ id ∈ os.map Order.orderId := by
  induction os with
  | nil => simp [insertById]
  | cons b os ih =>
      rw [insertById]
      split
      · simp
      · split
        · simp only [List.map_cons, List.mem_cons, ih]
          tauto
        · rename_i h1 h2
          have : order.orderId = b.orderId := by omega
          simp only [List.map_cons, List.mem_cons, this]
          tauto

/-- Looking an id up in an ascending list after `insertById`: an entry that was there stays the
answer; otherwise the new order is the answer when it has that id. -/
theorem find_insertById (order : Order) (os : List Order) (id : Int) (h : AscendingIds os) :
    (insertById order os).find? (fun a => decide (a.orderId = id)) =
      ((os.find? (fun a => decide (a.orderId = id))).orElse
        fun _ => if order.orderId = id then some order else none) := by
  induction os with
  | nil =>
      by_cases hid : order.orderId = id <;> simp [insertById, List.find?, hid]
  | cons b os ih =>
      unfold AscendingIds at h ih
      rw [List.pairwise_cons] at h
      rw [insertById]
      by_cases hb : b.orderId = id
      · have hne : ¬ order.orderId = id ∨ ¬ order.orderId < b.orderId := by omega
        split
        · rename_i hlt
          have : ¬ order.orderId = id := by omega
          simp [List.find?, hb, this]
        · split <;> simp [List.find?, hb]
      · split
        · rename_i hlt
          by_cases ho : order.orderId = id
          · have hnone : os.find? (fun a => decide (a.orderId = id)) = none := by
              rw [List.find?_eq_none]
              intro c hc
              have := h.1 c hc
              simp only [decide_eq_true_eq]
              omega
            simp [List.find?, ho, hb, hnone]
          · simp [List.find?, ho, hb]
        · split
          · simp only [List.find?, hb, decide_False]
            exact ih h.2
          · rename_i h1 h2
            have ho : ¬ order.orderId = id := by omega
            simp [List.find?, hb, ho]


theorem find_none_of_ids_ne (os : List Order) (id : Int) (h : ∀ a ∈ os, a.orderId ≠ id) :
    os.find? (fun a => decide (a.orderId = id)) = none := by
  rw [List.find?_eq_none]
  intro c hc
  simpa using h c hc

/-- On a search tree, `searchOrderHistoryById` finds the entry of the in-order sequence that has
the id. -/
theorem search_eq_find (t : OrderHistory) (id : Int)
    (hs : AscendingIds (displayOrderHistoryInorder t)) :
    nodeOrder (searchOrderHistoryById t id) =
      (displayOrderHistoryInorder t).find? (fun a => decide (a.orderId = id)) := by
  induction t with
  | nil => simp [searchOrderHistoryById, nodeOrder, displayOrderHistoryInorder]
  | node o h l r ihl ihr =>
      simp only [displayOrderHistoryInorder] at hs ⊢
      obtain ⟨sl, sr, hlt, hgt⟩ := ascending_append_cons hs
      rw [List.find?_append]
      by_cases h0 : o.orderId = id
      · have hl : (displayOrderHistoryInorder l).find? (fun a => decide (a.orderId = id)) = none :=
          find_none_of_ids_ne _ _ (fun a ha => by have := hlt a ha; omega)
        simp [searchOrderHistoryById, h0, nodeOrder, hl, List.find?]
      · by_cases h1 : id < o.orderId
        · have hr : (displayOrderHistoryInorder r).find? (fun a => decide (a.orderId = id)) = none :=
            find_none_of_ids_ne _ _ (fun a ha => by have := hgt a ha; omega)
          simp [searchOrderHistoryById, h0, h1, ihl sl, List.find?, hr]
        · have hl : (displayOrderHistoryInorder l).find? (fun a => decide (a.orderId = id)) = none :=
            find_none_of_ids_ne _ _ (fun a ha => by have := hlt a ha; omega)
          simp [searchOrderHistoryById, h0, h1, ihr sr, List.find?, hl]

theorem ids_foldl_insertById (os ls : List Order) (id : Int) :
    id ∈ (os.foldl (fun acc o => insertById o acc) ls).map Order.orderId ↔
      id ∈ ls.map Order.orderId ∨ id ∈ os.map Order.orderId := by
  induction os generalizing ls with
  | nil => simp
  | cons o os ih =>
      simp only [List.foldl_cons, ih, ids_insertById, List.map_cons, List.mem_cons]
      tauto

theorem ascending_foldl_insertById (os ls : List Order) (h : AscendingIds ls) :
    AscendingIds (os.foldl (fun acc o => insertById o acc) ls) := by
  induction os generalizing ls with
  | nil => exact h
  | cons o os ih => exact ih _ (ascending_insertById o ls h)

theorem find_foldl_insertById (os ls : List Order) (id : Int) (h : AscendingIds ls) :
    (os.foldl (fun acc o => insertById o acc) ls).find? (fun a => decide (a.orderId = id)) =
      ((ls.find? (fun a => decide (a.orderId = id))).orElse
        fun _ => os.find? (fun a => decide (a.orderId = id))) := by
  induction os generalizing ls with
  | nil => cases hf : ls.find? (fun a => decide (a.orderId = id)) <;> simp [hf]
  | cons o os ih =>
      simp only [List.foldl_cons]
      rw [ih _ (ascending_insertById o ls h), find_insertById _ _ _ h]
      cases hf : ls.find? (fun a => decide (a.orderId = id)) with
      | some x => simp
      | none =>
          by_cases ho : o.orderId = id <;> simp [List.find?, ho]

/-- Any sequence of insertions into a well-formed AVL tree succeeds and gives a well-formed
AVL tree whose in-order sequence is the list-level insertion of the orders. -/
theorem insertOrders_inv (os : List Order) (t : OrderHistory)
    (hh : HeightsOk t) (hb : Balanced t) (hs : AscendingIds (displayOrderHistoryInorder t)) :
    ∃ t2, insertOrders t os = some t2 ∧ HeightsOk t2 ∧ Balanced t2 ∧
      displayOrderHistoryInorder t2 =
        os.foldl (fun acc o => insertById o acc) (displayOrderHistoryInorder t) := by
  induction os generalizing t with
  | nil => exact ⟨t, rfl, hh, hb, rfl⟩
  | cons o os ih =>
      obtain ⟨t1, e1, hh1, hb1, hi1, _⟩ := insertOrderHistory_inv t o hh hb hs
      have hs1 : AscendingIds (displayOrderHistoryInorder t1) := by
        rw [hi1]; exact ascending_insertById o _ hs
      obtain ⟨t2, e2, hh2, hb2, hi2⟩ := ih t1 hh1 hb1 hs1
      refine ⟨t2, ?_, hh2, hb2, ?_⟩
      · simp only [insertOrders, e1, Option.bind]
        exact e2
      · rw [hi2, hi1]
        rfl

theorem insertOrders_nil_inv (os : List Order) :
    ∃ t, insertOrders .nil os = some t ∧ HeightsOk t ∧ Balanced t ∧
      displayOrderHistoryInorder t = os.foldl (fun acc o => insertById o acc) [] ∧
      AscendingIds (displayOrderHistoryInorder t) := by
  obtain ⟨t, e, hh, hb, hi⟩ := insertOrders_inv os .nil trivial trivial List.Pairwise.nil
  refine ⟨t, e, hh, hb, hi, ?_⟩
  rw [hi]
  exact ascending_foldl_insertById os [] List.Pairwise.nil

/-- Inserting an id that is in the tree returns the tree itself. -/
theorem insertOrderHistory_present (t : OrderHistory) (order : Order)
    (hh : HeightsOk t) (hb : Balanced t) (hs : AscendingIds (displayOrderHistoryInorder t))
    (hin : order.orderId ∈ (displayOrderHistoryInorder t).map Order.orderId) :
    insertOrderHistory t order = some t := by
  induction t with
  | nil => simp [displayOrderHistoryInorder] at hin
  | node o h l r ihl ihr =>
      simp only [HeightsOk] at hh
      simp only [Balanced] at hb
      simp only [displayOrderHistoryInorder] at hs hin
      obtain ⟨sl, sr, hlt, hgt⟩ := ascending_append_cons hs
      simp only [List.map_append, List.map_cons, List.mem_append, List.mem_cons,
        List.mem_map] at hin
      by_cases h1 : order.orderId < o.orderId
      · have hin2 : order.orderId ∈ (displayOrderHistoryInorder l).map Order.orderId := by
          rcases hin with ⟨a, ha, hae⟩ | hin | ⟨a, ha, hae⟩
          · exact List.mem_map.2 ⟨a, ha, hae⟩
          · omega
          · have := hgt a ha; omega
        have e := ihl hh.1 hb.1 sl hin2
        obtain ⟨t, et, _, _, _, hsmall, _⟩ :=
          insertRebalance_left o l r order hh.1 hh.2.1 hb.1 hb.2.1 (by omega) (by omega)
            (by intro hd; omega)
        have ht := hsmall (by omega)
        simp only [insertOrderHistory, h1, if_true, e, Option.bind]
        rw [et, ht, hh.2.2]
      · by_cases h2 : order.orderId > o.orderId
        · have hin2 : order.orderId ∈ (displayOrderHistoryInorder r).map Order.orderId := by
            rcases hin with ⟨a, ha, hae⟩ | hin | ⟨a, ha, hae⟩
            · have := hlt a ha; omega
            · omega
            · exact List.mem_map.2 ⟨a, ha, hae⟩
          have e := ihr hh.2.1 hb.2.1 sr hin2
          obtain ⟨t, et, _, _, _, hsmall, _⟩ :=
            insertRebalance_right o l r order hh.1 hh.2.1 hb.1 hb.2.1 (by omega) (by omega)
              (by intro hd; omega)
          have ht := hsmall (by omega)
          simp only [insertOrderHistory, h1, h2, if_true, if_false, e, Option.bind]
          rw [et, ht, hh.2.2]
        · simp only [insertOrderHistory, h1, h2, if_false]


/-! ## Claims about the order history -/

/-- C1: for every sequence of orders inserted with `insertOrderHistory` starting from the empty
tree, all insertions succeed and every node of the resulting tree has balance factor
`trueHeight left - trueHeight right` in {-1, 0, 1}; moreover every stored `height` field is the
true height, so the balance the code computes from the stored fields is the true one. -/
theorem C1_insertOrderHistory_balanced (os : List Order) :
    ∃ t, insertOrders .nil os = some t ∧ Balanced t ∧ HeightsOk t := by
  obtain ⟨t, e, hh, hb, _, _⟩ := insertOrders_nil_inv os
  exact ⟨t, e, hb, hh⟩

/-- C2: for every sequence of orders inserted into the empty tree, the in-order traversal is
strictly ascending by id and holds exactly the ids inserted, so its ids are the sorted list of
the distinct ids inserted; and inserting 1000, 1005, 1002, 1010, 1007 gives the in-order ids
1000, 1002, 1005, 1007, 1010 in a tree of height 3. -/
theorem C2_inorder_ascending_distinct :
    (∀ os : List Order, ∃ t, insertOrders .nil os = some t ∧
      AscendingIds (displayOrderHistoryInorder t) ∧
      (∀ id, id ∈ (displayOrderHistoryInorder t).map Order.orderId ↔
        id ∈ os.map Order.orderId) ∧
      (displayOrderHistoryInorder t).map Order.orderId =
        (os.map Order.orderId).toFinset.sort (fun a b => a ≤ b)) ∧
    (insertOrders .nil
        [sampleOrder 1000 1, sampleOrder 1005 1, sampleOrder 1002 1, sampleOrder 1010 1,
          sampleOrder 1007 1]).map
      (fun t => ((displayOrderHistoryInorder t).map Order.orderId, trueHeight t, height t)) =
      some ([1000, 1002, 1005, 1007, 1010], 3, 3) := by
  refine ⟨?_, by decide⟩
  intro os
  obtain ⟨t, e, _, _, hi, hs⟩ := insertOrders_nil_inv os
  have hmem : ∀ id, id ∈ (displayOrderHistoryInorder t).map Order.orderId ↔
      id ∈ os.map Order.orderId := by
    intro id
    rw [hi, ids_foldl_insertById]
    simp
  have hsorted : ((displayOrderHistoryInorder t).map Order.orderId).Sorted (fun a b => a < b) := by
    unfold AscendingIds at hs
    exact List.pairwise_map.2 hs
  refine ⟨t, e, hs, hmem, ?_⟩
  have hfin : (os.map Order.orderId).toFinset =
      ((displayOrderHistoryInorder t).map Order.orderId).toFinset := by
    ext id
    simp only [List.mem_toFinset]
    exact (hmem id).symm
  rw [hfin]
  exact ((List.toFinset_sort (fun a b : Int => a ≤ b) hsorted.nodup).2 hsorted.le_of_lt).symm

/-- C3: for every tree built by insertions from the empty tree and every id,
`searchOrderHistoryById` returns a node iff an order with that id was inserted, and the node
holds the first order inserted with that id. -/
theorem C3_search_finds_first_insertion (os : List Order) (id : Int) :
    ∃ t, insertOrders .nil os = some t ∧
      (searchOrderHistoryById t id ≠ .nil ↔ id ∈ os.map Order.orderId) ∧
      nodeOrder (searchOrderHistoryById t id) =
        os.find? (fun o => decide (o.orderId = id)) := by
  obtain ⟨t, e, _, _, hi, hs⟩ := insertOrders_nil_inv os
  have hfind : nodeOrder (searchOrderHistoryById t id) =
      os.find? (fun o => decide (o.orderId = id)) := by
    rw [search_eq_find t id hs, hi, find_foldl_insertById os [] id List.Pairwise.nil]
    simp
  refine ⟨t, e, ?_, hfind⟩
  have h1 : searchOrderHistoryById t id ≠ .nil ↔
      (nodeOrder (searchOrderHistoryById t id)).isSome = true := by
    cases searchOrderHistoryById t id <;> simp [nodeOrder]
  rw [h1, hfind, List.find?_isSome]
  simp only [decide_eq_true_eq, List.mem_map]

/-- C4: for every tree built by insertions from the empty tree and every order whose id is in
the tree, `insertOrderHistory` returns the input tree itself: same nodes, same shape, same stored
orders and same stored heights. -/
theorem C4_duplicate_insert_is_identity (os : List Order) (t : OrderHistory) (order : Order)
    (ht : insertOrders .nil os = some t)
    (hin : order.orderId ∈ (displayOrderHistoryInorder t).map Order.orderId) :
    insertOrderHistory t order = some t := by
  obtain ⟨t2, e, hh, hb, _, hs⟩ := insertOrders_nil_inv os
  rw [ht] at e
  cases e
  exact insertOrderHistory_present t order hh hb hs hin

/-- An instance of C4: re-inserting id 1005 into the tree built from 1000 and 1005. -/
theorem C4_duplicate_insert_is_identity_witness :
    insertOrders .nil [sampleOrder 1000 1, sampleOrder 1005 2] =
        some (.node (sampleOrder 1000 1) 2 .nil (.node (sampleOrder 1005 2) 1 .nil .nil)) ∧
      (sampleOrder 1005 4).orderId ∈ (displayOrderHistoryInorder
        (.node (sampleOrder 1000 1) 2 .nil (.node (sampleOrder 1005 2) 1 .nil .nil))).map
          Order.orderId ∧
      insertOrderHistory
          (.node (sampleOrder 1000 1) 2 .nil (.node (sampleOrder 1005 2) 1 .nil .nil))
          (sampleOrder 1005 4) =
        some (.node (sampleOrder 1000 1) 2 .nil (.node (sampleOrder 1005 2) 1 .nil .nil)) :=
  ⟨by decide, by decide,
    C4_duplicate_insert_is_identity [sampleOrder 1000 1, sampleOrder 1005 2] _ (sampleOrder 1005 4)
      (by decide) (by decide)⟩


/-! ## Theorems: delivery queue -/

/-- On a queue whose two pointers agree, `enqueueDelivery` succeeds and places the order as the
scan from the front does. -/
theorem enqueueDelivery_eq (q : DeliveryQueue) (order : Order) (hq : RearConsistent q) :
    enqueueDelivery q order =
      some { deliveryFront := insertAfterScan order q.deliveryFront, rearIsNull := false } := by
  obtain ⟨front, rear⟩ := q
  unfold RearConsistent at hq
  simp only at hq
  cases rear with
  | true =>
      have hf : front = [] := hq.1 rfl
      subst hf
      simp [enqueueDelivery, insertAfterScan]
  | false =>
      cases front with
      | nil => simp at hq
      | cons f n =>
          by_cases hp : order.priority > f.priority
          · have hge : ¬ f.priority ≥ order.priority := by omega
            simp [enqueueDelivery, insertAfterScan, hp, hge]
          · simp [enqueueDelivery, hp]

theorem insertAfterScan_ne_nil (order : Order) (os : List Order) :
    insertAfterScan order os ≠ [] := by
  cases os with
  | nil => simp [insertAfterScan]
  | cons a os =>
      rw [insertAfterScan]
      split <;> simp

theorem mem_insertAfterScan (order a : Order) (os : List Order) :
    a ∈ insertAfterScan order os ↔ a = order ∨ a ∈ os := by
  induction os with
  | nil => simp [insertAfterScan]
  | cons b os ih =>
      rw [insertAfterScan]
      split
      · simp only [List.mem_cons, ih]
        tauto
      · simp only [List.mem_cons]

theorem perm_insertAfterScan (order : Order) (os : List Order) :
    (insertAfterScan order os).Perm (order :: os) := by
  induction os with
  | nil => simp [insertAfterScan]
  | cons b os ih =>
      rw [insertAfterScan]
      split
      · exact (List.Perm.cons b ih).trans (List.Perm.swap order b os)
      · exact List.Perm.refl _

theorem priorityOrdered_insertAfterScan (order : Order) (os : List Order)
    (h : PriorityOrdered os) : PriorityOrdered (insertAfterScan order os) := by
  induction os with
  | nil => simp [insertAfterScan, PriorityOrdered]
  | cons b os ih =>
      unfold PriorityOrdered at h ih ⊢
      rw [List.pairwise_cons] at h
      rw [insertAfterScan]
      split
      · rename_i hge
        rw [List.pairwise_cons]
        refine ⟨?_, ih h.2⟩
        intro c hc
        rcases (mem_insertAfterScan _ _ _).1 hc with hc | hc
        · rw [hc]; exact hge
        · exact h.1 c hc
      · rename_i hlt
        rw [List.pairwise_cons]
        refine ⟨?_, List.pairwise_cons.2 h⟩
        intro c hc
        rcases List.mem_cons.1 hc with hc | hc
        · rw [hc]; omega
        · have := h.1 c hc
          omega

/-- The placement rule: the new order stands right before the first order whose priority is
strictly below its own. -/
theorem insertAfterScan_eq_takeWhile (order : Order) (os : List Order) :
    insertAfterScan order os =
      os.takeWhile (fun a => decide (a.priority ≥ order.priority)) ++
        order :: os.dropWhile (fun a => decide (a.priority ≥ order.priority)) := by
  induction os with
  | nil => simp [insertAfterScan]
  | cons b os ih =>
      rw [insertAfterScan]
      by_cases h : b.priority ≥ order.priority
      · simp [h, List.takeWhile, List.dropWhile, ih]
      · simp [h, List.takeWhile, List.dropWhile]

/-- Stability: among the orders of one priority, the new order comes last. -/
theorem filter_insertAfterScan (order : Order) (os : List Order) (p : Int)
    (h : PriorityOrdered os) :
    (insertAfterScan order os).filter (fun a => decide (a.priority = p)) =
      os.filter (fun a => decide (a.priority = p)) ++
        (if order.priority = p then [order] else []) := by
  induction os with
  | nil => by_cases hp : order.priority = p <;> simp [insertAfterScan, hp]
  | cons b os ih =>
      unfold PriorityOrdered at h ih
      rw [List.pairwise_cons] at h
      rw [insertAfterScan]
      split
      · rw [List.filter_cons, List.filter_cons, ih h.2]
        split <;> simp
      · rename_i hlt
        by_cases hp : order.priority = p
        · have hnone : (b :: os).filter (fun a => decide (a.priority = p)) = [] := by
            rw [List.filter_eq_nil_iff]
            intro c hc
            simp only [decide_eq_true_eq]
            rcases List.mem_cons.1 hc with hc | hc
            · rw [hc]; omega
            · have := h.1 c hc
              omega
          rw [List.filter_cons, hnone]
          simp [hp]
        · rw [List.filter_cons]
          simp [hp]

theorem insertAfterScan_orderedInsert (x a : Order) (os : List Order) :
    insertAfterScan x (List.orderedInsert PriorityGe a os) =
      List.orderedInsert PriorityGe a (insertAfterScan x os) := by
  induction os with
  | nil =>
      by_cases h : a.priority ≥ x.priority <;>
        simp [insertAfterScan, List.orderedInsert, PriorityGe, h]
  | cons b os ih =>
      by_cases hab : a.priority ≥ b.priority
      · by_cases hbx : b.priority ≥ x.priority
        · have hax : a.priority ≥ x.priority := by omega
          simp [insertAfterScan, List.orderedInsert, PriorityGe, hab, hbx, hax]
        · by_cases hax : a.priority ≥ x.priority <;>
            simp [insertAfterScan, List.orderedInsert, PriorityGe, hab, hbx, hax]
      · by_cases hbx : b.priority ≥ x.priority
        · simp [insertAfterScan, List.orderedInsert, PriorityGe, hab, hbx, ih]
        · have hax : ¬ a.priority ≥ x.priority := by omega
          simp [insertAfterScan, List.orderedInsert, PriorityGe, hab, hbx, hax]

/-- Enqueueing the newest order into the sorted queue gives the stable sort of the longer
arrival sequence. -/
theorem insertionSort_append_singleton (ws : List Order) (o : Order) :
    List.insertionSort PriorityGe (ws ++ [o]) =
      insertAfterScan o (List.insertionSort PriorityGe ws) := by
  induction ws with
  | nil => simp [insertAfterScan]
  | cons a ws ih =>
      rw [List.cons_append, List.insertionSort, List.insertionSort, ih,
        insertAfterScan_orderedInsert]

theorem foldl_insertAfterScan_eq_insertionSort (os : List Order) :
    os.foldl (fun acc o => insertAfterScan o acc) [] = List.insertionSort PriorityGe os := by
  induction os using List.reverseRecOn with
  | nil => rfl
  | append_singleton init o ih =>
      rw [List.foldl_append, insertionSort_append_singleton, ← ih]
      rfl

theorem insertionSort_eq_nil (ws : List Order) (h : List.insertionSort PriorityGe ws = []) :
    ws = [] := by
  have := List.length_insertionSort PriorityGe ws
  rw [h] at this
  exact List.length_eq_zero.1 this.symm

/-- Removing the head of the sorted queue from the arrival sequence leaves the arrival sequence
of the remaining queue. -/
theorem insertionSort_erase_head (ws : List Order) (o : Order) (rest : List Order)
    (h : List.insertionSort PriorityGe ws = o :: rest) :
    List.insertionSort PriorityGe (ws.erase o) = rest := by
  induction ws generalizing o rest with
  | nil => simp at h
  | cons x ws ih =>
      rw [List.insertionSort] at h
      cases hs : List.insertionSort PriorityGe ws with
      | nil =>
          have hw := insertionSort_eq_nil ws hs
          subst hw
          simp only [hs, List.orderedInsert] at h
          obtain ⟨h1, h2⟩ := List.cons.inj h
          subst h1 h2
          simp
      | cons s ss =>
          rw [hs, List.orderedInsert] at h
          by_cases hx : PriorityGe x s
          · rw [if_pos hx] at h
            obtain ⟨h1, h2⟩ := List.cons.inj h
            subst h1 h2
            simp [hs]
          · rw [if_neg hx] at h
            obtain ⟨h1, h2⟩ := List.cons.inj h
            subst h1
            have hne : x ≠ s := by
              intro he
              apply hx
              rw [he]
              exact le_refl _
            rw [List.erase_cons_tail (by simpa using hne), List.insertionSort, ih s ss hs, h2]

/-- The head of the sorted queue is the oldest waiting order of its priority. -/
theorem find_priority_of_insertionSort_head (ws : List Order) (o : Order) (rest : List Order)
    (h : List.insertionSort PriorityGe ws = o :: rest) :
    ws.find? (fun x => decide (x.priority = o.priority)) = some o := by
  induction ws generalizing o rest with
  | nil => simp at h
  | cons x ws ih =>
      rw [List.insertionSort] at h
      cases hs : List.insertionSort PriorityGe ws with
      | nil =>
          simp only [hs, List.orderedInsert] at h
          obtain ⟨h1, h2⟩ := List.cons.inj h
          subst h1
          simp [List.find?]
      | cons s ss =>
          rw [hs, List.orderedInsert] at h
          by_cases hx : PriorityGe x s
          · rw [if_pos hx] at h
            obtain ⟨h1, h2⟩ := List.cons.inj h
            subst h1
            simp [List.find?]
          · rw [if_neg hx] at h
            obtain ⟨h1, h2⟩ := List.cons.inj h
            subst h1
            have hne : ¬ x.priority = s.priority := by
              intro he
              apply hx
              unfold PriorityGe
              omega
            simp only [List.find?, hne, decide_False]
            exact ih s ss hs


theorem priorityOrdered_foldl_insertAfterScan (os acc : List Order) (h : PriorityOrdered acc) :
    PriorityOrdered (os.foldl (fun acc o => insertAfterScan o acc) acc) := by
  induction os generalizing acc with
  | nil => exact h
  | cons o os ih => exact ih _ (priorityOrdered_insertAfterScan o acc h)

theorem priorityOrdered_insertionSort (ws : List Order) :
    PriorityOrdered (List.insertionSort PriorityGe ws) := by
  rw [← foldl_insertAfterScan_eq_insertionSort]
  exact priorityOrdered_foldl_insertAfterScan ws [] List.Pairwise.nil

theorem filter_foldl_insertAfterScan (os acc : List Order) (p : Int) (h : PriorityOrdered acc) :
    (os.foldl (fun acc o => insertAfterScan o acc) acc).filter
        (fun a => decide (a.priority = p)) =
      acc.filter (fun a => decide (a.priority = p)) ++
        os.filter (fun a => decide (a.priority = p)) := by
  induction os generalizing acc with
  | nil => simp
  | cons o os ih =>
      rw [List.foldl_cons, ih _ (priorityOrdered_insertAfterScan o acc h),
        filter_insertAfterScan o acc p h, List.filter_cons]
      by_cases hp : o.priority = p <;> simp [hp]

theorem rearConsistent_dequeue (q : DeliveryQueue) (hq : RearConsistent q) :
    RearConsistent (dequeueDelivery q).2 := by
  obtain ⟨front, rear⟩ := q
  unfold RearConsistent at hq ⊢
  cases front with
  | nil => simpa [dequeueDelivery] using hq
  | cons o next =>
      cases rear with
      | true => simp at hq
      | false => simp [dequeueDelivery]

theorem enqueueOrders_eq (os : List Order) (q : DeliveryQueue) (hq : RearConsistent q) :
    ∃ q2, enqueueOrders q os = some q2 ∧ RearConsistent q2 ∧
      q2.deliveryFront = os.foldl (fun acc o => insertAfterScan o acc) q.deliveryFront := by
  induction os generalizing q with
  | nil => exact ⟨q, rfl, hq, rfl⟩
  | cons o os ih =>
      have hq1 : RearConsistent
          { deliveryFront := insertAfterScan o q.deliveryFront, rearIsNull := false } := by
        unfold RearConsistent
        simp [insertAfterScan_ne_nil]
      obtain ⟨q2, e2, hq2, hf2⟩ := ih _ hq1
      refine ⟨q2, ?_, hq2, ?_⟩
      · simp only [enqueueOrders, enqueueDelivery_eq q o hq, Option.bind]
        exact e2
      · rw [hf2]
        rfl

/-- Every run of queue operations from a consistent, sorted queue succeeds, and the queue stays
the stable sort by priority of the orders still waiting. -/
theorem runQueue_inv (ops : List QueueOp) (q : DeliveryQueue) (ws : List Order)
    (hq : RearConsistent q) (hs : q.deliveryFront = List.insertionSort PriorityGe ws) :
    ∃ q2, runQueue q ops = some q2 ∧ RearConsistent q2 ∧
      q2.deliveryFront = List.insertionSort PriorityGe (waitingAfter q ws ops) := by
  induction ops generalizing q ws with
  | nil => exact ⟨q, rfl, hq, hs⟩
  | cons op ops ih =>
      cases op with
      | enqueue o =>
          have hq1 : RearConsistent
              { deliveryFront := insertAfterScan o q.deliveryFront, rearIsNull := false } := by
            unfold RearConsistent
            simp [insertAfterScan_ne_nil]
          have hs1 : insertAfterScan o q.deliveryFront =
              List.insertionSort PriorityGe (ws ++ [o]) := by
            rw [insertionSort_append_singleton, hs]
          obtain ⟨q2, e2, hq2, hf2⟩ := ih _ (ws ++ [o]) hq1 hs1
          refine ⟨q2, ?_, hq2, ?_⟩
          · simp only [runQueue, enqueueDelivery_eq q o hq, Option.bind]
            exact e2
          · simp only [waitingAfter, enqueueDelivery_eq q o hq]
            exact hf2
      | dequeue =>
          have hq1 := rearConsistent_dequeue q hq
          have hs1 : (dequeueDelivery q).2.deliveryFront =
              List.insertionSort PriorityGe (ws.erase (dequeueDelivery q).1) := by
            cases hfront : q.deliveryFront with
            | nil =>
                have hw : ws = [] := insertionSort_eq_nil ws (by rw [← hs, hfront])
                simp [dequeueDelivery, hfront, hw]
            | cons o rest =>
                rw [hfront] at hs
                simp only [dequeueDelivery, hfront]
                exact (insertionSort_erase_head ws o rest hs.symm).symm
          obtain ⟨q2, e2, hq2, hf2⟩ := ih _ _ hq1 hs1
          exact ⟨q2, by simpa only [runQueue] using e2, hq2, by simpa only [waitingAfter] using hf2⟩

theorem rearConsistent_emptyQueue : RearConsistent emptyQueue := by
  simp [RearConsistent, emptyQueue]

/-- C5: every run of `enqueueDelivery` and `dequeueDelivery` calls from the empty queue succeeds,
and in the queue it reaches every adjacent pair, front to back, has non-increasing priority
(indeed every earlier order has priority at least that of every later one); priorities are
arbitrary integers. -/
theorem C5_queue_priority_non_increasing (ops : List QueueOp) :
    ∃ q, runQueue emptyQueue ops = some q ∧
      List.Chain' (fun a b => a.priority ≥ b.priority) q.deliveryFront ∧
      PriorityOrdered q.deliveryFront := by
  obtain ⟨q, e, _, hf⟩ := runQueue_inv ops emptyQueue [] rearConsistent_emptyQueue rfl
  have hp : PriorityOrdered q.deliveryFront := by
    rw [hf]
    exact priorityOrdered_insertionSort _
  exact ⟨q, e, List.Pairwise.chain' hp, hp⟩

/-- C6: enqueueing any sequence of orders onto the empty queue succeeds, and the queue is the
stable sort of the sequence by priority descending: it is the insertion sort of the sequence, a
permutation of it, non-increasing by priority, and for each priority it lists the orders of
that priority in their enqueue order. Each further order is placed right before the first
order whose priority is strictly below its own. Priorities 2, 4, 2, 1 give the queue
4, 2 (first), 2 (second), 1. -/
theorem C6_enqueue_is_stable_sort :
    (∀ os : List Order, ∃ q, enqueueOrders emptyQueue os = some q ∧
      q.deliveryFront = List.insertionSort PriorityGe os ∧
      q.deliveryFront.Perm os ∧ PriorityOrdered q.deliveryFront ∧
      ∀ p : Int, q.deliveryFront.filter (fun a => decide (a.priority = p)) =
        os.filter (fun a => decide (a.priority = p))) ∧
    (∀ (os : List Order) (o : Order), ∃ q q2, enqueueOrders emptyQueue os = some q ∧
      enqueueDelivery q o = some q2 ∧
      q2.deliveryFront =
        q.deliveryFront.takeWhile (fun a => decide (a.priority ≥ o.priority)) ++
          o :: q.deliveryFront.dropWhile (fun a => decide (a.priority ≥ o.priority))) ∧
    (enqueueOrders emptyQueue
        [sampleOrder 1 2, sampleOrder 2 4, sampleOrder 3 2, sampleOrder 4 1]).map
      (fun q => q.deliveryFront) =
      some [sampleOrder 2 4, sampleOrder 1 2, sampleOrder 3 2, sampleOrder 4 1] := by
  refine ⟨?_, ?_, by decide⟩
  · intro os
    obtain ⟨q, e, _, hf⟩ := enqueueOrders_eq os emptyQueue rearConsistent_emptyQueue
    have hf2 : q.deliveryFront = os.foldl (fun acc o => insertAfterScan o acc) [] := hf
    refine ⟨q, e, ?_, ?_, ?_, ?_⟩
    · rw [hf2, foldl_insertAfterScan_eq_insertionSort]
    · rw [hf2, foldl_insertAfterScan_eq_insertionSort]
      exact List.perm_insertionSort PriorityGe os
    · rw [hf2]
      exact priorityOrdered_foldl_insertAfterScan os [] List.Pairwise.nil
    · intro p
      rw [hf2, filter_foldl_insertAfterScan os [] p List.Pairwise.nil]
      simp
  · intro os o
    obtain ⟨q, e, hq, _⟩ := enqueueOrders_eq os emptyQueue rearConsistent_emptyQueue
    exact ⟨q, _, e, enqueueDelivery_eq q o hq, insertAfterScan_eq_takeWhile o q.deliveryFront⟩

/-- C7: in every non-empty queue reached from the empty queue by enqueue and dequeue calls,
`dequeueDelivery` returns the front order and leaves the remaining orders as they stood; the
front order has the greatest priority in the queue and is the oldest waiting order of its
priority (the queue holds exactly the waiting orders). -/
theorem C7_dequeue_returns_oldest_of_highest (ops : List QueueOp) (q : DeliveryQueue)
    (o : Order) (rest : List Order)
    (hrun : runQueue emptyQueue ops = some q) (hfront : q.deliveryFront = o :: rest) :
    (dequeueDelivery q).1 = o ∧ (dequeueDelivery q).2.deliveryFront = rest ∧
      (∀ x ∈ q.deliveryFront, x.priority ≤ o.priority) ∧
      q.deliveryFront.Perm (waitingAfter emptyQueue [] ops) ∧
      (waitingAfter emptyQueue [] ops).find? (fun x => decide (x.priority = o.priority)) =
        some o := by
  obtain ⟨q2, e, _, hf⟩ := runQueue_inv ops emptyQueue [] rearConsistent_emptyQueue rfl
  rw [hrun] at e
  cases e
  have hp : PriorityOrdered q.deliveryFront := by
    rw [hf]
    exact priorityOrdered_insertionSort _
  refine ⟨by simp [dequeueDelivery, hfront], by simp [dequeueDelivery, hfront], ?_, ?_, ?_⟩
  · intro x hx
    rw [hfront] at hx hp
    unfold PriorityOrdered at hp
    rw [List.pairwise_cons] at hp
    rcases List.mem_cons.1 hx with hx | hx
    · rw [hx]
    · exact hp.1 x hx
  · rw [hf]
    exact List.perm_insertionSort PriorityGe _
  · rw [hfront] at hf
    exact find_priority_of_insertionSort_head _ o rest hf.symm

/-- An instance of C7: after three enqueues, a dequeue and one more enqueue, the front is the
remaining order of priority 4, ahead of the two orders of priority 2 in their enqueue order. -/
theorem C7_dequeue_returns_oldest_of_highest_witness :
    runQueue emptyQueue
        [.enqueue (sampleOrder 1 2), .enqueue (sampleOrder 2 4), .enqueue (sampleOrder 3 4),
          .dequeue, .enqueue (sampleOrder 4 2)] =
        some { deliveryFront := [sampleOrder 3 4, sampleOrder 1 2, sampleOrder 4 2],
               rearIsNull := false } ∧
      (dequeueDelivery { deliveryFront := [sampleOrder 3 4, sampleOrder 1 2, sampleOrder 4 2],
                         rearIsNull := false }).1 = sampleOrder 3 4 :=
  ⟨by decide,
    (C7_dequeue_returns_oldest_of_highest
      [.enqueue (sampleOrder 1 2), .enqueue (sampleOrder 2 4), .enqueue (sampleOrder 3 4),
        .dequeue, .enqueue (sampleOrder 4 2)]
      { deliveryFront := [sampleOrder 3 4, sampleOrder 1 2, sampleOrder 4 2],
        rearIsNull := false }
      (sampleOrder 3 4) [sampleOrder 1 2, sampleOrder 4 2] (by decide) (by decide)).1⟩


/-! ## Claims about the order stack -/

/-- C8: for every stack and every order, `popOrder` right after `pushOrder` returns exactly the
order pushed (the whole record) and leaves the stack as it was before the push. -/
theorem C8_pop_after_push (orderStackTop : List Order) (order : Order) :
    popOrder (pushOrder orderStackTop order) = (order, orderStackTop) := rfl

/-- C9, as the claim states it, fails: `popOrder` on the empty stack and `popOrder` on the stack
holding one all-zero order return the same order and leave the same stack. -/
theorem C9_pop_empty_same_as_zero_order :
    popOrder [emptyOrder] = popOrder [] ∧ [emptyOrder] ≠ ([] : List Order) := by
  constructor
  · rfl
  · simp

/-- C9, amended: `popOrder` on the empty stack returns the all-zero order, whose `orderId` is 0,
and leaves the stack empty; on a stack whose top order has a non-zero `orderId` the order
returned has a non-zero `orderId`, so the two results differ (by the test `orderId != 0` the
caller uses). -/
theorem C9_pop_empty_returns_zero_order (top : Order) (next : List Order)
    (h : top.orderId ≠ 0) :
    popOrder [] = (emptyOrder, []) ∧ (popOrder []).1.orderId = 0 ∧
      (popOrder (top :: next)).1.orderId ≠ 0 ∧
      (popOrder (top :: next)).1 ≠ (popOrder []).1 := by
  refine ⟨rfl, rfl, h, ?_⟩
  intro he
  apply h
  have : (popOrder (top :: next)).1.orderId = (popOrder []).1.orderId := by rw [he]
  exact this

/-- An instance of the amended C9: popping a stack that holds order 1000. -/
theorem C9_pop_empty_returns_zero_order_witness :
    (sampleOrder 1000 1).orderId ≠ 0 ∧
      (popOrder [sampleOrder 1000 1]).1 ≠ (popOrder []).1 :=
  ⟨by decide, (C9_pop_empty_returns_zero_order (sampleOrder 1000 1) [] (by decide)).2.2.2⟩

/-! ## Theorems: checkout -/

theorem foldl_cart_total (cart : List CartItem) (a : Rat) :
    cart.foldl (fun (total : Rat) (current : CartItem) =>
        total + current.price * (current.quantity : Rat)) a =
      a + calculateCartTotal cart := by
  unfold calculateCartTotal
  induction cart generalizing a with
  | nil => simp
  | cons c cart ih =>
      rw [List.foldl_cons, List.foldl_cons, ih, ih (0 + c.price * (c.quantity : Rat))]
      ring

theorem calculateCartTotal_cons (c : CartItem) (cart : List CartItem) :
    calculateCartTotal (c :: cart) = c.price * c.quantity + calculateCartTotal cart := by
  unfold calculateCartTotal
  rw [List.foldl_cons, foldl_cart_total]
  unfold calculateCartTotal
  ring

/-- The cart loop of `checkout` adds the cart total to the subtotal the order starts with and
leaves the other amounts alone. -/
theorem addCartItems_amounts (cart : List CartItem) (order : Order) (menu : List FoodItem) :
    (addCartItems cart order menu).1.subtotal = order.subtotal + calculateCartTotal cart ∧
      (addCartItems cart order menu).1.discount = order.discount ∧
      (addCartItems cart order menu).1.tax = order.tax ∧
      (addCartItems cart order menu).1.total = order.total := by
  induction cart generalizing order menu with
  | nil => simp [addCartItems, calculateCartTotal]
  | cons c cart ih =>
      obtain ⟨h1, h2, h3, h4⟩ := ih
        (addItemToOrder order c.itemId c.itemName c.quantity c.price)
        (updateStock menu c.itemId c.quantity)
      simp only [addCartItems]
      refine ⟨?_, h2, h3, h4⟩
      rw [h1, calculateCartTotal_cons]
      simp only [addItemToOrder]
      ring

/-! ## Claims about checkout -/

/-- C10, what the code does: the record `checkout` builds stores twice the cart subtotal as its
subtotal (the subtotal is set from the cart total and then every cart line is added to it again
by `addItemToOrder`), while its total is cart subtotal - discount + 2.99 + tax. Checking out
the cart of two pizzas at 12.99 with promo input `skip` admits one record (shown, pushed,
enqueued and indexed) whose stored subtotal is
51.96, twice the cart subtotal 25.98, with discount 0, fee 2.99, tax 2.3176 and total 31.2876;
so the stored total is not subtotal - discount + 2.99 + tax over the stored fields. -/
theorem C10_checkout_stored_subtotal_doubled :
    (∀ (s : System) (username address phone promoCode : String) (priority t1 t2 : Int),
      (checkoutOrder s username address phone promoCode priority t1 t2).1.subtotal =
          2 * calculateCartTotal s.cart ∧
        (checkoutOrder s username address phone promoCode priority t1 t2).1.total =
          calculateCartTotal s.cart -
            (checkoutOrder s username address phone promoCode priority t1 t2).1.discount +
            299 / 100 +
            (checkoutOrder s username address phone promoCode priority t1 t2).1.tax) ∧
    calculateCartTotal pizzaCartSystem.cart = 2598 / 100 ∧
    (checkout pizzaCartSystem "user" "123 Main St" "9876543210" "skip" 2 0 0).map
        (fun r => (r.2, r.1.orderStackTop, r.1.delivery.deliveryFront,
          displayOrderHistoryInorder r.1.historyRoot)) =
      some (some (checkoutOrder pizzaCartSystem "user" "123 Main St" "9876543210" "skip" 2 0 0).1,
        [(checkoutOrder pizzaCartSystem "user" "123 Main St" "9876543210" "skip" 2 0 0).1],
        [(checkoutOrder pizzaCartSystem "user" "123 Main St" "9876543210" "skip" 2 0 0).1],
        [(checkoutOrder pizzaCartSystem "user" "123 Main St" "9876543210" "skip" 2 0 0).1]) ∧
    (checkoutOrder pizzaCartSystem "user" "123 Main St" "9876543210" "skip" 2 0 0).1.subtotal =
      5196 / 100 ∧
    (checkoutOrder pizzaCartSystem "user" "123 Main St" "9876543210" "skip" 2 0 0).1.discount =
      0 ∧
    (checkoutOrder pizzaCartSystem "user" "123 Main St" "9876543210" "skip" 2 0 0).1.tax =
      23176 / 10000 ∧
    (checkoutOrder pizzaCartSystem "user" "123 Main St" "9876543210" "skip" 2 0 0).1.total =
      312876 / 10000 ∧
    (checkoutOrder pizzaCartSystem "user" "123 Main St" "9876543210" "skip" 2 0 0).1.total ≠
      (checkoutOrder pizzaCartSystem "user" "123 Main St" "9876543210" "skip" 2 0 0).1.subtotal -
        (checkoutOrder pizzaCartSystem "user" "123 Main St" "9876543210" "skip" 2 0 0).1.discount
        + 299 / 100 +
        (checkoutOrder pizzaCartSystem "user" "123 Main St" "9876543210" "skip" 2 0 0).1.tax := by
  refine ⟨?_, ?_, ?_, ?_, ?_, ?_, ?_, ?_⟩
  · intro s username address phone promoCode priority t1 t2
    simp only [checkoutOrder]
    obtain ⟨h1, h2, h3, h4⟩ := addCartItems_amounts s.cart
      { orderId := s.currentOrderId, username := username, address := address, phone := phone,
        items := [], itemCount := 0, subtotal := calculateCartTotal s.cart,
        discount := if promoCode ≠ "skip" then
          calculateCartTotal s.cart -
            (if promoCode ≠ "skip" then
              applyPromoCode s.promoHead promoCode (calculateCartTotal s.cart)
            else calculateCartTotal s.cart) else 0,
        deliveryFee := 299 / 100,
        tax := ((if promoCode ≠ "skip" then
              applyPromoCode s.promoHead promoCode (calculateCartTotal s.cart)
            else calculateCartTotal s.cart) + 299 / 100) * (8 / 100),
        total := (if promoCode ≠ "skip" then
              applyPromoCode s.promoHead promoCode (calculateCartTotal s.cart)
            else calculateCartTotal s.cart) + 299 / 100 +
          ((if promoCode ≠ "skip" then
              applyPromoCode s.promoHead promoCode (calculateCartTotal s.cart)
            else calculateCartTotal s.cart) + 299 / 100) * (8 / 100),
        priority := priority, status := 0, orderTime := t1, statusTime := t2 } s.menuHead
    rw [h1, h2, h3, h4]
    constructor
    · ring
    · by_cases hp : promoCode = "skip" <;> simp [hp]
  · norm_num [calculateCartTotal, pizzaCartSystem]
  · simp [checkout, pizzaCartSystem, emptyQueue, enqueueDelivery, insertOrderHistory,
      createOrderHistory, pushOrder, displayOrderHistoryInorder]
  all_goals
    norm_num [checkoutOrder, pizzaCartSystem, calculateCartTotal, addCartItems, addItemToOrder]


/-- The cart loop of `checkout` appends the cart lines to the items of the order, counts them
and adds their amounts to the subtotal; it changes nothing else of the order. -/
theorem addCartItems_order (cart : List CartItem) (order : Order) (menu : List FoodItem) :
    (addCartItems cart order menu).1 =
      { order with
        items := order.items ++ cart.map cartLineItem
        itemCount := order.itemCount + cart.length
        subtotal := order.subtotal + calculateCartTotal cart } := by
  induction cart generalizing order menu with
  | nil => simp [addCartItems, calculateCartTotal]
  | cons c cart ih =>
      simp only [addCartItems]
      rw [ih, calculateCartTotal_cons]
      simp only [addItemToOrder, cartLineItem, List.map_cons, List.length_cons,
        List.append_assoc, List.singleton_append, Nat.cast_add, Nat.cast_one]
      congr 1 <;> ring

theorem itemsTotal_cart (cart : List CartItem) :
    itemsTotal (cart.map cartLineItem) = calculateCartTotal cart := by
  induction cart with
  | nil => simp [itemsTotal, calculateCartTotal]
  | cons c cart ih =>
      rw [calculateCartTotal_cons, ← ih]
      simp only [itemsTotal, cartLineItem, List.map_cons, List.sum_cons]
      ring

/-- The record `checkout` builds, field by field. -/
theorem checkoutOrder_eq (s : System) (username address phone promoCode : String)
    (priority t1 t2 : Int) :
    (checkoutOrder s username address phone promoCode priority t1 t2).1 =
      { orderId := s.currentOrderId, username := username, address := address, phone := phone,
        items := s.cart.map cartLineItem, itemCount := s.cart.length,
        subtotal := calculateCartTotal s.cart + calculateCartTotal s.cart,
        discount := if promoCode ≠ "skip" then
            calculateCartTotal s.cart -
              applyPromoCode s.promoHead promoCode (calculateCartTotal s.cart)
          else 0,
        deliveryFee := 299 / 100,
        tax := ((if promoCode ≠ "skip" then
              applyPromoCode s.promoHead promoCode (calculateCartTotal s.cart)
            else calculateCartTotal s.cart) + 299 / 100) * (8 / 100),
        total := (if promoCode ≠ "skip" then
              applyPromoCode s.promoHead promoCode (calculateCartTotal s.cart)
            else calculateCartTotal s.cart) + 299 / 100 +
          ((if promoCode ≠ "skip" then
              applyPromoCode s.promoHead promoCode (calculateCartTotal s.cart)
            else calculateCartTotal s.cart) + 299 / 100) * (8 / 100),
        priority := priority, status := 0, orderTime := t1, statusTime := t2 } := by
  simp only [checkoutOrder]
  rw [addCartItems_order]
  by_cases hp : promoCode = "skip" <;> simp [hp]

/-- An order that `checkout` admits is the record `checkoutOrder` builds, and the cart was not
empty. -/
theorem checkout_admits {s s2 : System} {username address phone promoCode : String}
    {priority t1 t2 : Int} {o : Order}
    (h : checkout s username address phone promoCode priority t1 t2 = some (s2, some o)) :
    s.cart ≠ [] ∧ o = (checkoutOrder s username address phone promoCode priority t1 t2).1 := by
  unfold checkout at h
  by_cases hc : s.cart = []
  · simp [hc] at h
  · refine ⟨hc, ?_⟩
    simp only [hc, if_false] at h
    cases he : enqueueDelivery s.delivery
        (checkoutOrder s username address phone promoCode priority t1 t2).1 with
    | none => simp [he] at h
    | some q =>
        cases hi : insertOrderHistory s.historyRoot
            (checkoutOrder s username address phone promoCode priority t1 t2).1 with
        | none => simp [he, hi] at h
        | some t =>
            simp only [he, hi, Option.bind, Option.some.injEq, Prod.mk.injEq] at h
            exact h.2.symm

theorem checkout_pizza :
    checkout pizzaCartSystem "user" "123 Main St" "9876543210" "skip" 2 0 0 =
      some ({ menuHead := (checkoutOrder pizzaCartSystem "user" "123 Main St" "9876543210"
                "skip" 2 0 0).2,
              cart := [], promoHead := pizzaCartSystem.promoHead,
              orderStackTop := [(checkoutOrder pizzaCartSystem "user" "123 Main St"
                "9876543210" "skip" 2 0 0).1],
              delivery := { deliveryFront := [(checkoutOrder pizzaCartSystem "user"
                "123 Main St" "9876543210" "skip" 2 0 0).1], rearIsNull := false },
              userRoot := addLoyaltyPoints pizzaCartSystem.userRoot "user"
                (checkoutFloatTotal pizzaCartSystem "skip"),
              historyRoot := .node (checkoutOrder pizzaCartSystem "user" "123 Main St"
                "9876543210" "skip" 2 0 0).1 1 .nil .nil,
              currentOrderId := 1001 },
        some (checkoutOrder pizzaCartSystem "user" "123 Main St" "9876543210"
          "skip" 2 0 0).1) := by
  simp [checkout, pizzaCartSystem, emptyQueue, enqueueDelivery, insertOrderHistory,
    createOrderHistory, pushOrder]

/-! ## Claims about the amounts of an admitted order -/

/-- C12, the code at the failing input and in general: the record `checkout` builds has one
line item per cart line, `itemCount` equal to the number of its line items, and a stored
subtotal that is twice the sum over its line items of quantity times unit price; for the cart
of two pizzas at 12.99 the admitted record has one line, the sum over its lines is 25.98 and
its stored subtotal is 51.96. -/
theorem C12_checkout_subtotal_twice_items_total :
    (∀ (s : System) (username address phone promoCode : String) (priority t1 t2 : Int),
      (checkoutOrder s username address phone promoCode priority t1 t2).1.items =
          s.cart.map cartLineItem ∧
        (checkoutOrder s username address phone promoCode priority t1 t2).1.itemCount =
          (checkoutOrder s username address phone promoCode priority t1 t2).1.items.length ∧
        (checkoutOrder s username address phone promoCode priority t1 t2).1.subtotal =
          2 * itemsTotal
            (checkoutOrder s username address phone promoCode priority t1 t2).1.items) ∧
    (checkout pizzaCartSystem "user" "123 Main St" "9876543210" "skip" 2 0 0).map
        (fun r => r.2) =
      some (some (checkoutOrder pizzaCartSystem "user" "123 Main St" "9876543210"
        "skip" 2 0 0).1) ∧
    (checkoutOrder pizzaCartSystem "user" "123 Main St" "9876543210" "skip" 2 0 0).1.itemCount =
      1 ∧
    itemsTotal (checkoutOrder pizzaCartSystem "user" "123 Main St" "9876543210"
      "skip" 2 0 0).1.items = 2598 / 100 ∧
    (checkoutOrder pizzaCartSystem "user" "123 Main St" "9876543210" "skip" 2 0 0).1.subtotal =
      5196 / 100 ∧
    (checkoutOrder pizzaCartSystem "user" "123 Main St" "9876543210" "skip" 2 0 0).1.subtotal ≠
      itemsTotal (checkoutOrder pizzaCartSystem "user" "123 Main St" "9876543210"
        "skip" 2 0 0).1.items := by
  have hi : itemsTotal (checkoutOrder pizzaCartSystem "user" "123 Main St" "9876543210"
      "skip" 2 0 0).1.items = 2598 / 100 := by
    rw [checkoutOrder_eq]
    norm_num [itemsTotal, pizzaCartSystem, cartLineItem]
  have hs : (checkoutOrder pizzaCartSystem "user" "123 Main St" "9876543210"
      "skip" 2 0 0).1.subtotal = 5196 / 100 := by
    rw [checkoutOrder_eq]
    norm_num [pizzaCartSystem, calculateCartTotal]
  refine ⟨?_, ?_, ?_, hi, hs, ?_⟩
  · intro s username address phone promoCode priority t1 t2
    rw [checkoutOrder_eq]
    refine ⟨rfl, ?_, ?_⟩
    · simp
    · simp only [itemsTotal_cart]
      ring
  · rw [checkout_pizza]
    rfl
  · rw [checkoutOrder_eq]
    simp [pizzaCartSystem]
  · rw [hi, hs]
    norm_num


/-! ## Theorems: order tracking -/

/-- The scan of a node list returns the position of the first node with the id. -/
theorem scanForId_eq_findIdx (os : List Order) (id : Int) :
    scanForId os id = os.findIdx? (fun a => decide (a.orderId = id)) := by
  induction os with
  | nil => rfl
  | cons a os ih =>
      rw [scanForId, List.findIdx?_cons]
      by_cases h : a.orderId = id
      · simp [h]
      · simp only [h, if_false, decide_False, Bool.false_eq_true]
        rw [ih, List.findIdx?_succ]

theorem scanForId_getElem (os : List Order) (id : Int) :
    (scanForId os id).bind (fun i => os[i]?) =
      os.find? (fun a => decide (a.orderId = id)) := by
  induction os with
  | nil => rfl
  | cons a os ih =>
      rw [scanForId]
      by_cases h : a.orderId = id
      · simp [h, List.find?]
      · simp only [h, if_false, List.find?, decide_False]
        rw [← ih]
        cases scanForId os id <;> simp

theorem scanForId_eq_none (os : List Order) (id : Int) :
    scanForId os id = none ↔ id ∉ os.map Order.orderId := by
  induction os with
  | nil => simp [scanForId]
  | cons a os ih =>
      rw [scanForId]
      by_cases h : a.orderId = id
      · simp [h]
      · have h2 : ¬ id = a.orderId := fun e => h e.symm
        simp only [h, if_false, Option.map_eq_none', ih, List.map_cons, List.mem_cons, h2,
          false_or]

theorem search_eq_nil_iff (t : OrderHistory) (id : Int)
    (hs : AscendingIds (displayOrderHistoryInorder t)) :
    searchOrderHistoryById t id = .nil ↔
      id ∉ (displayOrderHistoryInorder t).map Order.orderId := by
  have h1 : searchOrderHistoryById t id = .nil ↔
      nodeOrder (searchOrderHistoryById t id) = none := by
    cases searchOrderHistoryById t id <;> simp [nodeOrder]
  rw [h1, search_eq_find t id hs, List.find?_eq_none]
  simp only [decide_eq_true_eq, List.mem_map, not_exists, not_and]

/-- C13: for every stack, every queue, every history tree built by insertions and every id,
`searchOrderById` returns a pointer to the first stack node (from the top) with that id if
there is one, otherwise to the first queue node (from the front) with that id if there is one,
otherwise to the node the history search finds; the record it points to is the corresponding
first match; and it returns `NULL` iff the id is in none of the three. -/
theorem C13_searchOrderById_probe_order (os : List Order) (s : System) (id : Int) :
    ∃ t, insertOrders .nil os = some t ∧
      searchOrderById { s with historyRoot := t } id =
        (match s.orderStackTop.findIdx? (fun a => decide (a.orderId = id)) with
          | some i => some (.stackNode i)
          | none =>
              match s.delivery.deliveryFront.findIdx? (fun a => decide (a.orderId = id)) with
              | some i => some (.queueNode i)
              | none =>
                  if id ∈ (displayOrderHistoryInorder t).map Order.orderId then
                    some (.historyNode id)
                  else none) ∧
      (searchOrderById { s with historyRoot := t } id).bind
          (pointee { s with historyRoot := t }) =
        ((s.orderStackTop.find? (fun a => decide (a.orderId = id))).orElse fun _ =>
          (s.delivery.deliveryFront.find? (fun a => decide (a.orderId = id))).orElse fun _ =>
            nodeOrder (searchOrderHistoryById t id)) ∧
      (searchOrderById { s with historyRoot := t } id = none ↔
        id ∉ s.orderStackTop.map Order.orderId ∧
          id ∉ s.delivery.deliveryFront.map Order.orderId ∧
          id ∉ (displayOrderHistoryInorder t).map Order.orderId) := by
  obtain ⟨t, e, _, _, _, hs⟩ := insertOrders_nil_inv os
  have hnil := search_eq_nil_iff t id hs
  refine ⟨t, e, ?_, ?_, ?_⟩
  · simp only [searchOrderById, scanForId_eq_findIdx]
    cases s.orderStackTop.findIdx? (fun a => decide (a.orderId = id)) with
    | some i => rfl
    | none =>
        cases s.delivery.deliveryFront.findIdx? (fun a => decide (a.orderId = id)) with
        | some i => rfl
        | none =>
            by_cases hin : id ∈ (displayOrderHistoryInorder t).map Order.orderId
            · have hne : searchOrderHistoryById t id ≠ .nil := fun h => hnil.1 h hin
              simp only [hin, if_true]
              cases hsr : searchOrderHistoryById t id with
              | nil => exact absurd hsr hne
              | node o h l r => rfl
            · simp only [hin, if_false, hnil.2 hin]
  · rw [← scanForId_getElem s.orderStackTop id, ← scanForId_getElem s.delivery.deliveryFront id]
    simp only [searchOrderById]
    cases h1 : scanForId s.orderStackTop id with
    | some i =>
        have h1b := scanForId_getElem s.orderStackTop id
        rw [h1] at h1b
        simp only [Option.bind] at h1b
        have hsome : ∃ o, s.orderStackTop[i]? = some o := by
          by_cases hlt : i < s.orderStackTop.length
          · exact ⟨_, List.getElem?_eq_getElem hlt⟩
          · exfalso
            have hfi := scanForId_eq_findIdx s.orderStackTop id
            rw [h1] at hfi
            have := (List.findIdx?_eq_some_iff_getElem.1 hfi.symm).1
            exact hlt this
        obtain ⟨o, ho⟩ := hsome
        simp [pointee, ho]
    | none =>
        cases h2 : scanForId s.delivery.deliveryFront id with
        | some i =>
            have hsome : ∃ o, s.delivery.deliveryFront[i]? = some o := by
              by_cases hlt : i < s.delivery.deliveryFront.length
              · exact ⟨_, List.getElem?_eq_getElem hlt⟩
              · exfalso
                have hfi := scanForId_eq_findIdx s.delivery.deliveryFront id
                rw [h2] at hfi
                have := (List.findIdx?_eq_some_iff_getElem.1 hfi.symm).1
                exact hlt this
            obtain ⟨o, ho⟩ := hsome
            simp [pointee, ho]
        | none =>
            cases hsr : searchOrderHistoryById t id with
            | nil => simp [nodeOrder]
            | node o h l r => simp [pointee, hsr, nodeOrder]
  · rw [← scanForId_eq_none, ← scanForId_eq_none, ← hnil]
    simp only [searchOrderById]
    cases h1 : scanForId s.orderStackTop id with
    | some i => simp
    | none =>
        cases h2 : scanForId s.delivery.deliveryFront id with
        | some i => simp
        | none =>
            cases hsr : searchOrderHistoryById t id with
            | nil => simp
            | node o h l r => simp


/-! ## Theorems: writes through an order pointer -/

theorem mapOrders_eq_self (g : Order → Order) (t : OrderHistory)
    (h : ∀ a ∈ displayOrderHistoryInorder t, g a = a) : mapOrders g t = t := by
  induction t with
  | nil => rfl
  | node o s l r ihl ihr =>
      simp only [displayOrderHistoryInorder, List.mem_append, List.mem_cons] at h
      simp only [mapOrders]
      rw [ihl (fun a ha => h a (Or.inl ha)), ihr (fun a ha => h a (Or.inr (Or.inr ha))),
        h o (Or.inr (Or.inl rfl))]

/-- On a search tree the write through the history pointer for `id` changes the record with
that id and nothing else: not the shape, not a stored height, not another record. -/
theorem modifyHistoryNode_eq_mapOrders (f : Order → Order) (t : OrderHistory) (id : Int)
    (hs : AscendingIds (displayOrderHistoryInorder t)) :
    modifyHistoryNode f t id = mapOrders (fun a => if a.orderId = id then f a else a) t := by
  induction t with
  | nil => rfl
  | node o s l r ihl ihr =>
      simp only [displayOrderHistoryInorder] at hs
      obtain ⟨sl, sr, hlt, hgt⟩ := ascending_append_cons hs
      simp only [modifyHistoryNode, mapOrders]
      by_cases h0 : o.orderId = id
      · have el : mapOrders (fun a => if a.orderId = id then f a else a) l = l :=
          mapOrders_eq_self _ l (fun a ha => by
            have := hlt a ha
            have hne : ¬ a.orderId = id := by omega
            simp [hne])
        have er : mapOrders (fun a => if a.orderId = id then f a else a) r = r :=
          mapOrders_eq_self _ r (fun a ha => by
            have := hgt a ha
            have hne : ¬ a.orderId = id := by omega
            simp [hne])
        simp only [h0, if_true, el, er]
      · by_cases h1 : id < o.orderId
        · have er : mapOrders (fun a => if a.orderId = id then f a else a) r = r :=
            mapOrders_eq_self _ r (fun a ha => by
              have := hgt a ha
              have hne : ¬ a.orderId = id := by omega
              simp [hne])
          simp only [h0, h1, if_true, if_false, er, ihl sl]
        · have el : mapOrders (fun a => if a.orderId = id then f a else a) l = l :=
            mapOrders_eq_self _ l (fun a ha => by
              have := hlt a ha
              have hne : ¬ a.orderId = id := by omega
              simp [hne])
          simp only [h0, h1, if_false, el, ihr sr]

theorem inorder_mapOrders (g : Order → Order) (t : OrderHistory) :
    displayOrderHistoryInorder (mapOrders g t) = (displayOrderHistoryInorder t).map g := by
  induction t with
  | nil => rfl
  | node o s l r ihl ihr => simp [mapOrders, displayOrderHistoryInorder, ihl, ihr]

theorem trueHeight_mapOrders (g : Order → Order) (t : OrderHistory) :
    trueHeight (mapOrders g t) = trueHeight t := by
  induction t with
  | nil => rfl
  | node o s l r ihl ihr => simp [mapOrders, trueHeight, ihl, ihr]

theorem heightsOk_mapOrders (g : Order → Order) (t : OrderHistory) (h : HeightsOk t) :
    HeightsOk (mapOrders g t) := by
  induction t with
  | nil => trivial
  | node o s l r ihl ihr =>
      simp only [HeightsOk] at h
      simp only [mapOrders, HeightsOk, trueHeight_mapOrders]
      exact ⟨ihl h.1, ihr h.2.1, h.2.2⟩

theorem balanced_mapOrders (g : Order → Order) (t : OrderHistory) (h : Balanced t) :
    Balanced (mapOrders g t) := by
  induction t with
  | nil => trivial
  | node o s l r ihl ihr =>
      simp only [Balanced] at h
      simp only [mapOrders, Balanced, trueHeight_mapOrders]
      exact ⟨ihl h.1, ihr h.2.1, h.2.2⟩

theorem ids_map_of_id_preserving (g : Order → Order) (os : List Order)
    (hg : ∀ a, (g a).orderId = a.orderId) :
    (os.map g).map Order.orderId = os.map Order.orderId := by
  induction os with
  | nil => rfl
  | cons a os ih => simp [hg a, ih]

theorem ascendingIds_iff_ids (os : List Order) :
    AscendingIds os ↔ (os.map Order.orderId).Pairwise (fun a b => a < b) := by
  unfold AscendingIds
  rw [List.pairwise_map]

theorem getElem?_modifyAt (f : Order → Order) (os : List Order) (i j : Nat) :
    (modifyAt f os i)[j]? = if i = j then os[j]?.map f else os[j]? := by
  induction os generalizing i j with
  | nil => simp [modifyAt]
  | cons a os ih =>
      cases i with
      | zero =>
          cases j with
          | zero => simp [modifyAt]
          | succ j => simp [modifyAt]
      | succ i =>
          cases j with
          | zero => simp [modifyAt]
          | succ j => simp [modifyAt, ih]

theorem modifyAt_eq_nil_iff (f : Order → Order) (os : List Order) (i : Nat) :
    modifyAt f os i = [] ↔ os = [] := by
  cases os with
  | nil => simp [modifyAt]
  | cons a os => cases i <;> simp [modifyAt]


/-! ## Theorems: the invariant of the order structures -/

theorem insertById_append_last (order : Order) (os : List Order)
    (h : ∀ a ∈ os, a.orderId < order.orderId) : insertById order os = os ++ [order] := by
  induction os with
  | nil => rfl
  | cons a os ih =>
      have ha := h a (List.mem_cons_self a os)
      have h1 : ¬ order.orderId < a.orderId := by omega
      have h2 : order.orderId > a.orderId := by omega
      rw [insertById, if_neg h1, if_pos h2, ih (fun b hb => h b (List.mem_cons_of_mem a hb)),
        List.cons_append]

theorem checkoutOrder_orderId (s : System) (username address phone promoCode : String)
    (priority t1 t2 : Int) :
    (checkoutOrder s username address phone promoCode priority t1 t2).1.orderId =
      s.currentOrderId := by
  rw [checkoutOrder_eq]

/-- On a well-formed state with a cart that is not empty, `checkout` succeeds: it admits the
record `checkoutOrder` builds, pushes it, enqueues it by the scan from the front, inserts it as
the greatest entry of the history and advances the order counter by one. -/
theorem checkout_eq (s : System) (username address phone promoCode : String)
    (priority t1 t2 : Int) (hw : WellFormed s) (hc : s.cart ≠ []) :
    ∃ t2h, insertOrderHistory s.historyRoot
        (checkoutOrder s username address phone promoCode priority t1 t2).1 = some t2h ∧
      HeightsOk t2h ∧ Balanced t2h ∧
      displayOrderHistoryInorder t2h = displayOrderHistoryInorder s.historyRoot ++
        [(checkoutOrder s username address phone promoCode priority t1 t2).1] ∧
      checkout s username address phone promoCode priority t1 t2 =
        some ({ menuHead := (checkoutOrder s username address phone promoCode priority t1 t2).2,
                cart := [], promoHead := s.promoHead,
                orderStackTop :=
                  (checkoutOrder s username address phone promoCode priority t1 t2).1 ::
                    s.orderStackTop,
                delivery :=
                  { deliveryFront := insertAfterScan
                      (checkoutOrder s username address phone promoCode priority t1 t2).1
                      s.delivery.deliveryFront,
                    rearIsNull := false },
                userRoot := addLoyaltyPoints s.userRoot username
                  (checkoutFloatTotal s promoCode),
                historyRoot := t2h, currentOrderId := s.currentOrderId + 1 },
          some (checkoutOrder s username address phone promoCode priority t1 t2).1) := by
  obtain ⟨hq, hh, hb, hs, hlt⟩ := hw
  obtain ⟨t2h, e, hh2, hb2, hi2, _⟩ := insertOrderHistory_inv s.historyRoot
    (checkoutOrder s username address phone promoCode priority t1 t2).1 hh hb hs
  refine ⟨t2h, e, hh2, hb2, ?_, ?_⟩
  · rw [hi2]
    apply insertById_append_last
    intro a ha
    rw [checkoutOrder_orderId]
    exact hlt a ha
  · simp only [checkout, hc, if_false, enqueueDelivery_eq s.delivery _ hq, e, Option.bind,
      pushOrder]

theorem wellFormed_checkout (s s2 : System) (username address phone promoCode : String)
    (priority t1 t2 : Int) (o : Order) (hw : WellFormed s)
    (h : checkout s username address phone promoCode priority t1 t2 = some (s2, some o)) :
    WellFormed s2 ∧ o.orderId = s.currentOrderId ∧ s2.currentOrderId = s.currentOrderId + 1 ∧
      displayOrderHistoryInorder s2.historyRoot =
        displayOrderHistoryInorder s.historyRoot ++ [o] := by
  obtain ⟨hc, ho⟩ := checkout_admits h
  obtain ⟨t2h, _, hh2, hb2, hi2, e⟩ :=
    checkout_eq s username address phone promoCode priority t1 t2 hw hc
  rw [e] at h
  simp only [Option.some.injEq, Prod.mk.injEq] at h
  obtain ⟨hs2, _⟩ := h
  subst hs2
  obtain ⟨hq, hh, hb, hs, hlt⟩ := hw
  have hid := checkoutOrder_orderId s username address phone promoCode priority t1 t2
  refine ⟨⟨?_, hh2, hb2, ?_, ?_⟩, ?_, rfl, ?_⟩
  · unfold RearConsistent
    simp [insertAfterScan_ne_nil]
  · simp only
    rw [hi2]
    unfold AscendingIds at hs ⊢
    rw [List.pairwise_append]
    refine ⟨hs, List.pairwise_singleton _ _, ?_⟩
    intro a ha b hb
    rw [List.mem_singleton] at hb
    rw [hb, hid]
    exact hlt a ha
  · simp only
    rw [hi2]
    intro a ha
    rcases List.mem_append.1 ha with ha | ha
    · have := hlt a ha
      omega
    · rw [List.mem_singleton] at ha
      rw [ha, hid]
      omega
  · rw [ho, hid]
  · simp only
    rw [hi2, ho]

theorem wellFormed_updateOrderStatusAt (s : System) (p : OrderPtr) (newStatus now : Int)
    (hw : WellFormed s) :
    WellFormed (updateOrderStatusAt s p newStatus now) ∧
      (updateOrderStatusAt s p newStatus now).currentOrderId = s.currentOrderId ∧
      (displayOrderHistoryInorder (updateOrderStatusAt s p newStatus now).historyRoot).map
          Order.orderId =
        (displayOrderHistoryInorder s.historyRoot).map Order.orderId := by
  obtain ⟨hq, hh, hb, hs, hlt⟩ := hw
  cases p with
  | stackNode i => exact ⟨⟨hq, hh, hb, hs, hlt⟩, rfl, rfl⟩
  | queueNode i =>
      refine ⟨⟨?_, hh, hb, hs, hlt⟩, rfl, rfl⟩
      unfold RearConsistent at hq ⊢
      simp only [updateOrderStatusAt, modifyAt_eq_nil_iff]
      exact hq
  | historyNode k =>
      have hids : (displayOrderHistoryInorder
          (modifyHistoryNode (fun o => updateOrderStatus o newStatus now) s.historyRoot k)).map
            Order.orderId = (displayOrderHistoryInorder s.historyRoot).map Order.orderId := by
        rw [modifyHistoryNode_eq_mapOrders _ _ _ hs, inorder_mapOrders]
        apply ids_map_of_id_preserving
        intro a
        by_cases ha : a.orderId = k <;> simp [ha, updateOrderStatus]
      refine ⟨⟨hq, ?_, ?_, ?_, ?_⟩, rfl, hids⟩
      · simp only [updateOrderStatusAt]
        rw [modifyHistoryNode_eq_mapOrders _ _ _ hs]
        exact heightsOk_mapOrders _ _ hh
      · simp only [updateOrderStatusAt]
        rw [modifyHistoryNode_eq_mapOrders _ _ _ hs]
        exact balanced_mapOrders _ _ hb
      · simp only [updateOrderStatusAt]
        rw [ascendingIds_iff_ids, hids, ← ascendingIds_iff_ids]
        exact hs
      · simp only [updateOrderStatusAt]
        intro a ha
        have hm : a.orderId ∈ (displayOrderHistoryInorder
            (modifyHistoryNode (fun o => updateOrderStatus o newStatus now)
              s.historyRoot k)).map Order.orderId := List.mem_map.2 ⟨a, ha, rfl⟩
        rw [hids] at hm
        obtain ⟨b, hb2, hbe⟩ := List.mem_map.1 hm
        rw [← hbe]
        exact hlt b hb2

/-- Every action succeeds on a well-formed state and keeps it well formed; only a checkout that
admits an order advances the order counter and adds an entry to the history, and the order it
admits bears the value the counter had. -/
theorem stepSystem_inv (s : System) (op : SysOp) (hw : WellFormed s) :
    ∃ s1 oo, stepSystem s op = some (s1, oo) ∧ WellFormed s1 ∧
      s1.currentOrderId = s.currentOrderId + (oo.toList.length : Int) ∧
      (displayOrderHistoryInorder s1.historyRoot).map Order.orderId =
        (displayOrderHistoryInorder s.historyRoot).map Order.orderId ++
          oo.toList.map Order.orderId ∧
      oo.toList.map Order.orderId = oo.toList.map (fun _ => s.currentOrderId) := by
  have hw0 := hw
  obtain ⟨hq, hh, hb, hs, hlt⟩ := hw
  cases op with
  | addToMenu id name category price stock =>
      exact ⟨_, none, rfl, ⟨hq, hh, hb, hs, hlt⟩, by simp, by simp, rfl⟩
  | addToCart itemId quantity =>
      exact ⟨_, none, rfl, ⟨hq, hh, hb, hs, hlt⟩, by simp, by simp, rfl⟩
  | removeFromCart itemId =>
      exact ⟨_, none, rfl, ⟨hq, hh, hb, hs, hlt⟩, by simp, by simp, rfl⟩
  | checkout username address phone promoCode priority t1 t2 =>
      by_cases hc : s.cart = []
      · refine ⟨s, none, ?_, hw0, by simp, by simp, rfl⟩
        simp [stepSystem, checkout, hc]
      · obtain ⟨t2h, _, _, _, _, e⟩ :=
          checkout_eq s username address phone promoCode priority t1 t2 hw0 hc
        obtain ⟨hw2, hid, hcur, hin⟩ :=
          wellFormed_checkout s _ username address phone promoCode priority t1 t2 _ hw0 e
        refine ⟨_, _, e, hw2, ?_, ?_, ?_⟩
        · rw [hcur]
          simp
        · rw [hin]
          simp
        · simp [hid]
  | processNextOrder =>
      exact ⟨_, none, rfl, ⟨hq, hh, hb, hs, hlt⟩, by simp, by simp, rfl⟩
  | dequeueDelivery =>
      exact ⟨_, none, rfl, ⟨rearConsistent_dequeue _ hq, hh, hb, hs, hlt⟩, by simp, by simp, rfl⟩
  | updateStatus orderId newStatus now =>
      refine ⟨_, none, rfl, ?_⟩
      simp only [adminUpdateStatus]
      cases searchOrderById s orderId with
      | none => exact ⟨hw0, by simp, by simp, rfl⟩
      | some p =>
          obtain ⟨h1, h2, h3⟩ := wellFormed_updateOrderStatusAt s p newStatus now hw0
          exact ⟨h1, by simp [h2], by simp [h3], rfl⟩
  | signup username password address phone =>
      refine ⟨_, none, rfl, ?_⟩
      simp only [userSignup]
      cases searchUser s.userRoot username with
      | nil => exact ⟨⟨hq, hh, hb, hs, hlt⟩, by simp, by simp, rfl⟩
      | node u p a ph pts l r => exact ⟨hw0, by simp, by simp, rfl⟩
  | addPromoCode code discount =>
      exact ⟨_, none, rfl, ⟨hq, hh, hb, hs, hlt⟩, by simp, by simp, rfl⟩


/-- Every run of actions from a well-formed state succeeds and ends in a well-formed state; the
orders it admits bear the consecutive values of the order counter, the counter has advanced by
their number, and each of them has its own entry in the history. -/
theorem runSystem_inv (ops : List SysOp) (s : System) (hw : WellFormed s) :
    ∃ s2 log, runSystem s ops = some (s2, log) ∧ WellFormed s2 ∧
      s2.currentOrderId = s.currentOrderId + (log.length : Int) ∧
      (displayOrderHistoryInorder s2.historyRoot).map Order.orderId =
        (displayOrderHistoryInorder s.historyRoot).map Order.orderId ++
          log.map Order.orderId ∧
      log.map Order.orderId =
        (List.range log.length).map (fun (k : Nat) => s.currentOrderId + (k : Int)) := by
  induction ops generalizing s with
  | nil => exact ⟨s, [], rfl, hw, by simp, by simp, by simp⟩
  | cons op ops ih =>
      obtain ⟨s1, oo, e1, hw1, hc1, hi1, hid1⟩ := stepSystem_inv s op hw
      obtain ⟨s2, log2, e2, hw2, hc2, hi2, hid2⟩ := ih s1 hw1
      refine ⟨s2, oo.toList ++ log2, ?_, hw2, ?_, ?_, ?_⟩
      · simp only [runSystem, e1, Option.bind, e2, Option.map]
      · rw [hc2, hc1]
        simp only [List.length_append, Nat.cast_add]
        ring
      · rw [hi2, hi1]
        simp
      · cases oo with
        | none =>
            simp only [Option.toList, List.length_nil, Nat.cast_zero, add_zero] at hc1
            simp only [Option.toList, List.nil_append]
            rw [hid2, hc1]
        | some o =>
            simp only [Option.toList, List.length_singleton, Nat.cast_one] at hc1
            simp only [Option.toList, List.map_cons, List.map_nil] at hid1
            simp only [Option.toList, List.singleton_append, List.map_cons, List.length_cons]
            rw [List.range_succ_eq_map, List.map_cons, List.map_map, hid2, hc1]
            have ho : o.orderId = s.currentOrderId := by
              simpa using hid1
            rw [ho]
            congr 1
            · simp
            · apply List.map_congr_left
              intro k _
              simp only [Function.comp, Nat.cast_succ]
              ring

theorem wellFormed_startSystem (menuHead : List FoodItem) (promoHead : List PromoCode)
    (userRoot : User) : WellFormed (startSystem menuHead promoHead userRoot) := by
  refine ⟨rearConsistent_emptyQueue, trivial, trivial, List.Pairwise.nil, ?_⟩
  intro a ha
  simp [startSystem, displayOrderHistoryInorder] at ha

theorem nodeCount_eq_length (t : OrderHistory) :
    nodeCount t = (displayOrderHistoryInorder t).length := by
  induction t with
  | nil => rfl
  | node o s l r ihl ihr =>
      simp only [nodeCount, displayOrderHistoryInorder, List.length_append, List.length_cons,
        ihl, ihr]
      omega

theorem runSystem_pizza :
    runSystem
        (startSystem
          [{ id := 1, name := "Margherita Pizza", category := "Pizza", price := 1299 / 100,
             stock := 50 }]
          [{ code := "WELCOME10", discount := 10 }, { code := "SAVE20", discount := 20 },
            { code := "FIRSTORDER", discount := 15 }]
          (.node "admin" "admin123" "Admin Office" "1234567890" 1000 .nil
            (.node "user" "user123" "123 Main St" "9876543210" 0 .nil .nil)))
        [.addToCart 1 2] =
      some (pizzaCartSystem, []) := by
  simp [runSystem, stepSystem, startSystem, addToCart, findMenuItem, pizzaCartSystem]

/-! ## Claims about checkout and the order counter -/

/-- C15: `checkout` with an empty cart is rejected: no order is admitted and the whole state
(order counter, stack, queue, history, stock, loyalty points) is returned as it was. -/
theorem C15_checkout_empty_cart_no_change (s : System)
    (username address phone promoCode : String) (priority t1 t2 : Int) (h : s.cart = []) :
    checkout s username address phone promoCode priority t1 t2 = some (s, none) := by
  simp [checkout, h]

/-- An instance of C15: a checkout in the state at program start, whose cart is empty. -/
theorem C15_checkout_empty_cart_no_change_witness :
    checkout initialSystem "user" "123 Main St" "9876543210" "skip" 2 0 0 =
      some (initialSystem, none) :=
  C15_checkout_empty_cart_no_change initialSystem "user" "123 Main St" "9876543210" "skip" 2 0 0
    rfl

/-- C16: in every state reached from start-up by a run of actions, `checkout` with a cart that
is not empty succeeds and admits the record `o` it shows to the caller: `o` is the top of the
stack above the old stack, the queue holds one more copy of `o` than before and as many copies
of every other order, the history search for the id of `o` finds a node holding `o`, and the
cart is empty afterwards. -/
theorem C16_checkout_admits_three_copies (menuHead : List FoodItem)
    (promoHead : List PromoCode) (userRoot : User) (ops : List SysOp) (s : System)
    (log : List Order) (username address phone promoCode : String) (priority t1 t2 : Int)
    (hrun : runSystem (startSystem menuHead promoHead userRoot) ops = some (s, log))
    (hcart : s.cart ≠ []) :
    ∃ s2 o, checkout s username address phone promoCode priority t1 t2 = some (s2, some o) ∧
      o = (checkoutOrder s username address phone promoCode priority t1 t2).1 ∧
      s2.orderStackTop = o :: s.orderStackTop ∧
      (∀ x, s2.delivery.deliveryFront.count x =
        s.delivery.deliveryFront.count x + if x = o then 1 else 0) ∧
      nodeOrder (searchOrderHistoryById s2.historyRoot o.orderId) = some o ∧
      s2.cart = [] := by
  obtain ⟨s', log', e, hw, _⟩ :=
    runSystem_inv ops _ (wellFormed_startSystem menuHead promoHead userRoot)
  rw [hrun] at e
  simp only [Option.some.injEq, Prod.mk.injEq] at e
  obtain ⟨e1, _⟩ := e
  subst e1
  obtain ⟨t2h, _, _, _, hi2, e⟩ :=
    checkout_eq s username address phone promoCode priority t1 t2 hw hcart
  obtain ⟨hw2, hid, _, _⟩ :=
    wellFormed_checkout s _ username address phone promoCode priority t1 t2 _ hw e
  refine ⟨_, _, e, rfl, rfl, ?_, ?_, rfl⟩
  · intro x
    simp only
    rw [(perm_insertAfterScan _ _).count_eq, List.count_cons]
    by_cases hx : x = (checkoutOrder s username address phone promoCode priority t1 t2).1
    · simp [hx]
    · have hx2 : ¬ (checkoutOrder s username address phone promoCode priority t1 t2).1 = x :=
        fun h => hx h.symm
      simp [hx, hx2]
  · simp only
    rw [search_eq_find _ _ hw2.2.2.2.1]
    simp only
    rw [hi2, List.find?_append]
    have hnone : (displayOrderHistoryInorder s.historyRoot).find?
        (fun a => decide (a.orderId =
          (checkoutOrder s username address phone promoCode priority t1 t2).1.orderId)) =
        none := by
      apply find_none_of_ids_ne
      intro a ha
      have := hw.2.2.2.2 a ha
      rw [hid]
      omega
    rw [hnone]
    simp [List.find?]

/-- An instance of C16: the checkout of two pizzas by `user` right after start-up. -/
theorem C16_checkout_admits_three_copies_witness :
    ∃ s2 o, checkout pizzaCartSystem "user" "123 Main St" "9876543210" "skip" 2 0 0 =
        some (s2, some o) ∧
      o = (checkoutOrder pizzaCartSystem "user" "123 Main St" "9876543210" "skip" 2 0 0).1 ∧
      s2.orderStackTop = o :: pizzaCartSystem.orderStackTop ∧
      (∀ x, s2.delivery.deliveryFront.count x =
        pizzaCartSystem.delivery.deliveryFront.count x + if x = o then 1 else 0) ∧
      nodeOrder (searchOrderHistoryById s2.historyRoot o.orderId) = some o ∧
      s2.cart = [] :=
  C16_checkout_admits_three_copies _ _ _ [.addToCart 1 2] pizzaCartSystem []
    "user" "123 Main St" "9876543210" "skip" 2 0 0 runSystem_pizza
    (by simp [pizzaCartSystem])

/-- C17: every run of actions from the state after start-up succeeds; the k-th order admitted by
a checkout (k = 0, 1, 2, ...) has id 1000 + k; the order counter stands at 1000 plus the number
of orders admitted, so a rejected checkout consumes no id; no two admitted orders share an id;
and the history holds one node per admitted order, so no insertion at checkout met an id that
was already there. -/
theorem C17_order_ids_sequential_from_1000 (menuHead : List FoodItem)
    (promoHead : List PromoCode) (userRoot : User) (ops : List SysOp) :
    ∃ s log, runSystem (startSystem menuHead promoHead userRoot) ops = some (s, log) ∧
      log.map Order.orderId =
        (List.range log.length).map (fun (k : Nat) => 1000 + (k : Int)) ∧
      s.currentOrderId = 1000 + (log.length : Int) ∧
      (log.map Order.orderId).Nodup ∧
      (displayOrderHistoryInorder s.historyRoot).map Order.orderId = log.map Order.orderId ∧
      nodeCount s.historyRoot = log.length := by
  obtain ⟨s, log, e, _, hc, hi, hid⟩ :=
    runSystem_inv ops _ (wellFormed_startSystem menuHead promoHead userRoot)
  have hi2 : (displayOrderHistoryInorder s.historyRoot).map Order.orderId =
      log.map Order.orderId := by
    rw [hi]
    simp [startSystem, displayOrderHistoryInorder]
  refine ⟨s, log, e, hid, hc, ?_, hi2, ?_⟩
  · have hid2 : log.map Order.orderId =
        (List.range log.length).map (fun (k : Nat) => 1000 + (k : Int)) := hid
    rw [hid2]
    apply List.Nodup.map _ (List.nodup_range _)
    intro a b hab
    simp only at hab
    omega
  · rw [nodeCount_eq_length]
    have := congrArg List.length hi2
    simpa using this


/-! ## Claims about status updates -/

theorem search_node_id (t : OrderHistory) (id : Int) (o : Order)
    (h : nodeOrder (searchOrderHistoryById t id) = some o) : o.orderId = id := by
  induction t with
  | nil => simp [searchOrderHistoryById, nodeOrder] at h
  | node x s l r ihl ihr =>
      simp only [searchOrderHistoryById] at h
      by_cases h0 : x.orderId = id
      · simp only [h0, if_true, nodeOrder, Option.some.injEq] at h
        rw [← h]
        exact h0
      · by_cases h1 : id < x.orderId
        · simp only [h0, h1, if_true, if_false] at h
          exact ihl h
        · simp only [h0, h1, if_false] at h
          exact ihr h

theorem scanForId_pointee (os : List Order) (id : Int) (i : Nat)
    (h : scanForId os id = some i) : ∃ o, os[i]? = some o ∧ o.orderId = id := by
  have hb := scanForId_getElem os id
  rw [h] at hb
  simp only [Option.bind] at hb
  have hfi := scanForId_eq_findIdx os id
  rw [h] at hfi
  have hlt := (List.findIdx?_eq_some_iff_getElem.1 hfi.symm).1
  refine ⟨os[i], List.getElem?_eq_getElem hlt, ?_⟩
  have hp := (List.findIdx?_eq_some_iff_getElem.1 hfi.symm).2.1
  simpa using hp

/-- What `searchOrderById` returns points to a record with the id asked for. -/
theorem searchOrderById_pointee (s : System) (id : Int) (p : OrderPtr)
    (h : searchOrderById s id = some p) :
    ∃ o, pointee s p = some o ∧ o.orderId = id ∧
      (p = .historyNode id ∨ (∃ i, p = .stackNode i) ∨ ∃ i, p = .queueNode i) := by
  simp only [searchOrderById] at h
  cases h1 : scanForId s.orderStackTop id with
  | some i =>
      simp only [h1, Option.some.injEq] at h
      subst h
      obtain ⟨o, ho, hid⟩ := scanForId_pointee _ _ _ h1
      exact ⟨o, ho, hid, Or.inr (Or.inl ⟨i, rfl⟩)⟩
  | none =>
      cases h2 : scanForId s.delivery.deliveryFront id with
      | some i =>
          simp only [h1, h2, Option.some.injEq] at h
          subst h
          obtain ⟨o, ho, hid⟩ := scanForId_pointee _ _ _ h2
          exact ⟨o, ho, hid, Or.inr (Or.inr ⟨i, rfl⟩)⟩
      | none =>
          cases h3 : searchOrderHistoryById s.historyRoot id with
          | nil => simp [h1, h2, h3] at h
          | node x sh l r =>
              simp only [h1, h2, h3, Option.some.injEq] at h
              subst h
              have hp : nodeOrder (searchOrderHistoryById s.historyRoot id) = some x := by
                rw [h3]; rfl
              exact ⟨x, hp, search_node_id _ _ _ hp, Or.inl rfl⟩

/-- C14: `updateOrderStatus` applied to the record `searchOrderById` returns sets the status
and the status time of that one record and nothing else: the record keeps every other field,
every other node of the stack and of the queue keeps its record, the history keeps its shape
and every other record (the tree is mapped by a function that changes only the record pointed
to), and the other globals are as before. So after a checkout followed by a status update of
the new order, the stack copy has the new status while the queue and the history are as the
checkout left them, their copies still reading status 0 (pending). -/
theorem C14_status_update_changes_one_copy (os : List Order) (s : System)
    (id newStatus now : Int) (p : OrderPtr)
    (hbuilt : insertOrders .nil os = some s.historyRoot)
    (hfind : searchOrderById s id = some p) :
    (∃ o, pointee s p = some o ∧ o.orderId = id ∧
      pointee (updateOrderStatusAt s p newStatus now) p =
        some { o with status := newStatus, statusTime := now } ∧
      (∀ j, (updateOrderStatusAt s p newStatus now).orderStackTop[j]? =
        if p = .stackNode j then some { o with status := newStatus, statusTime := now }
        else s.orderStackTop[j]?) ∧
      (∀ j, (updateOrderStatusAt s p newStatus now).delivery.deliveryFront[j]? =
        if p = .queueNode j then some { o with status := newStatus, statusTime := now }
        else s.delivery.deliveryFront[j]?) ∧
      (updateOrderStatusAt s p newStatus now).historyRoot =
        mapOrders (fun a => if p = .historyNode a.orderId then
          { a with status := newStatus, statusTime := now } else a) s.historyRoot) ∧
    (updateOrderStatusAt s p newStatus now).delivery.rearIsNull = s.delivery.rearIsNull ∧
    (updateOrderStatusAt s p newStatus now).menuHead = s.menuHead ∧
    (updateOrderStatusAt s p newStatus now).cart = s.cart ∧
    (updateOrderStatusAt s p newStatus now).promoHead = s.promoHead ∧
    (updateOrderStatusAt s p newStatus now).userRoot = s.userRoot ∧
    (updateOrderStatusAt s p newStatus now).currentOrderId = s.currentOrderId ∧
    (∀ (menuHead : List FoodItem) (promoHead : List PromoCode) (userRoot : User)
      (ops : List SysOp) (s0 s1 : System) (log : List Order)
      (username address phone promoCode : String) (priority t1 t2 : Int) (o : Order),
      runSystem (startSystem menuHead promoHead userRoot) ops = some (s0, log) →
      checkout s0 username address phone promoCode priority t1 t2 = some (s1, some o) →
      (adminUpdateStatus s1 o.orderId newStatus now).orderStackTop =
          { o with status := newStatus, statusTime := now } :: s0.orderStackTop ∧
        (adminUpdateStatus s1 o.orderId newStatus now).delivery = s1.delivery ∧
        (adminUpdateStatus s1 o.orderId newStatus now).historyRoot = s1.historyRoot ∧
        o.status = 0 ∧
        o ∈ (adminUpdateStatus s1 o.orderId newStatus now).delivery.deliveryFront ∧
        nodeOrder (searchOrderHistoryById
          (adminUpdateStatus s1 o.orderId newStatus now).historyRoot o.orderId) = some o) := by
  obtain ⟨t, e, _, _, _, hs⟩ := insertOrders_nil_inv os
  rw [hbuilt] at e
  cases e
  obtain ⟨o, ho, hid, hkind⟩ := searchOrderById_pointee s id p hfind
  refine ⟨⟨o, ho, hid, ?_, ?_, ?_, ?_⟩, ?_, ?_, ?_, ?_, ?_, ?_, ?_⟩
  · rcases hkind with hk | ⟨i, hk⟩ | ⟨i, hk⟩
    · subst hk
      simp only [pointee] at ho ⊢
      simp only [updateOrderStatusAt]
      rw [search_eq_find _ _ hs] at ho
      rw [modifyHistoryNode_eq_mapOrders _ _ _ hs, search_eq_find, inorder_mapOrders,
        List.find?_map]
      · have hcomp : ((fun a : Order => decide (a.orderId = id)) ∘
            fun a => if a.orderId = id then updateOrderStatus a newStatus now else a) =
            fun a => decide (a.orderId = id) := by
          funext a
          by_cases ha : a.orderId = id <;> simp [ha, updateOrderStatus]
        rw [hcomp, ho]
        simp [hid, updateOrderStatus]
      · rw [inorder_mapOrders, ascendingIds_iff_ids, ids_map_of_id_preserving,
          ← ascendingIds_iff_ids]
        · exact hs
        · intro a
          by_cases ha : a.orderId = id <;> simp [ha, updateOrderStatus]
    · subst hk
      simp only [pointee] at ho ⊢
      simp [updateOrderStatusAt, getElem?_modifyAt, ho, updateOrderStatus]
    · subst hk
      simp only [pointee] at ho ⊢
      simp [updateOrderStatusAt, getElem?_modifyAt, ho, updateOrderStatus]
  · intro j
    cases p with
    | stackNode i =>
        simp only [pointee] at ho
        simp only [updateOrderStatusAt, getElem?_modifyAt, OrderPtr.stackNode.injEq]
        by_cases hij : i = j
        · subst hij
          simp [ho, updateOrderStatus]
        · simp [hij]
    | queueNode i => simp [updateOrderStatusAt]
    | historyNode k => simp [updateOrderStatusAt]
  · intro j
    cases p with
    | stackNode i => simp [updateOrderStatusAt]
    | queueNode i =>
        simp only [pointee] at ho
        simp only [updateOrderStatusAt, getElem?_modifyAt, OrderPtr.queueNode.injEq]
        by_cases hij : i = j
        · subst hij
          simp [ho, updateOrderStatus]
        · simp [hij]
    | historyNode k => simp [updateOrderStatusAt]
  · cases p with
    | stackNode i =>
        simp only [updateOrderStatusAt]
        exact (mapOrders_eq_self _ _ (fun a _ => by simp)).symm
    | queueNode i =>
        simp only [updateOrderStatusAt]
        exact (mapOrders_eq_self _ _ (fun a _ => by simp)).symm
    | historyNode k =>
        simp only [updateOrderStatusAt]
        rw [modifyHistoryNode_eq_mapOrders _ _ _ hs]
        congr 1
        funext a
        by_cases ha : a.orderId = k
        · simp [ha, updateOrderStatus]
        · have ha2 : ¬ k = a.orderId := fun h => ha h.symm
          simp [ha, ha2]
  · cases p <;> rfl
  · cases p <;> rfl
  · cases p <;> rfl
  · cases p <;> rfl
  · cases p <;> rfl
  · cases p <;> rfl
  · intro menuHead promoHead userRoot ops s0 s1 log username address phone promoCode priority
      t1 t2 o hrun hco
    obtain ⟨s', log', e, hw, _⟩ :=
      runSystem_inv ops _ (wellFormed_startSystem menuHead promoHead userRoot)
    rw [hrun] at e
    simp only [Option.some.injEq, Prod.mk.injEq] at e
    obtain ⟨e1, _⟩ := e
    subst e1
    obtain ⟨hc, ho2⟩ := checkout_admits hco
    obtain ⟨t2h, _, _, _, hi2, e⟩ :=
      checkout_eq s0 username address phone promoCode priority t1 t2 hw hc
    obtain ⟨hw2, hid2, _, _⟩ :=
      wellFormed_checkout s0 _ username address phone promoCode priority t1 t2 _ hw hco
    rw [e] at hco
    simp only [Option.some.injEq, Prod.mk.injEq] at hco
    obtain ⟨hs1, _⟩ := hco
    subst hs1
    have hsearch : searchOrderById
        { menuHead := (checkoutOrder s0 username address phone promoCode priority t1 t2).2,
          cart := [], promoHead := s0.promoHead,
          orderStackTop :=
            (checkoutOrder s0 username address phone promoCode priority t1 t2).1 ::
              s0.orderStackTop,
          delivery :=
            { deliveryFront := insertAfterScan
                (checkoutOrder s0 username address phone promoCode priority t1 t2).1
                s0.delivery.deliveryFront,
              rearIsNull := false },
          userRoot := addLoyaltyPoints s0.userRoot username
            (checkoutFloatTotal s0 promoCode),
          historyRoot := t2h, currentOrderId := s0.currentOrderId + 1 } o.orderId =
        some (.stackNode 0) := by
      simp [searchOrderById, scanForId, ho2]
    simp only [adminUpdateStatus, hsearch, updateOrderStatusAt, modifyAt]
    refine ⟨?_, trivial, trivial, ?_, ?_, ?_⟩
    · rw [ho2]
      rfl
    · rw [ho2, checkoutOrder_eq]
    · rw [mem_insertAfterScan]
      exact Or.inl ho2
    · rw [search_eq_find _ _ hw2.2.2.2.1]
      simp only
      rw [hi2, List.find?_append]
      have hnone : (displayOrderHistoryInorder s0.historyRoot).find?
          (fun a => decide (a.orderId = o.orderId)) = none := by
        apply find_none_of_ids_ne
        intro a ha
        have := hw.2.2.2.2 a ha
        omega
      rw [hnone, ← ho2]
      simp [List.find?]

/-- An instance of C14: order 1000 is found on the stack; setting its status to 3 at time 7
changes the stack copy and leaves the queue copy and the history copy as they were. -/
theorem C14_status_update_changes_one_copy_witness :
    insertOrders .nil [sampleOrder 1000 1] = some oneOrderSystem.historyRoot ∧
      searchOrderById oneOrderSystem 1000 = some (.stackNode 0) ∧
      ∃ o, pointee oneOrderSystem (.stackNode 0) = some o ∧ o.orderId = 1000 ∧
        pointee (updateOrderStatusAt oneOrderSystem (.stackNode 0) 3 7) (.stackNode 0) =
          some { o with status := 3, statusTime := 7 } ∧
        (∀ j, (updateOrderStatusAt oneOrderSystem (.stackNode 0) 3 7).orderStackTop[j]? =
          if OrderPtr.stackNode 0 = .stackNode j then some { o with status := 3, statusTime := 7 }
          else oneOrderSystem.orderStackTop[j]?) ∧
        (∀ j, (updateOrderStatusAt oneOrderSystem (.stackNode 0) 3 7).delivery.deliveryFront[j]? =
          if OrderPtr.stackNode 0 = .queueNode j then some { o with status := 3, statusTime := 7 }
          else oneOrderSystem.delivery.deliveryFront[j]?) ∧
        (updateOrderStatusAt oneOrderSystem (.stackNode 0) 3 7).historyRoot =
          mapOrders (fun a => if OrderPtr.stackNode 0 = .historyNode a.orderId then
            { a with status := 3, statusTime := 7 } else a) oneOrderSystem.historyRoot :=
  ⟨by decide, by decide,
    (C14_status_update_changes_one_copy [sampleOrder 1000 1] oneOrderSystem 1000 3 7
      (.stackNode 0) (by decide) (by decide)).1⟩


/-! ## Theorems: accounts -/

theorem ascendingNames_append_cons {x : Account} {ls rs : List Account}
    (h : AscendingNames (ls ++ x :: rs)) :
    AscendingNames ls ∧ AscendingNames rs ∧ (∀ a ∈ ls, a.username < x.username) ∧
      (∀ b ∈ rs, x.username < b.username) := by
  unfold AscendingNames at *
  rw [List.pairwise_append] at h
  obtain ⟨h1, h2, h3⟩ := h
  rw [List.pairwise_cons] at h2
  exact ⟨h1, h2.2, fun a ha => h3 a ha x (List.mem_cons_self x rs), h2.1⟩

theorem insertByName_append_lt (acc x : Account) (ls rs : List Account)
    (h : acc.username < x.username) :
    insertByName acc (ls ++ x :: rs) = insertByName acc ls ++ x :: rs := by
  induction ls with
  | nil => simp [insertByName, h]
  | cons a ls ih =>
      rw [List.cons_append, insertByName, insertByName]
      split
      · rfl
      · split
        · rw [ih, List.cons_append]
        · rw [List.cons_append]

theorem insertByName_append_gt (acc x : Account) (ls rs : List Account)
    (h : x.username < acc.username) (hls : ∀ a ∈ ls, a.username < x.username) :
    insertByName acc (ls ++ x :: rs) = ls ++ x :: insertByName acc rs := by
  induction ls with
  | nil =>
      have h1 : ¬ acc.username < x.username := lt_asymm h
      simp [insertByName, h, h1]
  | cons a ls ih =>
      have ha := hls a (List.mem_cons_self a ls)
      have h2 : acc.username > a.username := lt_trans ha h
      have h1 : ¬ acc.username < a.username := lt_asymm h2
      rw [List.cons_append, insertByName, if_neg h1, if_pos h2,
        ih (fun b hb => hls b (List.mem_cons_of_mem a hb)), List.cons_append]

theorem insertByName_append_eq (acc x : Account) (ls rs : List Account)
    (h : acc.username = x.username) (hls : ∀ a ∈ ls, a.username < x.username) :
    insertByName acc (ls ++ x :: rs) = ls ++ x :: rs := by
  induction ls with
  | nil => simp [insertByName, h]
  | cons a ls ih =>
      have ha := hls a (List.mem_cons_self a ls)
      have h2 : acc.username > a.username := by rw [h]; exact ha
      have h1 : ¬ acc.username < a.username := lt_asymm h2
      rw [List.cons_append, insertByName, if_neg h1, if_pos h2,
        ih (fun b hb => hls b (List.mem_cons_of_mem a hb))]

theorem mem_insertByName (acc a : Account) (accounts : List Account) :
    a ∈ insertByName acc accounts → a = acc ∨ a ∈ accounts := by
  induction accounts with
  | nil => simp [insertByName]
  | cons b accounts ih =>
      rw [insertByName]
      split
      · intro h
        rcases List.mem_cons.1 h with h | h
        · exact Or.inl h
        · exact Or.inr h
      · split
        · intro h
          rcases List.mem_cons.1 h with h | h
          · exact Or.inr (h ▸ List.mem_cons_self _ _)
          · rcases ih h with h | h
            · exact Or.inl h
            · exact Or.inr (List.mem_cons_of_mem _ h)
        · intro h
          exact Or.inr h

theorem ascending_insertByName (acc : Account) (accounts : List Account)
    (h : AscendingNames accounts) : AscendingNames (insertByName acc accounts) := by
  induction accounts with
  | nil => simp [insertByName, AscendingNames]
  | cons b accounts ih =>
      unfold AscendingNames at h ih ⊢
      rw [List.pairwise_cons] at h
      rw [insertByName]
      split
      · rename_i hlt
        rw [List.pairwise_cons]
        refine ⟨?_, List.pairwise_cons.2 h⟩
        intro c hc
        rcases List.mem_cons.1 hc with hc | hc
        · rw [hc]; exact hlt
        · exact lt_trans hlt (h.1 c hc)
      · split
        · rename_i hgt
          rw [List.pairwise_cons]
          refine ⟨?_, ih h.2⟩
          intro c hc
          rcases mem_insertByName _ _ _ hc with hc | hc
          · rw [hc]; exact hgt
          · exact h.1 c hc
        · exact List.pairwise_cons.2 h

theorem names_insertByName (acc : Account) (accounts : List Account) (u : String) :
    u ∈ (insertByName acc accounts).map Account.username ↔
      u = acc.username ∨ u ∈ accounts.map Account.username := by
  induction accounts with
  | nil => simp [insertByName]
  | cons b accounts ih =>
      rw [insertByName]
      split
      · simp
      · split
        · simp only [List.map_cons, List.mem_cons, ih]
          tauto
        · rename_i h1 h2
          have : acc.username = b.username := by
            rcases lt_trichotomy acc.username b.username with h | h | h
            · exact absurd h h1
            · exact h
            · exact absurd h h2
          simp only [List.map_cons, List.mem_cons, this]
          tauto

theorem find_none_of_names_ne (accounts : List Account) (u : String)
    (h : ∀ a ∈ accounts, a.username ≠ u) :
    accounts.find? (fun a => decide (a.username = u)) = none := by
  rw [List.find?_eq_none]
  intro c hc
  simpa using h c hc

/-- Looking a username up in an ascending list after `insertByName`: an entry that was there
stays the answer; otherwise the new account is the answer when it has that name. -/
theorem find_insertByName (acc : Account) (accounts : List Account) (u : String)
    (h : AscendingNames accounts) :
    (insertByName acc accounts).find? (fun a => decide (a.username = u)) =
      ((accounts.find? (fun a => decide (a.username = u))).orElse
        fun _ => if acc.username = u then some acc else none) := by
  induction accounts with
  | nil =>
      by_cases hid : acc.username = u <;> simp [insertByName, List.find?, hid]
  | cons b accounts ih =>
      unfold AscendingNames at h ih
      rw [List.pairwise_cons] at h
      rw [insertByName]
      by_cases hb : b.username = u
      · split
        · rename_i hlt
          have : ¬ acc.username = u := by
            rw [← hb]
            exact ne_of_lt hlt
          simp [List.find?, hb, this]
        · split <;> simp [List.find?, hb]
      · split
        · rename_i hlt
          by_cases ho : acc.username = u
          · have hnone : accounts.find? (fun a => decide (a.username = u)) = none := by
              apply find_none_of_names_ne
              intro c hc
              have h1 := lt_trans hlt (h.1 c hc)
              rw [ho] at h1
              exact (ne_of_lt h1).symm
            simp [List.find?, ho, hb, hnone]
          · simp [List.find?, ho, hb]
        · split
          · simp only [List.find?, hb, decide_False]
            exact ih h.2
          · rename_i h1 h2
            have he : acc.username = b.username := by
              rcases lt_trichotomy acc.username b.username with h | h | h
              · exact absurd h h1
              · exact h
              · exact absurd h h2
            have ho : ¬ acc.username = u := by
              rw [he]; exact hb
            simp [List.find?, hb, ho]

/-- One `insertUser` on a search tree: the in-order sequence changes as by `insertByName`, and
the message is printed exactly when the name is in the tree, in which case the tree returned is
the tree given. -/
theorem insertUser_inv (t : User) (acc : Account)
    (hs : AscendingNames (displayUsersInorder t)) :
    displayUsersInorder (insertUser t acc).1 = insertByName acc (displayUsersInorder t) ∧
      ((insertUser t acc).2 = true ↔
        acc.username ∈ (displayUsersInorder t).map Account.username) ∧
      ((insertUser t acc).2 = true → (insertUser t acc).1 = t) := by
  induction t with
  | nil => simp [insertUser, displayUsersInorder, insertByName]
  | node u p a ph pts l r ihl ihr =>
      simp only [displayUsersInorder] at hs
      obtain ⟨sl, sr, hlt, hgt⟩ := ascendingNames_append_cons hs
      obtain ⟨il1, il2, il3⟩ := ihl sl
      obtain ⟨ir1, ir2, ir3⟩ := ihr sr
      simp only at hlt hgt
      by_cases h1 : acc.username < u
      · have hnr : ∀ b ∈ displayUsersInorder r, acc.username ≠ b.username :=
          fun b hb => ne_of_lt (lt_trans h1 (hgt b hb))
        refine ⟨?_, ?_, ?_⟩
        · simp only [insertUser, h1, if_true, displayUsersInorder, il1]
          rw [insertByName_append_lt _ _ _ _ h1]
        · simp only [insertUser, h1, if_true, displayUsersInorder, il2, List.map_append,
            List.map_cons, List.mem_append, List.mem_cons, List.mem_map]
          constructor
          · intro h
            exact Or.inl h
          · rintro (h | h | ⟨b, hb, hbe⟩)
            · exact h
            · exact absurd h (ne_of_lt h1)
            · exact absurd hbe.symm (hnr b hb)
        · simp only [insertUser, h1, if_true]
          intro h
          rw [il3 h]
      · by_cases h2 : acc.username > u
        · have hnl : ∀ b ∈ displayUsersInorder l, acc.username ≠ b.username :=
            fun b hb => (ne_of_lt (lt_trans (hlt b hb) h2)).symm
          refine ⟨?_, ?_, ?_⟩
          · simp only [insertUser, h1, h2, if_true, if_false, displayUsersInorder, ir1]
            rw [insertByName_append_gt _ _ _ _ h2 hlt]
          · simp only [insertUser, h1, h2, if_true, if_false, displayUsersInorder, ir2,
              List.map_append, List.map_cons, List.mem_append, List.mem_cons, List.mem_map]
            constructor
            · intro h
              exact Or.inr (Or.inr h)
            · rintro (⟨b, hb, hbe⟩ | h | h)
              · exact absurd hbe.symm (hnl b hb)
              · exact absurd h (ne_of_lt h2).symm
              · exact h
          · simp only [insertUser, h1, h2, if_true, if_false]
            intro h
            rw [ir3 h]
        · have he : acc.username = u := by
            rcases lt_trichotomy acc.username u with h | h | h
            · exact absurd h h1
            · exact h
            · exact absurd h h2
          refine ⟨?_, ?_, ?_⟩
          · simp only [insertUser, h1, h2, if_false, displayUsersInorder]
            rw [insertByName_append_eq _ _ _ _ he hlt]
          · simp [insertUser, h1, h2, displayUsersInorder, he]
          · simp [insertUser, h1, h2]


/-- On a search tree, `searchUser` finds the entry of the in-order sequence that has the
username. -/
theorem searchUser_eq_find (t : User) (username : String)
    (hs : AscendingNames (displayUsersInorder t)) :
    nodeAccount (searchUser t username) =
      (displayUsersInorder t).find? (fun a => decide (a.username = username)) := by
  induction t with
  | nil => simp [searchUser, nodeAccount, displayUsersInorder]
  | node u p a ph pts l r ihl ihr =>
      simp only [displayUsersInorder] at hs ⊢
      obtain ⟨sl, sr, hlt, hgt⟩ := ascendingNames_append_cons hs
      simp only at hlt hgt
      rw [List.find?_append]
      by_cases h0 : u = username
      · have hl : (displayUsersInorder l).find? (fun a => decide (a.username = username)) =
            none :=
          find_none_of_names_ne _ _ (fun b hb => by rw [← h0]; exact ne_of_lt (hlt b hb))
        simp [searchUser, h0, nodeAccount, hl, List.find?]
      · by_cases h1 : username < u
        · have hr : (displayUsersInorder r).find? (fun a => decide (a.username = username)) =
              none :=
            find_none_of_names_ne _ _
              (fun b hb => (ne_of_lt (lt_trans h1 (hgt b hb))).symm)
          simp [searchUser, h0, h1, ihl sl, List.find?, hr]
        · have h2 : u < username := by
            rcases lt_trichotomy username u with h | h | h
            · exact absurd h h1
            · exact absurd h.symm h0
            · exact h
          have hl : (displayUsersInorder l).find? (fun a => decide (a.username = username)) =
              none :=
            find_none_of_names_ne _ _ (fun b hb => ne_of_lt (lt_trans (hlt b hb) h2))
          simp [searchUser, h0, h1, ihr sr, List.find?, hl]

theorem mapAccounts_eq_self (g : Account → Account) (t : User)
    (h : ∀ a ∈ displayUsersInorder t, g a = a) : mapAccounts g t = t := by
  induction t with
  | nil => rfl
  | node u p a ph pts l r ihl ihr =>
      simp only [displayUsersInorder, List.mem_append, List.mem_cons] at h
      simp only [mapAccounts]
      rw [ihl (fun b hb => h b (Or.inl hb)), ihr (fun b hb => h b (Or.inr (Or.inr hb))),
        h _ (Or.inr (Or.inl rfl))]

/-- On a search tree `addLoyaltyPoints` changes the loyalty points of the account with the
username and nothing else: not the shape, not another account, not another field. -/
theorem addLoyaltyPoints_eq_mapAccounts (t : User) (username : String) (amount : Rat)
    (hs : AscendingNames (displayUsersInorder t)) :
    addLoyaltyPoints t username amount =
      mapAccounts (fun a => if a.username = username then
        { a with loyaltyPoints := a.loyaltyPoints + loyaltyPointsFor amount } else a) t := by
  induction t with
  | nil => rfl
  | node u p a ph pts l r ihl ihr =>
      simp only [displayUsersInorder] at hs
      obtain ⟨sl, sr, hlt, hgt⟩ := ascendingNames_append_cons hs
      simp only at hlt hgt
      simp only [addLoyaltyPoints, mapAccounts]
      by_cases h0 : u = username
      · have el : mapAccounts (fun a => if a.username = username then
            { a with loyaltyPoints := a.loyaltyPoints + loyaltyPointsFor amount } else a) l =
            l :=
          mapAccounts_eq_self _ l (fun b hb => by
            have hne : ¬ b.username = username := by
              rw [← h0]; exact ne_of_lt (hlt b hb)
            simp [hne])
        have er : mapAccounts (fun a => if a.username = username then
            { a with loyaltyPoints := a.loyaltyPoints + loyaltyPointsFor amount } else a) r =
            r :=
          mapAccounts_eq_self _ r (fun b hb => by
            have hne : ¬ b.username = username := by
              rw [← h0]; exact (ne_of_lt (hgt b hb)).symm
            simp [hne])
        simp only [h0, if_true, el, er]
      · by_cases h1 : username < u
        · have er : mapAccounts (fun a => if a.username = username then
              { a with loyaltyPoints := a.loyaltyPoints + loyaltyPointsFor amount } else a) r =
              r :=
            mapAccounts_eq_self _ r (fun b hb => by
              have hne : ¬ b.username = username :=
                (ne_of_lt (lt_trans h1 (hgt b hb))).symm
              simp [hne])
          simp only [h0, h1, if_true, if_false, er, ihl sl]
        · have h2 : u < username := by
            rcases lt_trichotomy username u with h | h | h
            · exact absurd h h1
            · exact absurd h.symm h0
            · exact h
          have el : mapAccounts (fun a => if a.username = username then
              { a with loyaltyPoints := a.loyaltyPoints + loyaltyPointsFor amount } else a) l =
              l :=
            mapAccounts_eq_self _ l (fun b hb => by
              have hne : ¬ b.username = username := ne_of_lt (lt_trans (hlt b hb) h2)
              simp [hne])
          simp only [h0, h1, if_false, el, ihr sr]

theorem names_foldl_insertByName (accounts ls : List Account) (u : String) :
    u ∈ (accounts.foldl (fun l a => insertByName a l) ls).map Account.username ↔
      u ∈ ls.map Account.username ∨ u ∈ accounts.map Account.username := by
  induction accounts generalizing ls with
  | nil => simp
  | cons a accounts ih =>
      simp only [List.foldl_cons, ih, names_insertByName, List.map_cons, List.mem_cons]
      tauto

theorem ascending_foldl_insertByName (accounts ls : List Account) (h : AscendingNames ls) :
    AscendingNames (accounts.foldl (fun l a => insertByName a l) ls) := by
  induction accounts generalizing ls with
  | nil => exact h
  | cons a accounts ih => exact ih _ (ascending_insertByName a ls h)

theorem find_foldl_insertByName (accounts ls : List Account) (u : String)
    (h : AscendingNames ls) :
    (accounts.foldl (fun l a => insertByName a l) ls).find?
        (fun a => decide (a.username = u)) =
      ((ls.find? (fun a => decide (a.username = u))).orElse
        fun _ => accounts.find? (fun a => decide (a.username = u))) := by
  induction accounts generalizing ls with
  | nil => cases hf : ls.find? (fun a => decide (a.username = u)) <;> simp [hf]
  | cons a accounts ih =>
      simp only [List.foldl_cons]
      rw [ih _ (ascending_insertByName a ls h), find_insertByName _ _ _ h]
      cases hf : ls.find? (fun a => decide (a.username = u)) with
      | some x => simp
      | none =>
          by_cases ho : a.username = u <;> simp [List.find?, ho]

/-- Any sequence of `insertUser` calls on a search tree gives a search tree whose in-order
sequence is the list-level insertion of the accounts. -/
theorem insertUsers_inv (accounts : List Account) (t : User)
    (hs : AscendingNames (displayUsersInorder t)) :
    displayUsersInorder (insertUsers t accounts) =
        accounts.foldl (fun l a => insertByName a l) (displayUsersInorder t) ∧
      AscendingNames (displayUsersInorder (insertUsers t accounts)) := by
  induction accounts generalizing t with
  | nil => exact ⟨rfl, hs⟩
  | cons a accounts ih =>
      have h1 := (insertUser_inv t a hs).1
      have hs1 : AscendingNames (displayUsersInorder (insertUser t a).1) := by
        rw [h1]; exact ascending_insertByName a _ hs
      obtain ⟨h2, h3⟩ := ih (insertUser t a).1 hs1
      refine ⟨?_, h3⟩
      simp only [insertUsers, List.foldl_cons]
      rw [h2, h1]

theorem insertUsers_nil_inv (accounts : List Account) :
    displayUsersInorder (insertUsers .nil accounts) =
        accounts.foldl (fun l a => insertByName a l) [] ∧
      AscendingNames (displayUsersInorder (insertUsers .nil accounts)) :=
  insertUsers_inv accounts .nil List.Pairwise.nil

theorem truncToInt_of_nonneg (x : Rat) (h : 0 ≤ x) : truncToInt x = ⌊x⌋ := by
  simp only [truncToInt, h, if_true]
  rfl

theorem rat_ceil_eq (q : Rat) : q.ceil = ⌈q⌉ := by
  unfold Rat.ceil
  split
  · next h =>
    have hq : ((q.num : Int) : Rat) = q := (Rat.den_eq_one_iff q).1 h
    conv_rhs => rw [← hq]
    rw [Int.ceil_intCast]
  · next h =>
    have hf : q.num / (q.den : Int) = ⌊q⌋ := Rat.floor_def.symm
    rw [hf]
    symm
    rw [Int.ceil_eq_iff]
    constructor
    · have hle := Int.floor_le q
      have hne : ((⌊q⌋ : Int) : Rat) ≠ q := by
        intro he
        apply h
        rw [← he]
        simp
      push_cast
      have := lt_of_le_of_ne hle hne
      linarith
    · push_cast
      exact (Int.lt_floor_add_one q).le

theorem truncToInt_of_neg (x : Rat) (h : x < 0) : truncToInt x = ⌈x⌉ := by
  have h2 : ¬ 0 ≤ x := not_le.2 h
  simp only [truncToInt, h2, if_false]
  exact rat_ceil_eq x


theorem names_insertUsers_nil (accounts : List Account) (u : String) :
    u ∈ (displayUsersInorder (insertUsers .nil accounts)).map Account.username ↔
      u ∈ accounts.map Account.username := by
  rw [(insertUsers_nil_inv accounts).1, names_foldl_insertByName]
  simp

theorem searchUser_insertUsers_nil (accounts : List Account) (username : String) :
    nodeAccount (searchUser (insertUsers .nil accounts) username) =
      accounts.find? (fun a => decide (a.username = username)) := by
  rw [searchUser_eq_find _ _ (insertUsers_nil_inv accounts).2, (insertUsers_nil_inv accounts).1,
    find_foldl_insertByName accounts [] username List.Pairwise.nil]
  simp

/-! ## Theorems: rounding to `float` -/

theorem roundHalfEven_intCast (m : Int) : roundHalfEven (m : Rat) = m := by
  simp [roundHalfEven]

theorem floor_le_roundHalfEven (q : Rat) : ⌊q⌋ ≤ roundHalfEven q := by
  unfold roundHalfEven
  split_ifs <;> omega

theorem roundHalfEven_le_ceil (q : Rat) : roundHalfEven q ≤ ⌈q⌉ := by
  unfold roundHalfEven
  by_cases h : q - ⌊q⌋ < 1 / 2
  · rw [if_pos h]
    exact Int.floor_le_ceil q
  · rw [if_neg h]
    have hlt : ((⌊q⌋ : Int) : Rat) < q := by linarith
    have h2 : ((⌊q⌋ : Int) : Rat) < ((⌈q⌉ : Int) : Rat) :=
      lt_of_lt_of_le hlt (Int.le_ceil q)
    have h3 : ⌊q⌋ < ⌈q⌉ := by exact_mod_cast h2
    split_ifs <;> omega

theorem le_roundHalfEven (m : Int) (q : Rat) (h : (m : Rat) ≤ q) : m ≤ roundHalfEven q :=
  le_trans (Int.le_floor.2 h) (floor_le_roundHalfEven q)

theorem roundHalfEven_le (m : Int) (q : Rat) (h : q ≤ (m : Rat)) : roundHalfEven q ≤ m :=
  le_trans (roundHalfEven_le_ceil q) (Int.ceil_le.2 h)

/-- The rounding is to a nearest integer: it is off by a half at most. -/
theorem abs_roundHalfEven_sub_le (q : Rat) : |(roundHalfEven q : Rat) - q| ≤ 1 / 2 := by
  have h1 := Int.floor_le q
  have h2 := Int.lt_floor_add_one q
  unfold roundHalfEven
  rw [abs_le]
  split_ifs with ha hb hc
  · constructor <;> linarith
  · push_cast
    constructor <;> linarith
  · constructor <;> linarith
  · push_cast
    constructor <;> linarith

theorem ulpExponent_le (x : Rat) (k : Int) (hx : x ≠ 0) (hk : -149 ≤ k)
    (h : |x| < 2 ^ (k + 24)) : ulpExponent 24 (-126) x ≤ k := by
  have hpos : 0 < |x| := abs_pos.2 hx
  have hlog : Int.log 2 |x| < k + 24 :=
    (Int.lt_zpow_iff_log_lt (by norm_num) hpos).1 (by simpa using h)
  unfold ulpExponent
  have := max_le (show Int.log 2 |x| ≤ k + 23 by omega) (show (-126 : Int) ≤ k + 23 by omega)
  omega

theorem ulpExponent_eq (precision emin : Int) (x : Rat) (e : Int) (he : emin ≤ e)
    (hlo : 2 ^ e ≤ |x|) (hhi : |x| < 2 ^ (e + 1)) :
    ulpExponent precision emin x = e - (precision - 1) := by
  have hpos : 0 < |x| := lt_of_lt_of_le (zpow_pos (by norm_num) e) hlo
  have h1 : Int.log 2 |x| < e + 1 :=
    (Int.lt_zpow_iff_log_lt (by norm_num) hpos).1 (by simpa using hhi)
  have h2 : e ≤ Int.log 2 |x| :=
    (Int.zpow_le_iff_le_log (by norm_num) hpos).1 (by simpa using hlo)
  unfold ulpExponent
  rw [max_eq_left (by omega)]
  omega

/-- Evaluation of a rounding from the binade of the value and the rounded significand. -/
theorem roundToFormat_eq (precision emin : Int) (x : Rat) (e m : Int) (he : emin ≤ e)
    (hlo : 2 ^ e ≤ |x|) (hhi : |x| < 2 ^ (e + 1))
    (hm : roundHalfEven (x / 2 ^ (e - (precision - 1))) = m) :
    roundToFormat precision emin x = m * 2 ^ (e - (precision - 1)) := by
  unfold roundToFormat
  rw [ulpExponent_eq precision emin x e he hlo hhi, hm]

theorem roundToFloat_zero : roundToFloat 0 = 0 := by
  simp [roundToFloat, roundToFormat, roundHalfEven]

theorem roundToFloat_of_int (x : Rat) (n : Int) (h : x / 2 ^ ulpExponent 24 (-126) x = n) :
    roundToFloat x = x := by
  unfold roundToFloat roundToFormat
  rw [h, roundHalfEven_intCast, ← h]
  exact div_mul_cancel₀ x (zpow_ne_zero _ two_ne_zero)

theorem two_zpow_eq (a b : Int) (h : a ≤ b) :
    ∃ d : Nat, (2 : Rat) ^ b = 2 ^ a * ((2 ^ d : Int) : Rat) := by
  obtain ⟨d, hd⟩ := Int.eq_ofNat_of_zero_le (show 0 ≤ b - a by omega)
  refine ⟨d, ?_⟩
  have hb : b = a + (d : Int) := by omega
  rw [hb, zpow_add₀ two_ne_zero, zpow_natCast]
  push_cast
  rfl

/-- A `float` value is its own rounding: storing it in a `float` variable changes nothing. -/
theorem roundToFloat_of_isFloat (x : Rat) (h : IsFloat x) : roundToFloat x = x := by
  obtain ⟨m, k, hm, hk, _, hx⟩ := h
  by_cases h0 : x = 0
  · rw [h0, roundToFloat_zero]
  · have hlt : |x| < 2 ^ (k + 24) := by
      rw [hx, abs_mul, abs_of_pos (zpow_pos (by norm_num : (0 : Rat) < 2) k),
        zpow_add₀ two_ne_zero, mul_comm]
      apply mul_lt_mul_of_pos_left _ (zpow_pos (by norm_num) k)
      have hc : ((|m| : Int) : Rat) < ((2 ^ 24 : Int) : Rat) := Int.cast_lt.2 hm
      rw [Int.cast_abs] at hc
      norm_num at hc ⊢
      exact hc
    have hE := ulpExponent_le x k h0 hk hlt
    obtain ⟨d, hd⟩ := two_zpow_eq (ulpExponent 24 (-126) x) k hE
    apply roundToFloat_of_int x (m * 2 ^ d)
    rw [div_eq_iff (zpow_ne_zero _ two_ne_zero)]
    conv_lhs => rw [hx, hd]
    push_cast
    ring

/-- Below `2 ^ 24` in magnitude every integer is a `float`, so the rounding to `float` does not
go below an integer that the value is not below. -/
theorem le_roundToFloat (n : Int) (y : Rat) (hn : (n : Rat) ≤ y) (hy : |y| < 2 ^ 24) :
    (n : Rat) ≤ roundToFloat y := by
  by_cases h0 : y = 0
  · rw [h0, roundToFloat_zero]
    rw [h0] at hn
    exact hn
  · have hE := ulpExponent_le y 0 h0 (by norm_num)
      (by norm_num at hy ⊢; exact hy)
    obtain ⟨d, hd⟩ := two_zpow_eq (ulpExponent 24 (-126) y) 0 hE
    have hpos : (0 : Rat) < 2 ^ ulpExponent 24 (-126) y := zpow_pos (by norm_num) _
    rw [zpow_zero] at hd
    have hdiv : y / 2 ^ ulpExponent 24 (-126) y = y * ((2 ^ d : Int) : Rat) := by
      rw [div_eq_iff hpos.ne']
      rw [mul_assoc, mul_comm _ ((2 : Rat) ^ ulpExponent 24 (-126) y), ← hd, mul_one]
    have hr : n * 2 ^ d ≤ roundHalfEven (y / 2 ^ ulpExponent 24 (-126) y) := by
      apply le_roundHalfEven
      rw [hdiv]
      push_cast
      exact mul_le_mul_of_nonneg_right hn (by positivity)
    unfold roundToFloat roundToFormat
    have hc : ((n * 2 ^ d : Int) : Rat) ≤
        (roundHalfEven (y / 2 ^ ulpExponent 24 (-126) y) : Rat) := Int.cast_le.2 hr
    calc (n : Rat) = ((n * 2 ^ d : Int) : Rat) * 2 ^ ulpExponent 24 (-126) y := by
          push_cast
          rw [mul_assoc, mul_comm _ ((2 : Rat) ^ ulpExponent 24 (-126) y)]
          have := hd
          push_cast at this
          rw [← this, mul_one]
      _ ≤ _ := mul_le_mul_of_nonneg_right hc hpos.le

theorem roundToFloat_le (n : Int) (y : Rat) (hn : y ≤ (n : Rat)) (hy : |y| < 2 ^ 24) :
    roundToFloat y ≤ (n : Rat) := by
  by_cases h0 : y = 0
  · rw [h0, roundToFloat_zero]
    rw [h0] at hn
    exact hn
  · have hE := ulpExponent_le y 0 h0 (by norm_num)
      (by norm_num at hy ⊢; exact hy)
    obtain ⟨d, hd⟩ := two_zpow_eq (ulpExponent 24 (-126) y) 0 hE
    have hpos : (0 : Rat) < 2 ^ ulpExponent 24 (-126) y := zpow_pos (by norm_num) _
    rw [zpow_zero] at hd
    have hdiv : y / 2 ^ ulpExponent 24 (-126) y = y * ((2 ^ d : Int) : Rat) := by
      rw [div_eq_iff hpos.ne']
      rw [mul_assoc, mul_comm _ ((2 : Rat) ^ ulpExponent 24 (-126) y), ← hd, mul_one]
    have hr : roundHalfEven (y / 2 ^ ulpExponent 24 (-126) y) ≤ n * 2 ^ d := by
      apply roundHalfEven_le
      rw [hdiv]
      push_cast
      exact mul_le_mul_of_nonneg_right hn (by positivity)
    unfold roundToFloat roundToFormat
    have hc : (roundHalfEven (y / 2 ^ ulpExponent 24 (-126) y) : Rat) ≤
        ((n * 2 ^ d : Int) : Rat) := Int.cast_le.2 hr
    calc _ ≤ ((n * 2 ^ d : Int) : Rat) * 2 ^ ulpExponent 24 (-126) y :=
          mul_le_mul_of_nonneg_right hc hpos.le
      _ = (n : Rat) := by
          push_cast
          rw [mul_assoc, mul_comm _ ((2 : Rat) ^ ulpExponent 24 (-126) y)]
          have := hd
          push_cast at this
          rw [← this, mul_one]

theorem truncToInt_intCast (n : Int) : truncToInt (n : Rat) = n := by
  by_cases h : (0 : Rat) ≤ n
  · rw [truncToInt_of_nonneg _ h, Int.floor_intCast]
  · rw [truncToInt_of_neg _ (not_le.1 h), Int.ceil_intCast]

theorem isFloat_intCast (n : Int) (h : |n| < 2 ^ 24) : IsFloat (n : Rat) :=
  ⟨n, 0, h, by norm_num, by norm_num, by simp⟩

/-- For a value from 0 to below `2 ^ 24` the truncated rounding to `float` is the floor of the
value or one more, and one more exactly when the value is rounded up to the next integer. -/
theorem truncToInt_roundToFloat_of_nonneg (y : Rat) (h0 : 0 ≤ y) (hy : y < 2 ^ 24) :
    (truncToInt (roundToFloat y) = ⌊y⌋ ∨ truncToInt (roundToFloat y) = ⌊y⌋ + 1) ∧
      (truncToInt (roundToFloat y) = ⌊y⌋ + 1 ↔
        roundToFloat y = ((⌊y⌋ + 1 : Int) : Rat)) := by
  have habs : |y| < 2 ^ 24 := by
    rw [abs_of_nonneg h0]
    exact hy
  have h1 := le_roundToFloat ⌊y⌋ y (Int.floor_le y) habs
  have h2 := roundToFloat_le (⌊y⌋ + 1) y
    (by push_cast; exact (Int.lt_floor_add_one y).le) habs
  have hf0 : (0 : Rat) ≤ ((⌊y⌋ : Int) : Rat) := by exact_mod_cast Int.floor_nonneg.2 h0
  rw [truncToInt_of_nonneg _ (le_trans hf0 h1)]
  have h3 : ⌊y⌋ ≤ ⌊roundToFloat y⌋ := Int.le_floor.2 h1
  have h4 : ⌊roundToFloat y⌋ ≤ ⌊y⌋ + 1 := by
    have := le_trans (Int.floor_le (roundToFloat y)) h2
    exact_mod_cast this
  refine ⟨by omega, ?_, ?_⟩
  · intro h
    apply le_antisymm h2
    rw [← h]
    exact Int.floor_le _
  · intro h
    rw [h, Int.floor_intCast]

/-- For a negative value above `-2 ^ 24` the truncated rounding to `float` is the ceiling of
the value or one less. -/
theorem truncToInt_roundToFloat_of_neg (y : Rat) (h0 : y < 0) (hy : -2 ^ 24 < y) :
    truncToInt (roundToFloat y) = ⌈y⌉ ∨ truncToInt (roundToFloat y) = ⌈y⌉ - 1 := by
  have habs : |y| < 2 ^ 24 := by
    rw [abs_of_neg h0]
    linarith
  have h1 := le_roundToFloat (⌈y⌉ - 1) y
    (by push_cast; linarith [Int.ceil_lt_add_one y]) habs
  have h2 := roundToFloat_le ⌈y⌉ y (Int.le_ceil y) habs
  have hc0 : ⌈y⌉ ≤ 0 := Int.ceil_le.2 (by simpa using h0.le)
  by_cases ht : 0 ≤ roundToFloat y
  · have hc : (0 : Rat) ≤ ((⌈y⌉ : Int) : Rat) := le_trans ht h2
    have hc1 : (0 : Int) ≤ ⌈y⌉ := by exact_mod_cast hc
    have hc2 : ⌈y⌉ = 0 := by omega
    rw [hc2] at h2
    have ht0 : roundToFloat y = ((0 : Int) : Rat) := le_antisymm h2 (by simpa using ht)
    left
    rw [ht0, hc2]
    exact truncToInt_intCast 0
  · rw [truncToInt_of_neg _ (not_le.1 ht)]
    have h3 : ⌈roundToFloat y⌉ ≤ ⌈y⌉ := Int.ceil_le.2 h2
    have h4 : ⌈y⌉ - 1 ≤ ⌈roundToFloat y⌉ := by
      have := le_trans h1 (Int.le_ceil (roundToFloat y))
      exact_mod_cast this
    omega

theorem roundHalfEven_of_lt (q : Rat) (f : Int) (h1 : (f : Rat) ≤ q) (h2 : q < f + 1 / 2) :
    roundHalfEven q = f := by
  have hf : ⌊q⌋ = f := by
    rw [Int.floor_eq_iff]
    constructor <;> linarith
  unfold roundHalfEven
  rw [hf, if_pos (by linarith)]

theorem roundHalfEven_of_gt (q : Rat) (f : Int) (h1 : (f : Rat) + 1 / 2 < q)
    (h2 : q < f + 1) : roundHalfEven q = f + 1 := by
  have hf : ⌊q⌋ = f := by
    rw [Int.floor_eq_iff]
    constructor <;> linarith
  unfold roundHalfEven
  rw [hf, if_neg (by linarith), if_pos (by linarith)]

theorem roundHalfEven_of_tie (q : Rat) (f : Int) (h : q = f + 1 / 2) :
    roundHalfEven q = if f % 2 = 0 then f else f + 1 := by
  have hf : ⌊q⌋ = f := by
    rw [Int.floor_eq_iff]
    constructor <;> linarith
  unfold roundHalfEven
  rw [hf, if_neg (by linarith), if_neg (by linarith)]

/-- Evaluation of a rounding of a positive value from its binade and the rounding of its
significand. -/
theorem roundToFormat_of_pos (precision emin : Int) (x : Rat) (e m : Int) (he : emin ≤ e)
    (hlo : 2 ^ e ≤ x) (hhi : x < 2 ^ (e + 1))
    (hm : roundHalfEven (x / 2 ^ (e - (precision - 1))) = m) :
    roundToFormat precision emin x = m * 2 ^ (e - (precision - 1)) := by
  have hpos : 0 < x := lt_of_lt_of_le (zpow_pos (by norm_num) e) hlo
  apply roundToFormat_eq precision emin x e m he _ _ hm
  · rw [abs_of_pos hpos]
    exact hlo
  · rw [abs_of_pos hpos]
    exact hhi

/-! ## Theorems: loyalty points of a checkout -/

/-- The cart total of a cart of one line. -/
theorem calculateCartTotalFloat_single (c : CartItem) :
    calculateCartTotalFloat [c] =
      roundToFloat (0 + roundToFloat (roundToFloat c.price * roundToFloat c.quantity)) :=
  rfl

/-- The `float` total of a checkout with the promo input `skip`, from the cart total. -/
theorem checkoutFloatTotal_skip (s : System) :
    checkoutFloatTotal s "skip" =
      roundToFloat
        (roundToDouble
          (roundToDouble (calculateCartTotalFloat s.cart + roundToDouble (299 / 100)) +
            roundToFloat
              (roundToDouble
                (roundToDouble (calculateCartTotalFloat s.cart + roundToDouble (299 / 100)) *
                  roundToDouble (8 / 100))))) := by
  simp only [checkoutFloatTotal, ne_eq, not_true_eq_false, if_false]

/-- The `double` constant 2.99. -/
theorem roundToDouble_delivery_fee :
    roundToDouble (299 / 100) = 1683220360729723 / 562949953421312 := by
  unfold roundToDouble
  rw [roundToFormat_of_pos 53 (-1022) _ 1 6732881442918892 (by norm_num) (by norm_num)
    (by norm_num)
    ((roundHalfEven_of_gt _ 6732881442918891 (by norm_num) (by norm_num)).trans (by norm_num))]
  norm_num

/-- The `double` constant 0.08. -/
theorem roundToDouble_tax_rate :
    roundToDouble (8 / 100) = 5764607523034235 / 72057594037927936 := by
  unfold roundToDouble
  rw [roundToFormat_of_pos 53 (-1022) _ (-4) 5764607523034235 (by norm_num) (by norm_num)
    (by norm_num)
    ((roundHalfEven_of_gt _ 5764607523034234 (by norm_num) (by norm_num)).trans (by norm_num))]
  norm_num

/-- The `float` total of the checkout of two Margherita pizzas at 12.99 is
31.2875995635986328125. -/
theorem checkoutFloatTotal_pizza :
    checkoutFloatTotal pizzaCartSystem "skip" = 16403713 / 524288 := by
  have h1 : roundToFloat (1299 / 100) = 6810501 / 524288 := by
    unfold roundToFloat
    rw [roundToFormat_of_pos 24 (-126) _ 3 13621002 (by norm_num) (by norm_num)
      (by norm_num)
      (roundHalfEven_of_lt _ 13621002 (by norm_num) (by norm_num))]
    norm_num
  have h2 : roundToFloat (((2 : Int) : Rat)) = 2 := by
    unfold roundToFloat
    rw [roundToFormat_of_pos 24 (-126) _ 1 8388608 (by norm_num) (by norm_num)
      (by norm_num)
      (roundHalfEven_of_lt _ 8388608 (by norm_num) (by norm_num))]
    norm_num
  have h3 : roundToFloat (6810501 / 524288 * 2) = 6810501 / 262144 := by
    unfold roundToFloat
    rw [roundToFormat_of_pos 24 (-126) _ 4 13621002 (by norm_num) (by norm_num)
      (by norm_num)
      (roundHalfEven_of_lt _ 13621002 (by norm_num) (by norm_num))]
    norm_num
  have h4 : roundToFloat (0 + 6810501 / 262144) = 6810501 / 262144 := by
    unfold roundToFloat
    rw [roundToFormat_of_pos 24 (-126) _ 4 13621002 (by norm_num) (by norm_num)
      (by norm_num)
      (roundHalfEven_of_lt _ 13621002 (by norm_num) (by norm_num))]
    norm_num
  have h6 : roundToDouble (6810501 / 262144 + 1683220360729723 / 562949953421312) =
      4077164973229343 / 140737488355328 := by
    unfold roundToDouble
    rw [roundToFormat_of_pos 53 (-1022) _ 4 8154329946458686 (by norm_num) (by norm_num)
      (by norm_num)
      ((roundHalfEven_of_tie _ 8154329946458685 (by norm_num)).trans (by norm_num))]
    norm_num
  have h8 : roundToDouble (4077164973229343 / 140737488355328 *
      (5764607523034235 / 72057594037927936)) =
      5218771165733559 / 2251799813685248 := by
    unfold roundToDouble
    rw [roundToFormat_of_pos 53 (-1022) _ 1 5218771165733559 (by norm_num) (by norm_num)
      (by norm_num)
      (roundHalfEven_of_lt _ 5218771165733559 (by norm_num) (by norm_num))]
    norm_num
  have h9 : roundToFloat (5218771165733559 / 2251799813685248) = 9720719 / 4194304 := by
    unfold roundToFloat
    rw [roundToFormat_of_pos 24 (-126) _ 1 9720719 (by norm_num) (by norm_num)
      (by norm_num)
      ((roundHalfEven_of_gt _ 9720718 (by norm_num) (by norm_num)).trans (by norm_num))]
    norm_num
  have h10 : roundToDouble (4077164973229343 / 140737488355328 + 9720719 / 4194304) =
      4403338177905951 / 140737488355328 := by
    unfold roundToDouble
    rw [roundToFormat_of_pos 53 (-1022) _ 4 8806676355811902 (by norm_num) (by norm_num)
      (by norm_num)
      (roundHalfEven_of_lt _ 8806676355811902 (by norm_num) (by norm_num))]
    norm_num
  have h11 : roundToFloat (4403338177905951 / 140737488355328) = 16403713 / 524288 := by
    unfold roundToFloat
    rw [roundToFormat_of_pos 24 (-126) _ 4 16403713 (by norm_num) (by norm_num)
      (by norm_num)
      ((roundHalfEven_of_gt _ 16403712 (by norm_num) (by norm_num)).trans (by norm_num))]
    norm_num
  have hs : calculateCartTotalFloat pizzaCartSystem.cart =
      roundToFloat (0 + roundToFloat (roundToFloat (1299 / 100) *
        roundToFloat ((2 : Int) : Rat))) :=
    calculateCartTotalFloat_single _
  rw [checkoutFloatTotal_skip, hs, h1, h2, h3, h4, roundToDouble_delivery_fee, h6,
    roundToDouble_tax_rate, h8, h9, h10, h11]

/-- The `float` total 31.2875995635986328125 earns 312 points: its `float` product
with 10 is 312.876007080078125. -/
theorem loyaltyPointsFor_pizza : loyaltyPointsFor (16403713 / 524288) = 312 := by
  have h : roundToFloat (16403713 / 524288 * 10) = 10252321 / 32768 := by
    unfold roundToFloat
    rw [roundToFormat_of_pos 24 (-126) _ 8 10252321 (by norm_num) (by norm_num)
      (by norm_num)
      ((roundHalfEven_of_gt _ 10252320 (by norm_num) (by norm_num)).trans (by norm_num))]
    norm_num
  unfold loyaltyPointsFor
  rw [h, truncToInt_of_nonneg _ (by norm_num), Int.floor_eq_iff]
  constructor <;> norm_num

/-- The `float` total of the checkout of 49 Onion Rings at 4.99 is
267.29998779296875. -/
theorem checkoutFloatTotal_onion_rings :
    checkoutFloatTotal onionRingsCartSystem "skip" = 4379443 / 16384 := by
  have h1 : roundToFloat (499 / 100) = 2616197 / 524288 := by
    unfold roundToFloat
    rw [roundToFormat_of_pos 24 (-126) _ 2 10464788 (by norm_num) (by norm_num)
      (by norm_num)
      (roundHalfEven_of_lt _ 10464788 (by norm_num) (by norm_num))]
    norm_num
  have h2 : roundToFloat (((49 : Int) : Rat)) = 49 := by
    unfold roundToFloat
    rw [roundToFormat_of_pos 24 (-126) _ 5 12845056 (by norm_num) (by norm_num)
      (by norm_num)
      (roundHalfEven_of_lt _ 12845056 (by norm_num) (by norm_num))]
    norm_num
  have h3 : roundToFloat (2616197 / 524288 * 49) = 16024207 / 65536 := by
    unfold roundToFloat
    rw [roundToFormat_of_pos 24 (-126) _ 7 16024207 (by norm_num) (by norm_num)
      (by norm_num)
      ((roundHalfEven_of_gt _ 16024206 (by norm_num) (by norm_num)).trans (by norm_num))]
    norm_num
  have h4 : roundToFloat (0 + 16024207 / 65536) = 16024207 / 65536 := by
    unfold roundToFloat
    rw [roundToFormat_of_pos 24 (-126) _ 7 16024207 (by norm_num) (by norm_num)
      (by norm_num)
      (roundHalfEven_of_lt _ 16024207 (by norm_num) (by norm_num))]
    norm_num
  have h6 : roundToDouble (16024207 / 65536 + 1683220360729723 / 562949953421312) =
      1088516487339049 / 4398046511104 := by
    unfold roundToDouble
    rw [roundToFormat_of_pos 53 (-1022) _ 7 8708131898712392 (by norm_num) (by norm_num)
      (by norm_num)
      ((roundHalfEven_of_gt _ 8708131898712391 (by norm_num) (by norm_num)).trans (by norm_num))]
    norm_num
  have h8 : roundToDouble (1088516487339049 / 4398046511104 *
      (5764607523034235 / 72057594037927936)) =
      5573204415175931 / 281474976710656 := by
    unfold roundToDouble
    rw [roundToFormat_of_pos 53 (-1022) _ 4 5573204415175931 (by norm_num) (by norm_num)
      (by norm_num)
      ((roundHalfEven_of_gt _ 5573204415175930 (by norm_num) (by norm_num)).trans (by norm_num))]
    norm_num
  have h9 : roundToFloat (5573204415175931 / 281474976710656) = 5190451 / 262144 := by
    unfold roundToFloat
    rw [roundToFormat_of_pos 24 (-126) _ 4 10380902 (by norm_num) (by norm_num)
      (by norm_num)
      (roundHalfEven_of_lt _ 10380902 (by norm_num) (by norm_num))]
    norm_num
  have h10 : roundToDouble (1088516487339049 / 4398046511104 + 5190451 / 262144) =
      1175597804903465 / 4398046511104 := by
    unfold roundToDouble
    rw [roundToFormat_of_pos 53 (-1022) _ 8 4702391219613860 (by norm_num) (by norm_num)
      (by norm_num)
      (roundHalfEven_of_lt _ 4702391219613860 (by norm_num) (by norm_num))]
    norm_num
  have h11 : roundToFloat (1175597804903465 / 4398046511104) = 4379443 / 16384 := by
    unfold roundToFloat
    rw [roundToFormat_of_pos 24 (-126) _ 8 8758886 (by norm_num) (by norm_num)
      (by norm_num)
      (roundHalfEven_of_lt _ 8758886 (by norm_num) (by norm_num))]
    norm_num
  have hs : calculateCartTotalFloat onionRingsCartSystem.cart =
      roundToFloat (0 + roundToFloat (roundToFloat (499 / 100) *
        roundToFloat ((49 : Int) : Rat))) :=
    calculateCartTotalFloat_single _
  rw [checkoutFloatTotal_skip, hs, h1, h2, h3, h4, roundToDouble_delivery_fee, h6,
    roundToDouble_tax_rate, h8, h9, h10, h11]

/-- The `float` total 267.29998779296875 earns 2673 points: its `float` product
with 10 is 2673. -/
theorem loyaltyPointsFor_onion_rings : loyaltyPointsFor (4379443 / 16384) = 2673 := by
  have h : roundToFloat (4379443 / 16384 * 10) = 2673 := by
    unfold roundToFloat
    rw [roundToFormat_of_pos 24 (-126) _ 11 10948608 (by norm_num) (by norm_num)
      (by norm_num)
      ((roundHalfEven_of_tie _ 10948607 (by norm_num)).trans (by norm_num))]
    norm_num
  unfold loyaltyPointsFor
  rw [h, truncToInt_of_nonneg _ (by norm_num), Int.floor_eq_iff]
  constructor <;> norm_num

/-- The `float` total of the checkout of 49 Cheese Burgers at 9.99 is
531.89996337890625. -/
theorem checkoutFloatTotal_cheese_burgers :
    checkoutFloatTotal cheeseBurgerCartSystem "skip" = 8714649 / 16384 := by
  have h1 : roundToFloat (999 / 100) = 5237637 / 524288 := by
    unfold roundToFloat
    rw [roundToFormat_of_pos 24 (-126) _ 3 10475274 (by norm_num) (by norm_num)
      (by norm_num)
      (roundHalfEven_of_lt _ 10475274 (by norm_num) (by norm_num))]
    norm_num
  have h2 : roundToFloat (((49 : Int) : Rat)) = 49 := by
    unfold roundToFloat
    rw [roundToFormat_of_pos 24 (-126) _ 5 12845056 (by norm_num) (by norm_num)
      (by norm_num)
      (roundHalfEven_of_lt _ 12845056 (by norm_num) (by norm_num))]
    norm_num
  have h3 : roundToFloat (5237637 / 524288 * 49) = 16040263 / 32768 := by
    unfold roundToFloat
    rw [roundToFormat_of_pos 24 (-126) _ 8 16040263 (by norm_num) (by norm_num)
      (by norm_num)
      (roundHalfEven_of_lt _ 16040263 (by norm_num) (by norm_num))]
    norm_num
  have h4 : roundToFloat (0 + 16040263 / 32768) = 16040263 / 32768 := by
    unfold roundToFloat
    rw [roundToFormat_of_pos 24 (-126) _ 8 16040263 (by norm_num) (by norm_num)
      (by norm_num)
      (roundHalfEven_of_lt _ 16040263 (by norm_num) (by norm_num))]
    norm_num
  have h6 : roundToDouble (16040263 / 32768 + 1683220360729723 / 562949953421312) =
      2166037815450665 / 4398046511104 := by
    unfold roundToDouble
    rw [roundToFormat_of_pos 53 (-1022) _ 8 8664151261802660 (by norm_num) (by norm_num)
      (by norm_num)
      ((roundHalfEven_of_gt _ 8664151261802659 (by norm_num) (by norm_num)).trans (by norm_num))]
    norm_num
  have h8 : roundToDouble (2166037815450665 / 4398046511104 *
      (5764607523034235 / 72057594037927936)) =
      5545056807553703 / 140737488355328 := by
    unfold roundToDouble
    rw [roundToFormat_of_pos 53 (-1022) _ 5 5545056807553703 (by norm_num) (by norm_num)
      (by norm_num)
      ((roundHalfEven_of_gt _ 5545056807553702 (by norm_num) (by norm_num)).trans (by norm_num))]
    norm_num
  have h9 : roundToFloat (5545056807553703 / 140737488355328) = 10328473 / 262144 := by
    unfold roundToFloat
    rw [roundToFormat_of_pos 24 (-126) _ 5 10328473 (by norm_num) (by norm_num)
      (by norm_num)
      (roundHalfEven_of_lt _ 10328473 (by norm_num) (by norm_num))]
    norm_num
  have h10 : roundToDouble (2166037815450665 / 4398046511104 + 10328473 / 262144) =
      2339320837921833 / 4398046511104 := by
    unfold roundToDouble
    rw [roundToFormat_of_pos 53 (-1022) _ 9 4678641675843666 (by norm_num) (by norm_num)
      (by norm_num)
      (roundHalfEven_of_lt _ 4678641675843666 (by norm_num) (by norm_num))]
    norm_num
  have h11 : roundToFloat (2339320837921833 / 4398046511104) = 8714649 / 16384 := by
    unfold roundToFloat
    rw [roundToFormat_of_pos 24 (-126) _ 9 8714649 (by norm_num) (by norm_num)
      (by norm_num)
      (roundHalfEven_of_lt _ 8714649 (by norm_num) (by norm_num))]
    norm_num
  have hs : calculateCartTotalFloat cheeseBurgerCartSystem.cart =
      roundToFloat (0 + roundToFloat (roundToFloat (999 / 100) *
        roundToFloat ((49 : Int) : Rat))) :=
    calculateCartTotalFloat_single _
  rw [checkoutFloatTotal_skip, hs, h1, h2, h3, h4, roundToDouble_delivery_fee, h6,
    roundToDouble_tax_rate, h8, h9, h10, h11]

/-- The `float` total 531.89996337890625 earns 5318 points: its `float` product
with 10 is 5318.99951171875. -/
theorem loyaltyPointsFor_cheese_burgers : loyaltyPointsFor (8714649 / 16384) = 5318 := by
  have h : roundToFloat (8714649 / 16384 * 10) = 10893311 / 2048 := by
    unfold roundToFloat
    rw [roundToFormat_of_pos 24 (-126) _ 12 10893311 (by norm_num) (by norm_num)
      (by norm_num)
      (roundHalfEven_of_lt _ 10893311 (by norm_num) (by norm_num))]
    norm_num
  unfold loyaltyPointsFor
  rw [h, truncToInt_of_nonneg _ (by norm_num), Int.floor_eq_iff]
  constructor <;> norm_num


/-- The account tree after a checkout that admits an order: the loyalty points are credited
for the `float` total of the order. -/
theorem checkout_userRoot {s s2 : System} {username address phone promoCode : String}
    {priority t1 t2 : Int} {o : Order}
    (h : checkout s username address phone promoCode priority t1 t2 = some (s2, some o)) :
    s2.userRoot = addLoyaltyPoints s.userRoot username (checkoutFloatTotal s promoCode) := by
  unfold checkout at h
  by_cases hc : s.cart = []
  · simp [hc] at h
  · simp only [hc, if_false] at h
    cases he : enqueueDelivery s.delivery
        (checkoutOrder s username address phone promoCode priority t1 t2).1 with
    | none => simp [he] at h
    | some q =>
        cases hi : insertOrderHistory s.historyRoot
            (checkoutOrder s username address phone promoCode priority t1 t2).1 with
        | none => simp [he, hi] at h
        | some t =>
            simp only [he, hi, Option.bind, Option.some.injEq, Prod.mk.injEq] at h
            rw [← h.1]

/-- The checkout of 49 Onion Rings credits 2673 points to the account `user`. -/
theorem checkout_onion_rings_points :
    (checkout onionRingsCartSystem "user" "123 Main St" "9876543210" "skip" 2 0 0).map
        (fun r => nodeAccount (searchUser r.1.userRoot "user")) =
      some (some { username := "user", password := "user123", address := "123 Main St",
                   phone := "9876543210", loyaltyPoints := 2673 }) := by
  have hlt : ¬ ['u', 's', 'e', 'r'] < ['a', 'd', 'm', 'i', 'n'] := by decide
  unfold checkout
  rw [checkoutFloatTotal_onion_rings]
  simp [onionRingsCartSystem, emptyQueue, enqueueDelivery, insertOrderHistory,
    createOrderHistory, addLoyaltyPoints, searchUser, nodeAccount,
    loyaltyPointsFor_onion_rings, hlt]

/-- The checkout of 49 Cheese Burgers credits 5318 points to the account `user`. -/
theorem checkout_cheese_burgers_points :
    (checkout cheeseBurgerCartSystem "user" "123 Main St" "9876543210" "skip" 2 0 0).map
        (fun r => nodeAccount (searchUser r.1.userRoot "user")) =
      some (some { username := "user", password := "user123", address := "123 Main St",
                   phone := "9876543210", loyaltyPoints := 5318 }) := by
  have hlt : ¬ ['u', 's', 'e', 'r'] < ['a', 'd', 'm', 'i', 'n'] := by decide
  unfold checkout
  rw [checkoutFloatTotal_cheese_burgers]
  simp [cheeseBurgerCartSystem, emptyQueue, enqueueDelivery, insertOrderHistory,
    createOrderHistory, addLoyaltyPoints, searchUser, nodeAccount,
    loyaltyPointsFor_cheese_burgers, hlt]

/-- The checkout of two Margherita pizzas credits 312 points to the account `user`. -/
theorem checkout_pizza_points :
    (checkout pizzaCartSystem "user" "123 Main St" "9876543210" "skip" 2 0 0).map
        (fun r => nodeAccount (searchUser r.1.userRoot "user")) =
      some (some { username := "user", password := "user123", address := "123 Main St",
                   phone := "9876543210", loyaltyPoints := 312 }) := by
  have hlt : ¬ ['u', 's', 'e', 'r'] < ['a', 'd', 'm', 'i', 'n'] := by decide
  unfold checkout
  rw [checkoutFloatTotal_pizza]
  simp [pizzaCartSystem, emptyQueue, enqueueDelivery, insertOrderHistory,
    createOrderHistory, addLoyaltyPoints, searchUser, nodeAccount,
    loyaltyPointsFor_pizza, hlt]

/-- The cart of 49 Onion Rings is reached from the start-up state by one `addToCart`. -/
theorem runSystem_onion_rings :
    runSystem
        (startSystem
          [{ id := 8, name := "Onion Rings", category := "Sides", price := 499 / 100,
             stock := 80 }]
          [{ code := "WELCOME10", discount := 10 }, { code := "SAVE20", discount := 20 },
            { code := "FIRSTORDER", discount := 15 }]
          (.node "admin" "admin123" "Admin Office" "1234567890" 1000 .nil
            (.node "user" "user123" "123 Main St" "9876543210" 0 .nil .nil)))
        [.addToCart 8 49] =
      some (onionRingsCartSystem, []) := by
  simp [runSystem, stepSystem, startSystem, addToCart, findMenuItem, onionRingsCartSystem]

/-- The `float` -0.25 earns -2 points: its product with 10 is -2.5, truncated toward zero. -/
theorem loyaltyPointsFor_neg_quarter : loyaltyPointsFor (-1 / 4) = -2 := by
  have hfl : IsFloat (-1 / 4 * 10) :=
    ⟨-5, -1, by norm_num, by norm_num, by norm_num, by norm_num⟩
  unfold loyaltyPointsFor
  rw [roundToFloat_of_isFloat _ hfl, truncToInt_of_neg _ (by norm_num), Int.ceil_eq_iff]
  constructor <;> norm_num

/-! ## Claims about accounts -/

/-- C18, as the claim states it, fails: after `addToCart(8, 49)` the checkout of the 49 Onion
Rings at 4.99 passes the `float` total 267.29998779296875 to `addLoyaltyPoints` and the account
`user` goes from 0 to 2673 loyalty points, while floor(total * 10) is 2672: the `float` product
total * 10 is rounded to 2673 before the conversion to `int`. The same holds for
`addLoyaltyPoints` on a directory of the one account. The claim fails for a negative total
too: for the `float` -0.25 the account gets -2 points (the conversion truncates -2.5 toward
zero) while floor(total * 10) is -3. -/
theorem C18_rounded_product_not_floor :
    (runSystem
          (startSystem
            [{ id := 8, name := "Onion Rings", category := "Sides", price := 499 / 100,
               stock := 80 }]
            [{ code := "WELCOME10", discount := 10 }, { code := "SAVE20", discount := 20 },
              { code := "FIRSTORDER", discount := 15 }]
            (.node "admin" "admin123" "Admin Office" "1234567890" 1000 .nil
              (.node "user" "user123" "123 Main St" "9876543210" 0 .nil .nil)))
          [.addToCart 8 49] =
        some (onionRingsCartSystem, []) ∧
      checkoutFloatTotal onionRingsCartSystem "skip" = 4379443 / 16384 ∧
      (checkout onionRingsCartSystem "user" "123 Main St" "9876543210" "skip" 2 0 0).map
          (fun r => nodeAccount (searchUser r.1.userRoot "user")) =
        some (some { username := "user", password := "user123", address := "123 Main St",
                     phone := "9876543210", loyaltyPoints := 2673 }) ∧
      IsFloat (4379443 / 16384) ∧
      nodeAccount (addLoyaltyPoints
          (insertUsers .nil [createUser "user" "user123" "123 Main St" "9876543210"])
          "user" (4379443 / 16384)) =
        some { username := "user", password := "user123", address := "123 Main St",
               phone := "9876543210", loyaltyPoints := 2673 } ∧
      (0 : Int) + ⌊(4379443 / 16384 : Rat) * 10⌋ = 2672) ∧
    (IsFloat (-1 / 4) ∧
      nodeAccount (addLoyaltyPoints
          (insertUsers .nil [createUser "user" "user123" "123 Main St" "9876543210"])
          "user" (-1 / 4)) =
        some { username := "user", password := "user123", address := "123 Main St",
               phone := "9876543210", loyaltyPoints := -2 } ∧
      (0 : Int) + ⌊(-1 / 4 : Rat) * 10⌋ = -3) := by
  have hf : ⌊(4379443 / 16384 : Rat) * 10⌋ = 2672 := by
    rw [Int.floor_eq_iff]
    constructor <;> norm_num
  have hg : ⌊(-1 / 4 : Rat) * 10⌋ = -3 := by
    rw [Int.floor_eq_iff]
    constructor <;> norm_num
  refine ⟨⟨runSystem_onion_rings, checkoutFloatTotal_onion_rings, checkout_onion_rings_points,
      ⟨4379443, -14, by norm_num, by norm_num, by norm_num, by norm_num⟩, ?_, ?_⟩,
    ⟨-1, -2, by norm_num, by norm_num, by norm_num, by norm_num⟩, ?_, ?_⟩
  · simp [insertUsers, insertUser, createUser, addLoyaltyPoints, nodeAccount,
      loyaltyPointsFor_onion_rings]
  · rw [hf]
    rfl
  · simp [insertUsers, insertUser, createUser, addLoyaltyPoints, nodeAccount,
      loyaltyPointsFor_neg_quarter]
  · rw [hg]
    rfl

/-- C18, amended: on a directory built by `insertUser`, `addLoyaltyPoints` adds to the loyalty
points of the account with the username the number `(int)(total * 10)` of the C arithmetic: the
`float` product of the total and 10, rounded to binary32 (nearest, ties to even), then
truncated toward zero. For 0 <= total * 10 < 2^24 the number is floor(total * 10) or one more,
and it is one more exactly when the product is rounded up to the next integer; for a negative
total with -2^24 < total * 10 it is the ceiling of total * 10 or one less; when total * 10 is
an integer below 2^24 in magnitude it is that integer. The account keeps its other fields,
every other account and the shape of the tree are unchanged, and for a username that is not in
the directory the tree is unchanged. A checkout that admits an order calls `addLoyaltyPoints`
with the `float` total of the order. -/
theorem C18_addLoyaltyPoints_rounded_product (accounts : List Account) (username : String)
    (total : Rat) :
    addLoyaltyPoints (insertUsers .nil accounts) username total =
        mapAccounts (fun a => if a.username = username then
          { a with loyaltyPoints := a.loyaltyPoints + truncToInt (roundToFloat (total * 10)) }
          else a)
          (insertUsers .nil accounts) ∧
      (0 ≤ total → total * 10 < 2 ^ 24 →
        (truncToInt (roundToFloat (total * 10)) = ⌊total * 10⌋ ∨
            truncToInt (roundToFloat (total * 10)) = ⌊total * 10⌋ + 1) ∧
          (truncToInt (roundToFloat (total * 10)) = ⌊total * 10⌋ + 1 ↔
            roundToFloat (total * 10) = ((⌊total * 10⌋ + 1 : Int) : Rat))) ∧
      (total < 0 → -2 ^ 24 < total * 10 →
        truncToInt (roundToFloat (total * 10)) = ⌈total * 10⌉ ∨
          truncToInt (roundToFloat (total * 10)) = ⌈total * 10⌉ - 1) ∧
      (∀ n : Int, total * 10 = n → |n| < 2 ^ 24 →
        truncToInt (roundToFloat (total * 10)) = n) ∧
      (username ∉ accounts.map Account.username →
        addLoyaltyPoints (insertUsers .nil accounts) username total =
          insertUsers .nil accounts) ∧
      (∀ (s s2 : System) (address phone promoCode : String) (priority t1 t2 : Int)
        (o : Order),
        checkout s username address phone promoCode priority t1 t2 = some (s2, some o) →
        s2.userRoot = addLoyaltyPoints s.userRoot username (checkoutFloatTotal s promoCode)) := by
  have hmap := addLoyaltyPoints_eq_mapAccounts (insertUsers .nil accounts) username total
    (insertUsers_nil_inv accounts).2
  refine ⟨hmap, ?_, ?_, ?_, ?_, ?_⟩
  · intro h0 hlt
    exact truncToInt_roundToFloat_of_nonneg _ (by positivity) hlt
  · intro h0 hlt
    exact truncToInt_roundToFloat_of_neg _ (by linarith) hlt
  · intro n hn hlt
    rw [hn, roundToFloat_of_isFloat _ (isFloat_intCast n hlt)]
    exact truncToInt_intCast n
  · intro h
    rw [hmap]
    apply mapAccounts_eq_self
    intro a ha
    have hne : ¬ a.username = username := by
      intro he
      apply h
      rw [← names_insertUsers_nil, ← he]
      exact List.mem_map.2 ⟨a, ha, rfl⟩
    simp [hne]
  · intro s s2 address phone promoCode priority t1 t2 o h
    exact checkout_userRoot h

/-- An instance of the amended C18: the `float` total of the pizza checkout,
31.2875995635986328125, earns floor(total * 10) points or one more. -/
theorem C18_addLoyaltyPoints_rounded_product_witness :
    (0 : Rat) ≤ 16403713 / 524288 ∧ (16403713 / 524288 : Rat) * 10 < 2 ^ 24 ∧
      (truncToInt (roundToFloat ((16403713 / 524288 : Rat) * 10)) =
          ⌊(16403713 / 524288 : Rat) * 10⌋ ∨
        truncToInt (roundToFloat ((16403713 / 524288 : Rat) * 10)) =
          ⌊(16403713 / 524288 : Rat) * 10⌋ + 1) :=
  ⟨by norm_num, by norm_num,
    ((C18_addLoyaltyPoints_rounded_product
      [createUser "user" "user123" "123 Main St" "9876543210"] "user"
      (16403713 / 524288)).2.1 (by norm_num) (by norm_num)).1⟩

/-- C19: on a directory built by `insertUser`, inserting an account whose username is present
returns the directory itself (no account is overwritten) and prints the message
`Username already exists!`; `userSignup` with that username reports that the name exists and
leaves the state as it was. For a username that is not present no message is printed, the tree
returned differs from the tree given and `userSignup` reports the creation, so the two outcomes
can be told apart. -/
theorem C19_insertUser_duplicate_rejected (accounts : List Account) (newUser : Account)
    (s : System) (password address phone : String)
    (h : newUser.username ∈ accounts.map Account.username) :
    insertUser (insertUsers .nil accounts) newUser = (insertUsers .nil accounts, true) ∧
      userSignup { s with userRoot := insertUsers .nil accounts } newUser.username password
          address phone =
        ({ s with userRoot := insertUsers .nil accounts }, .alreadyExists) ∧
      ∀ fresh : Account, fresh.username ∉ accounts.map Account.username →
        (insertUser (insertUsers .nil accounts) fresh).2 = false ∧
          (insertUser (insertUsers .nil accounts) fresh).1 ≠ insertUsers .nil accounts ∧
          (userSignup { s with userRoot := insertUsers .nil accounts } fresh.username password
            address phone).2 = .created := by
  have hs := (insertUsers_nil_inv accounts).2
  obtain ⟨h1, h2, h3⟩ := insertUser_inv (insertUsers .nil accounts) newUser hs
  have hflag : (insertUser (insertUsers .nil accounts) newUser).2 = true :=
    h2.2 ((names_insertUsers_nil accounts _).2 h)
  refine ⟨Prod.ext (h3 hflag) hflag, ?_, ?_⟩
  · have hfind := searchUser_insertUsers_nil accounts newUser.username
    simp only [userSignup]
    cases hsr : searchUser (insertUsers .nil accounts) newUser.username with
    | node u p a ph pts l r => rfl
    | nil =>
        exfalso
        rw [hsr] at hfind
        simp only [nodeAccount] at hfind
        have hnone := List.find?_eq_none.1 hfind.symm
        obtain ⟨a, ha, hae⟩ := List.mem_map.1 h
        have := hnone a ha
        simp [hae] at this
  · intro fresh hfresh
    obtain ⟨f1, f2, _⟩ := insertUser_inv (insertUsers .nil accounts) fresh hs
    have hnot : ¬ fresh.username ∈
        (displayUsersInorder (insertUsers .nil accounts)).map Account.username :=
      fun hin => hfresh ((names_insertUsers_nil accounts _).1 hin)
    refine ⟨?_, ?_, ?_⟩
    · cases hb : (insertUser (insertUsers .nil accounts) fresh).2 with
      | false => rfl
      | true => exact absurd (f2.1 hb) hnot
    · intro he
      apply hnot
      have hin : fresh.username ∈
          (displayUsersInorder (insertUser (insertUsers .nil accounts) fresh).1).map
            Account.username := by
        rw [f1, names_insertByName]
        exact Or.inl rfl
      rw [he] at hin
      exact hin
    · have hfind := searchUser_insertUsers_nil accounts fresh.username
      simp only [userSignup]
      cases hsr : searchUser (insertUsers .nil accounts) fresh.username with
      | nil => rfl
      | node u p a ph pts l r =>
          exfalso
          rw [hsr] at hfind
          simp only [nodeAccount] at hfind
          have hsome := List.find?_some hfind.symm
          have hmem := List.mem_of_find?_eq_some hfind.symm
          apply hfresh
          simp only [decide_eq_true_eq] at hsome
          rw [← hsome]
          exact List.mem_map.2 ⟨_, hmem, rfl⟩

/-- An instance of C19: a second signup under the name `user`, with another password. -/
theorem C19_insertUser_duplicate_rejected_witness :
    insertUser (insertUsers .nil [createUser "user" "user123" "123 Main St" "9876543210"])
        (createUser "user" "other" "9 Side St" "5550000") =
      (insertUsers .nil [createUser "user" "user123" "123 Main St" "9876543210"], true) :=
  (C19_insertUser_duplicate_rejected
    [createUser "user" "user123" "123 Main St" "9876543210"]
    (createUser "user" "other" "9 Side St" "5550000") initialSystem "other" "9 Side St"
    "5550000" (by simp [createUser])).1

/-- C20: on a directory built by `insertUser` from the empty tree, `searchUser` returns a node
iff an account with the username was inserted; the node holds the first account inserted under
that name, whose username is the one asked for; otherwise it returns `NULL`. -/
theorem C20_searchUser_finds_first_insertion (accounts : List Account) (username : String) :
    nodeAccount (searchUser (insertUsers .nil accounts) username) =
        accounts.find? (fun a => decide (a.username = username)) ∧
      (searchUser (insertUsers .nil accounts) username ≠ .nil ↔
        username ∈ accounts.map Account.username) ∧
      (nodeAccount (searchUser (insertUsers .nil accounts) username)).map Account.username =
        if username ∈ accounts.map Account.username then some username else none := by
  have hfind := searchUser_insertUsers_nil accounts username
  have hiff : (accounts.find? (fun a => decide (a.username = username))).isSome = true ↔
      username ∈ accounts.map Account.username := by
    rw [List.find?_isSome]
    simp only [decide_eq_true_eq, List.mem_map]
  refine ⟨hfind, ?_, ?_⟩
  · have h1 : searchUser (insertUsers .nil accounts) username ≠ .nil ↔
        (nodeAccount (searchUser (insertUsers .nil accounts) username)).isSome = true := by
      cases searchUser (insertUsers .nil accounts) username <;> simp [nodeAccount]
    rw [h1, hfind, hiff]
  · rw [hfind]
    cases hf : accounts.find? (fun a => decide (a.username = username)) with
    | none =>
        have hn : ¬ username ∈ accounts.map Account.username := by
          rw [← hiff, hf]
          simp
        simp [hn]
    | some a =>
        have hy : username ∈ accounts.map Account.username := by
          rw [← hiff, hf]
          rfl
        have hsome := List.find?_some hf
        simp only [decide_eq_true_eq] at hsome
        simp [hy, hsome]


/-! ## Theorems: size of the order history -/

theorem minNodes_add_two (h : Nat) : minNodes (h + 2) = minNodes (h + 1) + minNodes h + 1 := by
  simp only [minNodes, minNodesPair]
  omega

theorem minNodes_le_succ (h : Nat) : minNodes h ≤ minNodes (h + 1) := by
  cases h with
  | zero => simp [minNodes, minNodesPair]
  | succ h =>
      rw [minNodes_add_two]
      omega

theorem minNodes_mono {a b : Nat} (h : a ≤ b) : minNodes a ≤ minNodes b := by
  induction h with
  | refl => exact Nat.le_refl _
  | step _ ih => exact Nat.le_trans ih (minNodes_le_succ _)

/-- A balanced tree of height `k` has at least `minNodes k` nodes. -/
theorem minNodes_le_nodeCount (t : OrderHistory) (hb : Balanced t) (k : Nat)
    (hk : trueHeight t = k) : minNodes k ≤ nodeCount t := by
  induction t generalizing k with
  | nil =>
      simp only [trueHeight] at hk
      have : k = 0 := by omega
      subst this
      simp [minNodes, minNodesPair]
  | node o s l r ihl ihr =>
      simp only [Balanced] at hb
      simp only [trueHeight] at hk
      have nl := trueHeight_nonneg l
      have nr := trueHeight_nonneg r
      have el : trueHeight l = ((trueHeight l).toNat : Int) := (Int.toNat_of_nonneg nl).symm
      have er : trueHeight r = ((trueHeight r).toNat : Int) := (Int.toNat_of_nonneg nr).symm
      have h1 := ihl hb.1 _ el
      have h2 := ihr hb.2.1 _ er
      simp only [nodeCount]
      by_cases hc : trueHeight r ≤ trueHeight l
      · by_cases h0 : trueHeight l = 0
        · have : k = 1 := by omega
          subst this
          simp only [minNodes, minNodesPair]
          omega
        · obtain ⟨m, hm⟩ : ∃ m : Nat, (trueHeight l).toNat = m + 1 :=
            ⟨(trueHeight l).toNat - 1, by omega⟩
          have hk2 : k = m + 2 := by omega
          subst hk2
          rw [hm] at h1
          have hmr : m ≤ (trueHeight r).toNat := by omega
          have := minNodes_mono hmr
          rw [minNodes_add_two]
          omega
      · obtain ⟨m, hm⟩ : ∃ m : Nat, (trueHeight r).toNat = m + 1 :=
          ⟨(trueHeight r).toNat - 1, by omega⟩
        have hk2 : k = m + 2 := by omega
        subst hk2
        rw [hm] at h2
        have hml : m ≤ (trueHeight l).toNat := by omega
        have := minNodes_mono hml
        rw [minNodes_add_two]
        omega

/-- A strictly ascending list of integers from an interval is no longer than the interval. -/
theorem ascending_length_le (xs : List Int) (lo hi : Int)
    (hs : xs.Pairwise (fun a b => a < b)) (hr : ∀ x ∈ xs, lo ≤ x ∧ x < hi) (hle : lo ≤ hi) :
    (xs.length : Int) ≤ hi - lo := by
  induction xs generalizing lo with
  | nil => simp; omega
  | cons x xs ih =>
      rw [List.pairwise_cons] at hs
      have hx := hr x (List.mem_cons_self x xs)
      have := ih (x + 1) hs.2 (fun y hy => ⟨by have := hs.1 y hy; omega,
        (hr y (List.mem_cons_of_mem x hy)).2⟩) (by omega)
      simp only [List.length_cons, Nat.cast_add, Nat.cast_one]
      omega

theorem minNodes_table :
    ∀ h : Nat, h ≤ 45 → 2 ^ (25 * h) ≤ (minNodes h + 2) ^ 36 := by
  decide

theorem minNodes_46 : 4294967296 < minNodes 46 := by
  decide


/-- From the comparison of powers to the comparison with the logarithm: if
2^(25 h) ≤ (n + 2)^36 then h ≤ 1.44 log2 (n + 2). -/
theorem height_le_log_of_pow_le (h n : Nat) (hp : 2 ^ (25 * h) ≤ (n + 2) ^ 36) :
    (h : Real) ≤ 1.44 * Real.logb 2 ((n : Real) + 2) := by
  have hbase : (0 : Real) < (n : Real) + 2 :=
    add_pos_of_nonneg_of_pos (Nat.cast_nonneg n) two_pos
  have hpos : (0 : Real) < ((n : Real) + 2) ^ 36 := pow_pos hbase 36
  have hcast : ((2 ^ (25 * h) : Nat) : Real) ≤ (((n + 2) ^ 36 : Nat) : Real) :=
    Nat.cast_le.2 hp
  rw [Nat.cast_pow, Nat.cast_pow, Nat.cast_add] at hcast
  have hreal : (2 : Real) ^ (((25 * h : Nat) : Real)) ≤ ((n : Real) + 2) ^ 36 := by
    rw [Real.rpow_natCast]
    exact hcast
  have hlog := (Real.le_logb_iff_rpow_le (by norm_num : (1 : Real) < 2) hpos).2 hreal
  rw [Real.logb_pow, Nat.cast_mul] at hlog
  have h36 : ((36 : Nat) : Real) = 36 := by norm_num
  have h25 : ((25 : Nat) : Real) = 25 := by norm_num
  rw [h36, h25] at hlog
  have e : (1.44 : Real) = 36 / 25 := by norm_num
  rw [e]
  linarith

/-- A history built from orders whose ids are C `int`s has at most 2^32 nodes. -/
theorem nodeCount_le_of_cint (t : OrderHistory)
    (hs : AscendingIds (displayOrderHistoryInorder t))
    (hr : ∀ a ∈ displayOrderHistoryInorder t, IsCInt a.orderId) :
    nodeCount t ≤ 4294967296 := by
  rw [nodeCount_eq_length]
  have h := ascending_length_le ((displayOrderHistoryInorder t).map Order.orderId)
    (-2147483648) 2147483648 ((ascendingIds_iff_ids _).1 hs)
    (by
      intro x hx
      obtain ⟨a, ha, hae⟩ := List.mem_map.1 hx
      rw [← hae]
      exact hr a ha)
    (by norm_num)
  rw [List.length_map] at h
  omega

/-- C21: every history built by `insertOrderHistory` from the empty tree has at least the
minimum AVL node count for its height, `minNodes h`, where the height `h` is the stored height of
the root and equals the true height; and when the order ids are C `int`s (32 bits), so that the
tree has at most 2^32 nodes, `h ≤ 1.44 * log2 (n + 2)` for its number of nodes `n`. -/
theorem C21_height_logarithmic (os : List Order) (hint : ∀ o ∈ os, IsCInt o.orderId) :
    ∃ t, insertOrders .nil os = some t ∧ height t = trueHeight t ∧
      minNodes (height t).toNat ≤ nodeCount t ∧
      (height t : Real) ≤ 1.44 * Real.logb 2 ((nodeCount t : Real) + 2) := by
  obtain ⟨t, e, hh, hb, hi, hs⟩ := insertOrders_nil_inv os
  have hheight := height_eq_trueHeight hh
  have hnn := trueHeight_nonneg t
  have hcast : trueHeight t = ((trueHeight t).toNat : Int) := (Int.toNat_of_nonneg hnn).symm
  have hmin := minNodes_le_nodeCount t hb _ hcast
  have hc : (trueHeight t : Real) = (((trueHeight t).toNat : Nat) : Real) := by
    rw [← Int.cast_natCast, ← hcast]
  have hrange : ∀ a ∈ displayOrderHistoryInorder t, IsCInt a.orderId := by
    intro a ha
    have hm : a.orderId ∈ (displayOrderHistoryInorder t).map Order.orderId :=
      List.mem_map.2 ⟨a, ha, rfl⟩
    rw [hi, ids_foldl_insertById] at hm
    rcases hm with hm | hm
    · simp at hm
    · obtain ⟨o, ho, hoe⟩ := List.mem_map.1 hm
      rw [← hoe]
      exact hint o ho
  have hcount := nodeCount_le_of_cint t hs hrange
  have h45 : (trueHeight t).toNat ≤ 45 := by
    by_contra hgt
    have h46 : 46 ≤ (trueHeight t).toNat := by omega
    have := minNodes_mono h46
    have := minNodes_46
    omega
  have hpow : 2 ^ (25 * (trueHeight t).toNat) ≤ (nodeCount t + 2) ^ 36 :=
    Nat.le_trans (minNodes_table _ h45) (Nat.pow_le_pow_left (by omega) 36)
  have hreal := height_le_log_of_pow_le _ _ hpow
  refine ⟨t, e, hheight, ?_, ?_⟩
  · rw [hheight]
    exact hmin
  · rw [hheight, hc]
    exact hreal

/-- An instance of C21: the history built from the ids 1000, 1005, 1002, 1010, 1007. -/
theorem C21_height_logarithmic_witness :
    (∀ o ∈ [sampleOrder 1000 1, sampleOrder 1005 1, sampleOrder 1002 1, sampleOrder 1010 1,
        sampleOrder 1007 1], IsCInt o.orderId) ∧
      ∃ t, insertOrders .nil [sampleOrder 1000 1, sampleOrder 1005 1, sampleOrder 1002 1,
          sampleOrder 1010 1, sampleOrder 1007 1] = some t ∧ height t = trueHeight t ∧
        minNodes (height t).toNat ≤ nodeCount t ∧
        (height t : Real) ≤ 1.44 * Real.logb 2 ((nodeCount t : Real) + 2) :=
  ⟨by decide, C21_height_logarithmic _ (by decide)⟩


/-! ## Claims about the account directory listing -/

/-- C22: for every sequence of accounts inserted with `insertUser` into the empty directory, the
in-order traversal (the order of `displayUsersInorder` and `saveUsersInorder`) lists the
usernames in strictly ascending order, with no username twice, and the usernames listed are
exactly the usernames inserted: the listing is the sorted list of the distinct usernames. -/
theorem C22_users_inorder_ascending (accounts : List Account) :
    AscendingNames (displayUsersInorder (insertUsers .nil accounts)) ∧
      ((displayUsersInorder (insertUsers .nil accounts)).map Account.username).Nodup ∧
      (∀ u, u ∈ (displayUsersInorder (insertUsers .nil accounts)).map Account.username ↔
        u ∈ accounts.map Account.username) ∧
      (displayUsersInorder (insertUsers .nil accounts)).map Account.username =
        (accounts.map Account.username).toFinset.sort (fun a b => a ≤ b) := by
  have hs := (insertUsers_nil_inv accounts).2
  have hsorted : ((displayUsersInorder (insertUsers .nil accounts)).map
      Account.username).Sorted (fun a b => a < b) := by
    unfold AscendingNames at hs
    exact List.pairwise_map.2 hs
  have hmem := names_insertUsers_nil accounts
  refine ⟨hs, hsorted.nodup, hmem, ?_⟩
  have hfin : (accounts.map Account.username).toFinset =
      ((displayUsersInorder (insertUsers .nil accounts)).map Account.username).toFinset := by
    ext u
    simp only [List.mem_toFinset]
    exact (hmem u).symm
  rw [hfin]
  exact ((List.toFinset_sort (fun a b : String => a ≤ b) hsorted.nodup).2
    hsorted.le_of_lt).symm


/-! ## Claims about promo codes -/

theorem floor_zero_eq_max (a : Int) : (if a < 0 then 0 else a) = max a 0 := by
  split <;> omega

theorem updateStock_of_not_found (menu : List FoodItem) (itemId quantity : Int)
    (h : findMenuItem menu itemId = none) : updateStock menu itemId quantity = menu := by
  induction menu with
  | nil => rfl
  | cons c next ih =>
      simp only [findMenuItem] at h
      by_cases hc : c.id = itemId
      · simp [hc] at h
      · simp only [hc, if_false] at h
        simp only [updateStock, hc, if_false, ih h]

/-- `updateStock` position by position: the first item with the id gets the stock
max (stock - quantity, 0); every other position keeps its item. -/
theorem getElem?_updateStock (menu : List FoodItem) (itemId quantity : Int) (j : Nat) :
    (updateStock menu itemId quantity)[j]? =
      if menu.findIdx? (fun i => decide (i.id = itemId)) = some j then
        menu[j]?.map (fun item => { item with stock := max (item.stock - quantity) 0 })
      else menu[j]? := by
  induction menu generalizing j with
  | nil => simp [updateStock]
  | cons c next ih =>
      rw [updateStock, List.findIdx?_cons]
      by_cases hc : c.id = itemId
      · simp only [hc, if_true, decide_True]
        cases j with
        | zero =>
            simp only [List.getElem?_cons_zero, if_true, Option.map_some', Option.some.injEq]
            rw [floor_zero_eq_max, hc]
        | succ k => simp
      · simp only [hc, if_false, decide_False, Bool.false_eq_true]
        rw [List.findIdx?_succ]
        cases j with
        | zero =>
            simp only [List.getElem?_cons_zero]
            cases next.findIdx? (fun i => decide (i.id = itemId)) <;> simp
        | succ k =>
            simp only [List.getElem?_cons_succ, ih k]
            cases next.findIdx? (fun i => decide (i.id = itemId)) <;> simp

theorem stock_nonneg_updateStock (menu : List FoodItem) (itemId quantity : Int)
    (h : ∀ item ∈ menu, 0 ≤ item.stock) :
    ∀ item ∈ updateStock menu itemId quantity, 0 ≤ item.stock := by
  induction menu with
  | nil => simp [updateStock]
  | cons c next ih =>
      rw [updateStock]
      by_cases hc : c.id = itemId
      · simp only [hc, if_true]
        intro item hi
        rcases List.mem_cons.1 hi with hi | hi
        · rw [hi]
          simp only
          split <;> omega
        · exact h item (List.mem_cons_of_mem c hi)
      · simp only [hc, if_false]
        intro item hi
        rcases List.mem_cons.1 hi with hi | hi
        · rw [hi]
          exact h c (List.mem_cons_self c next)
        · exact ih (fun x hx => h x (List.mem_cons_of_mem c hx)) item hi

/-- After `updateStock`, the item `findMenuItem` returns for an id is the item it returned
before, with its stock floored at zero when it is the id updated. -/
theorem findMenuItem_updateStock (menu : List FoodItem) (itemId quantity x : Int) :
    findMenuItem (updateStock menu itemId quantity) x =
      (findMenuItem menu x).map (fun item =>
        if x = itemId then { item with stock := max (item.stock - quantity) 0 } else item) := by
  induction menu with
  | nil => rfl
  | cons c next ih =>
      rw [updateStock]
      by_cases hc : c.id = itemId
      · by_cases hx : x = itemId
        · subst hx
          simp only [hc, if_true, findMenuItem, Option.map_some']
          rw [floor_zero_eq_max]
        · have hx2 : ¬ c.id = x := fun h => hx (h.symm.trans hc)
          simp only [hc, if_true, findMenuItem, hx, if_false]
          have hx3 : ¬ itemId = x := fun h => hx h.symm
          simp only [hx3, if_false, hx2]
          cases findMenuItem next x <;> simp
      · simp only [hc, if_false, findMenuItem]
        by_cases hx : c.id = x
        · have hx2 : ¬ x = itemId := fun h => hc (hx.trans h)
          simp [hx, hx2]
        · simp only [hx, if_false]
          exact ih

theorem addCartItems_menu (cart : List CartItem) (order : Order) (menu : List FoodItem) :
    (addCartItems cart order menu).2 =
      cart.foldl (fun m c => updateStock m c.itemId c.quantity) menu := by
  induction cart generalizing order menu with
  | nil => rfl
  | cons c cart ih => simp only [addCartItems, List.foldl_cons, ih]

theorem stock_nonneg_foldl (cart : List CartItem) (menu : List FoodItem)
    (h : ∀ item ∈ menu, 0 ≤ item.stock) :
    ∀ item ∈ cart.foldl (fun m c => updateStock m c.itemId c.quantity) menu,
      0 ≤ item.stock := by
  induction cart generalizing menu with
  | nil => exact h
  | cons c cart ih =>
      exact ih _ (stock_nonneg_updateStock menu c.itemId c.quantity h)

/-- The stock of the item found for an id, once not negative, stays so under the stock updates
of further cart lines. -/
theorem found_stock_nonneg_foldl (cart : List CartItem) (menu : List FoodItem) (x : Int)
    (h : ∀ item, findMenuItem menu x = some item → 0 ≤ item.stock) :
    ∀ item, findMenuItem (cart.foldl (fun m c => updateStock m c.itemId c.quantity) menu) x =
      some item → 0 ≤ item.stock := by
  induction cart generalizing menu with
  | nil => exact h
  | cons c cart ih =>
      apply ih
      intro item hi
      rw [findMenuItem_updateStock] at hi
      cases hf : findMenuItem menu x with
      | none => simp [hf] at hi
      | some found =>
          simp only [hf, Option.map_some', Option.some.injEq] at hi
          rw [← hi]
          by_cases hx : x = c.itemId
          · simp only [hx, if_true]
            omega
          · simp only [hx, if_false]
            exact h found hf

theorem touched_stock_nonneg_foldl (cart : List CartItem) (menu : List FoodItem) :
    ∀ c ∈ cart, ∀ item,
      findMenuItem (cart.foldl (fun m c => updateStock m c.itemId c.quantity) menu) c.itemId =
        some item → 0 ≤ item.stock := by
  induction cart generalizing menu with
  | nil => simp
  | cons d cart ih =>
      intro c hc
      rcases List.mem_cons.1 hc with hc | hc
      · subst hc
        simp only [List.foldl_cons]
        apply found_stock_nonneg_foldl
        intro item hi
        rw [findMenuItem_updateStock] at hi
        cases hf : findMenuItem menu c.itemId with
        | none => simp [hf] at hi
        | some found =>
            simp only [hf, Option.map_some', if_true, Option.some.injEq] at hi
            rw [← hi]
            simp only
            omega
      · simp only [List.foldl_cons]
        exact ih _ c hc


/-- The stock after a checkout that admits an order is the stock after the cart loop. -/
theorem checkout_menu {s s2 : System} {username address phone promoCode : String}
    {priority t1 t2 : Int} {o : Order}
    (h : checkout s username address phone promoCode priority t1 t2 = some (s2, some o)) :
    s2.menuHead = s.cart.foldl (fun m c => updateStock m c.itemId c.quantity) s.menuHead := by
  unfold checkout at h
  by_cases hc : s.cart = []
  · simp [hc] at h
  · simp only [hc, if_false] at h
    cases he : enqueueDelivery s.delivery
        (checkoutOrder s username address phone promoCode priority t1 t2).1 with
    | none => simp [he] at h
    | some q =>
        cases hi : insertOrderHistory s.historyRoot
            (checkoutOrder s username address phone promoCode priority t1 t2).1 with
        | none => simp [he, hi] at h
        | some t =>
            simp only [he, hi, Option.bind, Option.some.injEq, Prod.mk.injEq] at h
            rw [← h.1]
            simp only [checkoutOrder]
            rw [addCartItems_menu]

/-! ## Claims about stock -/

/-- C24, as the claim states it, fails in its last sentence: after the administrator has added
a menu item with stock -5 and a user has checked out two pizzas, the stock of the pizza is 48
and the stock of the other item is still -5. -/
theorem C24_untouched_negative_stock_remains :
    (runSystem
        (startSystem
          [{ id := 1, name := "Margherita Pizza", category := "Pizza", price := 1299 / 100,
             stock := 50 }] [] .nil)
        [.addToMenu 2 "Garlic Bread" "Sides" (299 / 100) (-5), .addToCart 1 2,
          .checkout "user" "123 Main St" "9876543210" "skip" 2 0 0]).map
      (fun r => (r.1.menuHead.map FoodItem.stock, r.2.length)) = some ([48, -5], 1) := by
  simp [runSystem, stepSystem, startSystem, addToCart, findMenuItem, checkout, checkoutOrder,
    addCartItems, updateStock, emptyQueue, enqueueDelivery, insertOrderHistory,
    createOrderHistory]

/-- C24, amended: `updateStock` leaves the catalog as it is when no item has the id; otherwise
the first item with the id gets the stock max (stock - quantity, 0) and every other item and
field is unchanged. Consequently a checkout never makes a stock negative: when no item has
negative stock before a checkout none has after it, and the item found for the id of any cart
line has stock at least 0 after it. -/
theorem C24_updateStock_floors_at_zero (s s2 : System)
    (username address phone promoCode : String) (priority t1 t2 : Int) (o : Order)
    (h : checkout s username address phone promoCode priority t1 t2 = some (s2, some o)) :
    (∀ (menu : List FoodItem) (itemId quantity : Int),
      findMenuItem menu itemId = none → updateStock menu itemId quantity = menu) ∧
    (∀ (menu : List FoodItem) (itemId quantity : Int) (j : Nat),
      (updateStock menu itemId quantity)[j]? =
        if menu.findIdx? (fun i => decide (i.id = itemId)) = some j then
          menu[j]?.map (fun item => { item with stock := max (item.stock - quantity) 0 })
        else menu[j]?) ∧
    ((∀ item ∈ s.menuHead, 0 ≤ item.stock) → ∀ item ∈ s2.menuHead, 0 ≤ item.stock) ∧
    (∀ c ∈ s.cart, ∀ item, findMenuItem s2.menuHead c.itemId = some item →
      0 ≤ item.stock) := by
  have hm := checkout_menu h
  refine ⟨updateStock_of_not_found, getElem?_updateStock, ?_, ?_⟩
  · intro hnn
    rw [hm]
    exact stock_nonneg_foldl s.cart s.menuHead hnn
  · rw [hm]
    exact touched_stock_nonneg_foldl s.cart s.menuHead

/-- An instance of the amended C24: after the checkout of two pizzas no stock is negative. -/
theorem C24_updateStock_floors_at_zero_witness :
    (∀ item ∈ pizzaCartSystem.menuHead, 0 ≤ item.stock) ∧
      ∀ item ∈ (checkoutOrder pizzaCartSystem "user" "123 Main St" "9876543210"
        "skip" 2 0 0).2, 0 ≤ item.stock :=
  ⟨by simp [pizzaCartSystem],
    (C24_updateStock_floors_at_zero pizzaCartSystem _ "user" "123 Main St" "9876543210"
      "skip" 2 0 0 _ checkout_pizza).2.2.1 (by simp [pizzaCartSystem])⟩


/-! ## Claims about line items -/

theorem findMenuItem_mem (menu : List FoodItem) (id : Int) (item : FoodItem)
    (h : findMenuItem menu id = some item) : item ∈ menu ∧ item.id = id := by
  induction menu with
  | nil => simp [findMenuItem] at h
  | cons c next ih =>
      simp only [findMenuItem] at h
      by_cases hc : c.id = id
      · simp only [hc, if_true, Option.some.injEq] at h
        rw [← h]
        exact ⟨List.mem_cons_self _ _, hc⟩
      · simp only [hc, if_false] at h
        exact ⟨List.mem_cons_of_mem _ (ih h).1, (ih h).2⟩

theorem cartWithinStock_addToCart (menu : List FoodItem) (cart : List CartItem)
    (itemId quantity : Int) (h : CartWithinStock menu cart) :
    CartWithinStock menu (addToCart menu cart itemId quantity) := by
  unfold addToCart
  cases hf : findMenuItem menu itemId with
  | none => exact h
  | some item =>
      simp only
      by_cases hs : item.stock < quantity
      · simp only [hs, if_true]
        exact h
      · simp only [hs, if_false]
        intro c hc
        rcases List.mem_append.1 hc with hc | hc
        · exact h c hc
        · rw [List.mem_singleton] at hc
          rw [hc]
          exact ⟨item, hf, rfl, by simp only; omega⟩

/-- A run of `addToCart` calls leaves the menu as it is and yields a cart whose lines are
within the stock of the menu. -/
theorem runSystem_addToCart (calls : List (Int × Int)) (s0 s : System) (log : List Order)
    (h : runSystem s0 (calls.map (fun c => SysOp.addToCart c.1 c.2)) = some (s, log))
    (hc : CartWithinStock s0.menuHead s0.cart) :
    s.menuHead = s0.menuHead ∧ CartWithinStock s0.menuHead s.cart := by
  induction calls generalizing s0 s log with
  | nil =>
      simp only [List.map_nil, runSystem, Option.some.injEq, Prod.mk.injEq] at h
      rw [← h.1]
      exact ⟨rfl, hc⟩
  | cons c calls ih =>
      simp only [List.map_cons, runSystem, stepSystem, Option.bind] at h
      cases hr : runSystem { s0 with cart := addToCart s0.menuHead s0.cart c.1 c.2 }
          (calls.map (fun c => SysOp.addToCart c.1 c.2)) with
      | none => simp [hr] at h
      | some r =>
          obtain ⟨s1, log1⟩ := r
          simp only [hr, Option.map, Option.some.injEq, Prod.mk.injEq] at h
          obtain ⟨h1, _⟩ := h
          subst h1
          have hstep := ih { s0 with cart := addToCart s0.menuHead s0.cart c.1 c.2 } _ _ hr
            (cartWithinStock_addToCart _ _ _ _ hc)
          exact hstep

/-- C25, as the claim states it, fails: `addToCart` with quantity -1 is accepted (the stock 50
is not below -1), and the checkout that follows admits an order whose one line item has
quantity -1. -/
theorem C25_negative_quantity_admitted :
    (runSystem
        (startSystem
          [{ id := 1, name := "Margherita Pizza", category := "Pizza", price := 1299 / 100,
             stock := 50 }] [] .nil)
        [.addToCart 1 (-1), .checkout "user" "123 Main St" "9876543210" "skip" 2 0 0]).map
      (fun r => r.2.map (fun o => o.items.map OrderItem.quantity)) = some [[-1]] := by
  simp [runSystem, stepSystem, startSystem, addToCart, findMenuItem, checkout, checkoutOrder,
    addCartItems, addItemToOrder, emptyQueue, enqueueDelivery, insertOrderHistory,
    createOrderHistory]

/-- C25, amended: for every sequence of `addToCart` calls with any integer quantities on the
empty cart, against a catalog with non-negative prices, followed by `checkout`, every line item
of the admitted order is for an item of the catalog, has the unit price of that item, which is
at least 0, and has a quantity that is at most the stock of that item; the quantity may be zero
or negative. -/
theorem C25_line_items_within_stock (menuHead : List FoodItem) (promoHead : List PromoCode)
    (userRoot : User) (calls : List (Int × Int)) (s s2 : System) (log : List Order)
    (username address phone promoCode : String) (priority t1 t2 : Int) (o : Order)
    (hprice : ∀ item ∈ menuHead, 0 ≤ item.price)
    (hrun : runSystem (startSystem menuHead promoHead userRoot)
      (calls.map (fun c => SysOp.addToCart c.1 c.2)) = some (s, log))
    (hco : checkout s username address phone promoCode priority t1 t2 = some (s2, some o)) :
    ∀ line ∈ o.items, 0 ≤ line.price ∧
      ∃ item, findMenuItem menuHead line.itemId = some item ∧ line.price = item.price ∧
        line.quantity ≤ item.stock := by
  have hinit : CartWithinStock (startSystem menuHead promoHead userRoot).menuHead
      (startSystem menuHead promoHead userRoot).cart := by
    intro c hc
    simp [startSystem] at hc
  obtain ⟨_, hcart⟩ := runSystem_addToCart calls _ s log hrun hinit
  obtain ⟨_, ho⟩ := checkout_admits hco
  intro line hline
  rw [ho, checkoutOrder_eq] at hline
  simp only [List.mem_map] at hline
  obtain ⟨c, hc, hce⟩ := hline
  obtain ⟨item, hf, hp, hq⟩ := hcart c hc
  have hf2 : findMenuItem menuHead c.itemId = some item := hf
  rw [← hce]
  simp only [cartLineItem]
  refine ⟨?_, item, hf2, hp, hq⟩
  rw [hp]
  exact hprice item (findMenuItem_mem _ _ _ hf2).1

/-- An instance of the amended C25: two pizzas added to the cart and checked out; the admitted
line has the price 12.99 of the menu item and a quantity within its stock. -/
theorem C25_line_items_within_stock_witness :
    (0 : Rat) ≤ (cartLineItem ⟨1, "Margherita Pizza", 2, 1299 / 100⟩).price ∧
      ∃ item, findMenuItem pizzaCartSystem.menuHead
          (cartLineItem ⟨1, "Margherita Pizza", 2, 1299 / 100⟩).itemId = some item ∧
        (cartLineItem ⟨1, "Margherita Pizza", 2, 1299 / 100⟩).price = item.price ∧
        (cartLineItem ⟨1, "Margherita Pizza", 2, 1299 / 100⟩).quantity ≤ item.stock :=
  C25_line_items_within_stock pizzaCartSystem.menuHead pizzaCartSystem.promoHead
    pizzaCartSystem.userRoot [(1, 2)] pizzaCartSystem _ [] "user" "123 Main St" "9876543210"
    "skip" 2 0 0 _ (by norm_num [pizzaCartSystem]) runSystem_pizza checkout_pizza
    (cartLineItem ⟨1, "Margherita Pizza", 2, 1299 / 100⟩)
    (by rw [checkoutOrder_eq]; simp [pizzaCartSystem])

/-! ## Theorems: the history holds every order -/

theorem ids_modifyAt (f : Order → Order) (os : List Order) (i : Nat)
    (hf : ∀ a, (f a).orderId = a.orderId) :
    (modifyAt f os i).map Order.orderId = os.map Order.orderId := by
  induction os generalizing i with
  | nil => rfl
  | cons a os ih =>
      cases i with
      | zero => simp [modifyAt, hf a]
      | succ i => simp [modifyAt, ih i]

theorem mem_ids_of_mem {a : Order} {os : List Order} (h : a ∈ os) :
    a.orderId ∈ os.map Order.orderId :=
  List.mem_map.2 ⟨a, h, rfl⟩

theorem mem_popOrder (a : Order) (os : List Order) (h : a ∈ (popOrder os).2) : a ∈ os := by
  cases os with
  | nil => simp [popOrder] at h
  | cons b os => exact List.mem_cons_of_mem b (by simpa [popOrder] using h)

theorem mem_dequeueDelivery (a : Order) (q : DeliveryQueue)
    (h : a ∈ (dequeueDelivery q).2.deliveryFront) : a ∈ q.deliveryFront := by
  obtain ⟨front, rear⟩ := q
  cases front with
  | nil => simp [dequeueDelivery] at h
  | cons b os => exact List.mem_cons_of_mem b (by simpa [dequeueDelivery] using h)

/-- Every action keeps the ids on the stack and in the queue among the ids of the history. -/
theorem ordersIndexed_step (s : System) (op : SysOp) (hw : WellFormed s)
    (hx : OrdersIndexed s) (s1 : System) (oo : Option Order)
    (h : stepSystem s op = some (s1, oo)) : OrdersIndexed s1 := by
  cases op with
  | addToMenu id name category price stock =>
      simp only [stepSystem, Option.some.injEq, Prod.mk.injEq] at h
      rw [← h.1]
      exact hx
  | addToCart itemId quantity =>
      simp only [stepSystem, Option.some.injEq, Prod.mk.injEq] at h
      rw [← h.1]
      exact hx
  | removeFromCart itemId =>
      simp only [stepSystem, Option.some.injEq, Prod.mk.injEq] at h
      rw [← h.1]
      exact hx
  | checkout username address phone promoCode priority t1 t2 =>
      simp only [stepSystem] at h
      by_cases hc : s.cart = []
      · simp only [checkout, hc, if_true, Option.some.injEq, Prod.mk.injEq] at h
        rw [← h.1]
        exact hx
      · obtain ⟨t2h, _, _, _, hi2, e⟩ :=
          checkout_eq s username address phone promoCode priority t1 t2 hw hc
        rw [e] at h
        simp only [Option.some.injEq, Prod.mk.injEq] at h
        rw [← h.1]
        constructor
        · intro a ha
          simp only at ha ⊢
          rw [hi2, List.map_append, List.mem_append]
          rcases List.mem_cons.1 ha with ha | ha
          · right
            rw [ha]
            simp
          · exact Or.inl (hx.1 a ha)
        · intro a ha
          simp only at ha ⊢
          rw [hi2, List.map_append, List.mem_append]
          rcases (mem_insertAfterScan _ _ _).1 ha with ha | ha
          · right
            rw [ha]
            simp
          · exact Or.inl (hx.2 a ha)
  | processNextOrder =>
      simp only [stepSystem, Option.some.injEq, Prod.mk.injEq] at h
      rw [← h.1]
      exact ⟨fun a ha => hx.1 a (mem_popOrder a _ ha), hx.2⟩
  | dequeueDelivery =>
      simp only [stepSystem, Option.some.injEq, Prod.mk.injEq] at h
      rw [← h.1]
      exact ⟨hx.1, fun a ha => hx.2 a (mem_dequeueDelivery a _ ha)⟩
  | updateStatus orderId newStatus now =>
      simp only [stepSystem, Option.some.injEq, Prod.mk.injEq] at h
      rw [← h.1]
      simp only [adminUpdateStatus]
      cases hp : searchOrderById s orderId with
      | none => exact hx
      | some p =>
          simp only
          have hids := (wellFormed_updateOrderStatusAt s p newStatus now hw).2.2
          have hf : ∀ a, (updateOrderStatus a newStatus now).orderId = a.orderId :=
            fun a => rfl
          constructor
          · intro a ha
            rw [hids]
            have hm := mem_ids_of_mem ha
            cases p with
            | stackNode i =>
                simp only [updateOrderStatusAt] at hm
                rw [ids_modifyAt _ _ _ hf] at hm
                obtain ⟨b, hb, hbe⟩ := List.mem_map.1 hm
                rw [← hbe]
                exact hx.1 b hb
            | queueNode i => exact hx.1 a ha
            | historyNode k => exact hx.1 a ha
          · intro a ha
            rw [hids]
            have hm := mem_ids_of_mem ha
            cases p with
            | stackNode i => exact hx.2 a ha
            | queueNode i =>
                simp only [updateOrderStatusAt] at hm
                rw [ids_modifyAt _ _ _ hf] at hm
                obtain ⟨b, hb, hbe⟩ := List.mem_map.1 hm
                rw [← hbe]
                exact hx.2 b hb
            | historyNode k => exact hx.2 a ha
  | signup username password address phone =>
      simp only [stepSystem, Option.some.injEq, Prod.mk.injEq] at h
      rw [← h.1]
      simp only [userSignup]
      cases searchUser s.userRoot username with
      | nil => exact hx
      | node u p a ph pts l r => exact hx
  | addPromoCode code discount =>
      simp only [stepSystem, Option.some.injEq, Prod.mk.injEq] at h
      rw [← h.1]
      exact hx

theorem ordersIndexed_run (ops : List SysOp) (s s2 : System) (log : List Order)
    (hw : WellFormed s) (hx : OrdersIndexed s) (h : runSystem s ops = some (s2, log)) :
    OrdersIndexed s2 := by
  induction ops generalizing s log with
  | nil =>
      simp only [runSystem, Option.some.injEq, Prod.mk.injEq] at h
      rw [← h.1]
      exact hx
  | cons op ops ih =>
      obtain ⟨s1, oo, e1, hw1, _⟩ := stepSystem_inv s op hw
      have hx1 := ordersIndexed_step s op hw hx s1 oo e1
      simp only [runSystem, e1, Option.bind] at h
      cases hr : runSystem s1 ops with
      | none => simp [hr] at h
      | some r =>
          obtain ⟨s3, log3⟩ := r
          simp only [hr, Option.map, Option.some.injEq, Prod.mk.injEq] at h
          obtain ⟨h1, _⟩ := h
          subst h1
          exact ih s1 log3 hw1 hx1 hr

/-- A run of two sequences of actions one after the other is the run of the first followed by
the run of the second from the state reached. -/
theorem runSystem_append (ops ops2 : List SysOp) (s : System) :
    runSystem s (ops ++ ops2) =
      (runSystem s ops).bind fun r =>
        (runSystem r.1 ops2).map fun r2 => (r2.1, r.2 ++ r2.2) := by
  induction ops generalizing s with
  | nil =>
      simp only [List.nil_append, runSystem, Option.bind, List.nil_append]
      cases runSystem s ops2 <;> simp
  | cons op ops ih =>
      rw [List.cons_append, runSystem, runSystem]
      cases hst : stepSystem s op with
      | none => simp
      | some r1 =>
          simp only [Option.bind]
          rw [ih r1.1]
          cases h1 : runSystem r1.1 ops with
          | none => simp
          | some r =>
              simp only [Option.bind, Option.map]
              cases h2 : runSystem r.1 ops2 with
              | none => simp
              | some r2 => simp [List.append_assoc]


/-- C26: in every state reached from start-up by a run of actions (checkouts, processing of the
stack, dequeues, status updates and the others), every order id on the stack or in the queue is
found by `searchOrderHistoryById`; the ids found in the history are exactly the ids of the
orders admitted by the checkouts so far; they are still found after any further run of actions;
and `searchOrderById` returns `NULL` exactly for the ids no checkout has assigned. -/
theorem C26_history_holds_every_order (menuHead : List FoodItem) (promoHead : List PromoCode)
    (userRoot : User) (ops ops2 : List SysOp) :
    ∃ s log s2 log2,
      runSystem (startSystem menuHead promoHead userRoot) ops = some (s, log) ∧
      runSystem (startSystem menuHead promoHead userRoot) (ops ++ ops2) =
        some (s2, log ++ log2) ∧
      (∀ a ∈ s.orderStackTop, searchOrderHistoryById s.historyRoot a.orderId ≠ .nil) ∧
      (∀ a ∈ s.delivery.deliveryFront,
        searchOrderHistoryById s.historyRoot a.orderId ≠ .nil) ∧
      (∀ id, searchOrderHistoryById s.historyRoot id ≠ .nil ↔ id ∈ log.map Order.orderId) ∧
      (∀ id, id ∈ log.map Order.orderId →
        searchOrderHistoryById s2.historyRoot id ≠ .nil) ∧
      (∀ id, searchOrderById s id = none ↔ id ∉ log.map Order.orderId) := by
  have hw0 := wellFormed_startSystem menuHead promoHead userRoot
  obtain ⟨s, log, e, hw, _, hi, _⟩ := runSystem_inv ops _ hw0
  obtain ⟨s2, log2, e2, hw2, _, hi2, _⟩ := runSystem_inv ops2 s hw
  have hx0 : OrdersIndexed (startSystem menuHead promoHead userRoot) := by
    constructor <;> intro a ha <;> simp [startSystem, emptyQueue] at ha
  have hx := ordersIndexed_run ops _ s log hw0 hx0 e
  have hids : (displayOrderHistoryInorder s.historyRoot).map Order.orderId =
      log.map Order.orderId := by
    rw [hi]
    simp [startSystem, displayOrderHistoryInorder]
  have hfound : ∀ id, searchOrderHistoryById s.historyRoot id ≠ .nil ↔
      id ∈ log.map Order.orderId := by
    intro id
    rw [← hids, Ne, search_eq_nil_iff _ _ hw.2.2.2.1, not_not]
  refine ⟨s, log, s2, log2, e, ?_, ?_, ?_, hfound, ?_, ?_⟩
  · rw [runSystem_append, e]
    simp only [Option.bind, e2, Option.map]
  · intro a ha
    rw [hfound, ← hids]
    exact hx.1 a ha
  · intro a ha
    rw [hfound, ← hids]
    exact hx.2 a ha
  · intro id hid
    rw [Ne, search_eq_nil_iff _ _ hw2.2.2.2.1, not_not, hi2, hids, List.mem_append]
    exact Or.inl hid
  · intro id
    have hnone : searchOrderById s id = none ↔
        id ∉ s.orderStackTop.map Order.orderId ∧
          id ∉ s.delivery.deliveryFront.map Order.orderId ∧
          id ∉ (displayOrderHistoryInorder s.historyRoot).map Order.orderId := by
      rw [← scanForId_eq_none, ← scanForId_eq_none, ← search_eq_nil_iff _ _ hw.2.2.2.1]
      simp only [searchOrderById]
      cases h1 : scanForId s.orderStackTop id with
      | some i => simp
      | none =>
          cases h2 : scanForId s.delivery.deliveryFront id with
          | some i => simp
          | none =>
              cases hsr : searchOrderHistoryById s.historyRoot id with
              | nil => simp
              | node o h l r => simp
    rw [hnone, hids]
    constructor
    · intro h
      exact h.2.2
    · intro h
      refine ⟨?_, ?_, h⟩
      · intro hin
        obtain ⟨a, ha, hae⟩ := List.mem_map.1 hin
        apply h
        rw [← hids, ← hae]
        exact hx.1 a ha
      · intro hin
        obtain ⟨a, ha, hae⟩ := List.mem_map.1 hin
        apply h
        rw [← hids, ← hae]
        exact hx.2 a ha

/-- An instance of C26: the run that puts two pizzas into the cart, checks out, processes the
stack and sets the status of order 1000, followed by a dequeue. -/
theorem C26_history_holds_every_order_witness :
    ∃ s log s2 log2,
      runSystem
          (startSystem
            [{ id := 1, name := "Margherita Pizza", category := "Pizza", price := 1299 / 100,
               stock := 50 }] [] .nil)
          [.addToCart 1 2, .checkout "user" "123 Main St" "9876543210" "skip" 2 0 0,
            .processNextOrder, .updateStatus 1000 3 7] = some (s, log) ∧
      runSystem
          (startSystem
            [{ id := 1, name := "Margherita Pizza", category := "Pizza", price := 1299 / 100,
               stock := 50 }] [] .nil)
          ([.addToCart 1 2, .checkout "user" "123 Main St" "9876543210" "skip" 2 0 0,
            .processNextOrder, .updateStatus 1000 3 7] ++ [.dequeueDelivery]) =
        some (s2, log ++ log2) ∧
      (∀ a ∈ s.orderStackTop, searchOrderHistoryById s.historyRoot a.orderId ≠ .nil) ∧
      (∀ a ∈ s.delivery.deliveryFront,
        searchOrderHistoryById s.historyRoot a.orderId ≠ .nil) ∧
      (∀ id, searchOrderHistoryById s.historyRoot id ≠ .nil ↔ id ∈ log.map Order.orderId) ∧
      (∀ id, id ∈ log.map Order.orderId →
        searchOrderHistoryById s2.historyRoot id ≠ .nil) ∧
      (∀ id, searchOrderById s id = none ↔ id ∉ log.map Order.orderId) :=
  C26_history_holds_every_order _ _ _ _ _

end FoodOrder
